import Mathlib

/-!
# translate-json: the line engine of `parser/parser.go`

A shallow embedding of `Engine.Translate` / `Engine.translate` and of the
library routines they call on every line (`bytes.TrimLeftFunc`,
`json.Decoder.Decode` into a string, `json.Marshal` of a string,
`bufio.Scanner.Scan`).

Conventions
* a Go `[]byte` / `string` is a `List Nat`, one element per byte (values `< 256`);
* Go `int` values that come from length arithmetic are `Int`, so that a negative
  result is visible;
* slicing is checked: an out-of-range slice is a run-time panic, `GoError.panic`.
-/

namespace TranslateJson

/-- A Go byte slice or string: one list element per byte. -/
abbrev Bytes := List Nat

/-- Equality of `Except` values is decidable when it is on both sides. -/
instance instDecidableEqExcept {ε α : Type} [DecidableEq ε] [DecidableEq α] :
    DecidableEq (Except ε α) := fun a b =>
  match a, b with
  | .ok x, .ok y =>
    if h : x = y then isTrue (congrArg Except.ok h)
    else isFalse (fun h2 => h (Except.ok.inj h2))
  | .error x, .error y =>
    if h : x = y then isTrue (congrArg Except.error h)
    else isFalse (fun h2 => h (Except.error.inj h2))
  | .ok _, .error _ => isFalse (fun h => Except.noConfusion h)
  | .error _, .ok _ => isFalse (fun h => Except.noConfusion h)

/-! ## unicode/utf8 -/

/-- The rune `utf8.RuneError` (U+FFFD). -/
def RuneError : Nat := 0xFFFD

/-- Continuation byte test, `locb <= b && b <= hicb`. -/
def isCont (b : Nat) : Bool := 0x80 ≤ b && b ≤ 0xBF

/-- Lower bound of the second byte, from Go `acceptRanges`. -/
def acceptLo (p0 : Nat) : Nat :=
  if p0 = 0xE0 then 0xA0 else if p0 = 0xF0 then 0x90 else 0x80

/-- Upper bound of the second byte, from Go `acceptRanges`. -/
def acceptHi (p0 : Nat) : Nat :=
  if p0 = 0xED then 0x9F else if p0 = 0xF4 then 0x8F else 0xBF

/-- Go `utf8.DecodeRune` on a non-empty slice `p0 :: rest`: the rune and its width.
Invalid or short encodings give `(RuneError, 1)`. The case split is the table
`first` with its accept ranges. -/
def DecodeRune (p0 : Nat) (rest : Bytes) : Nat × Nat :=
  if p0 < 0x80 then (p0, 1)
  else if p0 < 0xC2 then (RuneError, 1)
  else if p0 ≤ 0xDF then
    match rest with
    | b1 :: _ => if isCont b1 then ((p0 % 32) * 64 + b1 % 64, 2) else (RuneError, 1)
    | _ => (RuneError, 1)
  else if p0 ≤ 0xEF then
    match rest with
    | b1 :: b2 :: _ =>
      if b1 < acceptLo p0 || acceptHi p0 < b1 then (RuneError, 1)
      else if !isCont b2 then (RuneError, 1)
      else ((p0 % 16) * 4096 + (b1 % 64) * 64 + b2 % 64, 3)
    | _ => (RuneError, 1)
  else if p0 ≤ 0xF4 then
    match rest with
    | b1 :: b2 :: b3 :: _ =>
      if b1 < acceptLo p0 || acceptHi p0 < b1 then (RuneError, 1)
      else if !isCont b2 then (RuneError, 1)
      else if !isCont b3 then (RuneError, 1)
      else ((p0 % 8) * 262144 + (b1 % 64) * 4096 + (b2 % 64) * 64 + b3 % 64, 4)
    | _ => (RuneError, 1)
  else (RuneError, 1)

/-- Go `utf8.EncodeRune` for a non-negative rune: surrogates and values above
`utf8.MaxRune` are written as `RuneError`. -/
def EncodeRune (r : Nat) : Bytes :=
  if r ≤ 0x7F then [r]
  else if r ≤ 0x7FF then [0xC0 + r / 64, 0x80 + r % 64]
  else if 0x10FFFF < r || (0xD800 ≤ r && r ≤ 0xDFFF) then [0xEF, 0xBF, 0xBD]
  else if r ≤ 0xFFFF then [0xE0 + r / 4096, 0x80 + (r / 64) % 64, 0x80 + r % 64]
  else [0xF0 + r / 262144, 0x80 + (r / 4096) % 64, 0x80 + (r / 64) % 64, 0x80 + r % 64]

/-! ## bytes.TrimLeftFunc with jsonWhitespaceRuneFunc -/

/-- Go `jsonWhitespaceRuneFunc`: space, line feed, carriage return, tab. -/
def jsonWhitespaceRuneFunc (r : Nat) : Bool :=
  r == 0x20 || r == 0x0A || r == 0x0D || r == 0x09

/-- Go `bytes.TrimLeftFunc(s, jsonWhitespaceRuneFunc)`. The library walks the slice
rune by rune; the four accepted runes are single bytes and a byte `>= 0x80` never
starts one of them, so the walk stops at the first byte that is not one of the four. -/
def trimLeft (s : Bytes) : Bytes := s.dropWhile jsonWhitespaceRuneFunc

/-! ## encoding/json: reading one string literal -/

/-- The errors `json.Decoder.Decode` can report while reading a string literal. -/
inductive DecodeError where
  /-- Go `*json.SyntaxError`: `invalid character c <context>`, at byte `offset`. -/
  | syntaxError (c : Nat) (context : String) (offset : Nat)
  /-- Go `io.ErrUnexpectedEOF`: the input ended inside the literal. -/
  | unexpectedEOF
  /-- The decoder's internal panic (`phasePanicMsg`): the scanner accepted a literal that
  `unquote` rejects. -/
  | phase
  deriving DecidableEq, Repr

/-- The scanner states inside a string literal: `stateInString`, `stateInStringEsc`,
and `stateInStringEscU`, `...U1`, `...U12`, `...U123` (the number of hex digits seen). -/
inductive ScanState where
  | inString
  | inStringEsc
  | inStringEscU (seen : Nat)
  deriving DecidableEq, Repr

/-- Hexadecimal digit test of the scanner and of `getu4`. -/
def isHex (c : Nat) : Bool :=
  (0x30 ≤ c && c ≤ 0x39) || (0x61 ≤ c && c ≤ 0x66) || (0x41 ≤ c && c ≤ 0x46)

/-- The one-character escapes the scanner accepts after a backslash:
`b f n r t \ / "`. -/
def isSimpleEscape (c : Nat) : Bool :=
  c == 0x62 || c == 0x66 || c == 0x6E || c == 0x72 || c == 0x74 ||
    c == 0x5C || c == 0x2F || c == 0x22

/-- Go `Decoder.readValue` once the opening quote has been read: run the scanner over
the remaining bytes, `n` bytes having been read so far. The result is the number of
bytes of the literal (the value ends with the closing quote: the scanner reports
`scanEnd` on the byte after it, or at end of input). -/
def scanLit : ScanState → Bytes → Nat → Except DecodeError Nat
  | _, [], _ => .error .unexpectedEOF
  | .inString, c :: cs, n =>
    if c = 0x22 then .ok (n + 1)
    else if c = 0x5C then scanLit .inStringEsc cs (n + 1)
    else if c < 0x20 then .error (.syntaxError c "in string literal" (n + 1))
    else scanLit .inString cs (n + 1)
  | .inStringEsc, c :: cs, n =>
    if isSimpleEscape c then scanLit .inString cs (n + 1)
    else if c = 0x75 then scanLit (.inStringEscU 0) cs (n + 1)
    else .error (.syntaxError c "in string escape code" (n + 1))
  | .inStringEscU seen, c :: cs, n =>
    if isHex c then
      scanLit (if seen < 3 then .inStringEscU (seen + 1) else .inString) cs (n + 1)
    else .error (.syntaxError c "in \\u hexadecimal character escape" (n + 1))

/-- Value of one hexadecimal digit, as in `getu4`. -/
def hexVal (c : Nat) : Option Nat :=
  if 0x30 ≤ c && c ≤ 0x39 then some (c - 0x30)
  else if 0x61 ≤ c && c ≤ 0x66 then some (c - 0x61 + 10)
  else if 0x41 ≤ c && c ≤ 0x46 then some (c - 0x41 + 10)
  else none

/-- Go `getu4`: the rune of a leading `\uXXXX`, `none` for Go's `-1`. -/
def getu4 : Bytes → Option Nat
  | c0 :: c1 :: a :: b :: c :: d :: _ =>
    if c0 = 0x5C && c1 = 0x75 then
      match hexVal a, hexVal b, hexVal c, hexVal d with
      | some x, some y, some z, some w => some (((x * 16 + y) * 16 + z) * 16 + w)
      | _, _, _, _ => none
    else none
  | _ => none

/-- Go `utf16.IsSurrogate`. -/
def IsSurrogate (r : Nat) : Bool := 0xD800 ≤ r && r < 0xE000

/-- Go `utf16.DecodeRune`, with `none` standing for the second argument `-1`. An invalid
pair gives `unicode.ReplacementChar`. -/
def utf16DecodeRune (r1 : Nat) (r2 : Option Nat) : Nat :=
  match r2 with
  | some r2 =>
    if 0xD800 ≤ r1 && r1 < 0xDC00 && 0xDC00 ≤ r2 && r2 < 0xE000 then
      (r1 - 0xD800) * 1024 + (r2 - 0xDC00) + 0x10000
    else RuneError
  | none => RuneError

/-- One iteration of the main loop of Go `unquoteBytes` at the byte `c`, `rest` being
the bytes after it; `loop` is the remainder of the loop, applied to the bytes still
to read, and what the iteration writes is put in front of its result. -/
def unquoteStep (loop : Bytes → Option Bytes) (c : Nat) (rest : Bytes) : Option Bytes :=
  if c = 0x5C then
    match rest with
    | [] => none
    | e :: rest1 =>
      if e = 0x22 || e = 0x5C || e = 0x2F || e = 0x27 then (loop rest1).map (e :: ·)
      else if e = 0x62 then (loop rest1).map (0x08 :: ·)
      else if e = 0x66 then (loop rest1).map (0x0C :: ·)
      else if e = 0x6E then (loop rest1).map (0x0A :: ·)
      else if e = 0x72 then (loop rest1).map (0x0D :: ·)
      else if e = 0x74 then (loop rest1).map (0x09 :: ·)
      else if e = 0x75 then
        match getu4 (c :: rest) with
        | none => none
        | some rr =>
          let after := rest1.drop 4
          if IsSurrogate rr then
            let dec := utf16DecodeRune rr (getu4 after)
            if dec ≠ RuneError then (loop (after.drop 6)).map (EncodeRune dec ++ ·)
            else (loop after).map (EncodeRune RuneError ++ ·)
          else (loop after).map (EncodeRune rr ++ ·)
      else none
  else if c = 0x22 || c < 0x20 then none
  else if c < 0x80 then (loop rest).map (c :: ·)
  else (loop (rest.drop ((DecodeRune c rest).2 - 1))).map (EncodeRune (DecodeRune c rest).1 ++ ·)

/-- The main loop of Go `unquoteBytes` over the bytes between the quotes. `fuel` bounds
the number of iterations; every iteration consumes at least one byte, so the length of
the input is enough. (The library first runs a scan that returns the input itself when
no byte needs rewriting; this loop copies such bytes unchanged.) -/
def unquoteLoop : Nat → Bytes → Option Bytes
  | _, [] => some []
  | 0, _ :: _ => none
  | fuel + 1, c :: rest => unquoteStep (unquoteLoop fuel) c rest

/-- Go `unquoteBytes`: the text of a quoted JSON string literal, `none` for Go's
`ok == false`. -/
def unquoteBytes (s : Bytes) : Option Bytes :=
  match s with
  | q :: t =>
    if q = 0x22 && t.getLast? = some 0x22 then unquoteLoop t.length t.dropLast else none
  | [] => none

/-- Go `decoder.Decode(&value)` for a `string` destination, on a fresh decoder whose
reader holds `0x22 :: rest` (the caller has checked the opening quote). On success the
result is the decoded text and the number of input bytes the value occupies: the
decoder may have buffered more, and the caller recovers the position from
`decoder.Buffered()` and `reader.Len()`, which together hold the bytes after the value. -/
def decodeString (rest : Bytes) : Except DecodeError (Bytes × Nat) :=
  match scanLit .inString rest 1 with
  | .error e => .error e
  | .ok n =>
    match unquoteBytes ((0x22 :: rest).take n) with
    | some v => .ok (v, n)
    | none => .error .phase

/-! ## encoding/json: writing one string -/

/-- Go `htmlSafeSet`: the ASCII bytes `json.Marshal` copies unescaped, that is the
printable ones but `"`, `&`, `<`, `>` and the backslash. -/
def htmlSafe (b : Nat) : Bool :=
  0x20 ≤ b && b < 0x80 && b != 0x22 && b != 0x26 && b != 0x3C && b != 0x3E && b != 0x5C

/-- Go `hex[i]`, the digits `0123456789abcdef`. -/
def hexDigit (i : Nat) : Nat := if i < 10 then 0x30 + i else 0x61 + (i - 10)

/-- The escape `json.Marshal` writes for an ASCII byte outside `htmlSafeSet`
(`encodeState.string`, with `escapeHTML` set). Backspace and form feed take the
`\u00XX` form here, as in the library of the repository's time; later library versions
write `\b` and `\f`. -/
def escapeByte (b : Nat) : Bytes :=
  if b = 0x5C || b = 0x22 then [0x5C, b]
  else if b = 0x0A then [0x5C, 0x6E]
  else if b = 0x0D then [0x5C, 0x72]
  else if b = 0x09 then [0x5C, 0x74]
  else [0x5C, 0x75, 0x30, 0x30, hexDigit (b / 16), hexDigit (b % 16)]

/-- One iteration of the loop of Go `encodeState.string` (`escapeHTML` set) at the
byte `b`, `rest` being the bytes after it; `loop` is the remainder of the loop. -/
def encodeStep (loop : Bytes → Bytes) (b : Nat) (rest : Bytes) : Bytes :=
  if b < 0x80 then (if htmlSafe b then [b] else escapeByte b) ++ loop rest
  else if (DecodeRune b rest).1 = RuneError && (DecodeRune b rest).2 = 1 then
    [0x5C, 0x75, 0x66, 0x66, 0x66, 0x64] ++ loop rest
  else if (DecodeRune b rest).1 = 0x2028 || (DecodeRune b rest).1 = 0x2029 then
    [0x5C, 0x75, 0x32, 0x30, 0x32, hexDigit ((DecodeRune b rest).1 % 16)] ++
      loop (rest.drop ((DecodeRune b rest).2 - 1))
  else (b :: rest).take (DecodeRune b rest).2 ++ loop (rest.drop ((DecodeRune b rest).2 - 1))

/-- The loop of Go `encodeState.string` over the bytes of the value. `fuel` bounds the
number of iterations (each consumes at least one byte). -/
def encodeLoop : Nat → Bytes → Bytes
  | _, [] => []
  | 0, _ :: _ => []
  | fuel + 1, b :: rest => encodeStep (encodeLoop fuel) b rest

/-- Go `json.Marshal(s)` for a string `s`: the quoted, escaped literal. For a string
value `Marshal` has no error path. -/
def jsonMarshal (s : Bytes) : Bytes := 0x22 :: encodeLoop s.length s ++ [0x22]

/-! ## Errors -/

/-- The Go `error` values of a run, and run-time panics. -/
inductive GoError where
  /-- Go `errors.New(msg)`. -/
  | sentinel (msg : String)
  /-- An error returned by `encoding/json`. -/
  | decode (e : DecodeError)
  /-- Go `fmt.Errorf(format, inner)` where `format` holds one `%w`. -/
  | wrapf (format : String) (inner : GoError)
  /-- Any other error value a collaborator (translator, file system) returns. -/
  | other (msg : String)
  /-- A run-time panic: not a returned error, the call does not return. -/
  | panic (msg : String)
  /-- A fatal error of the runtime (`throw`): the process ends. -/
  | fatal (msg : String)
  deriving DecidableEq, Repr

def commandName : String := "translate-json"

/-- Go `lineSeparator`, one line feed. -/
def lineSeparator : Bytes := [0x0A]

def ErrTranslatorRequired : GoError := .sentinel (commandName ++ ": translator required")

def ErrInputRequired : GoError := .sentinel (commandName ++ ": input required")

def ErrOutputRequired : GoError := .sentinel (commandName ++ ": output required")

def ErrInvalidOption : GoError := .sentinel (commandName ++ ": invalid option")

/-- Go `newInputError`: `fmt.Errorf(commandName + ": input error: %w", err)`. -/
def newInputError (err : GoError) : GoError :=
  .wrapf (commandName ++ ": input error: %w") err

/-- Go `errors.Unwrap`. -/
def GoError.unwrap : GoError → Option GoError
  | .wrapf _ inner => some inner
  | _ => none

/-- Go `errors.Is(err, target)`: `err` or an error it wraps equals `target`. -/
def GoError.Is : GoError → GoError → Bool
  | .wrapf format inner, target => decide (GoError.wrapf format inner = target) || inner.Is target
  | .sentinel msg, target => decide (GoError.sentinel msg = target)
  | .decode e, target => decide (GoError.decode e = target)
  | .other msg, target => decide (GoError.other msg = target)
  | .panic msg, target => decide (GoError.panic msg = target)
  | .fatal msg, target => decide (GoError.fatal msg = target)

/-! ## The value extractor: the classification part of `Engine.translate` -/

/-- What the line scan hands to the `translate` closure: the variables `offset`,
`length` and `value` at the moment the closure is called. -/
structure Candidate where
  offset : Int
  length : Int
  value : Bytes
  deriving DecidableEq, Repr

/-- The `parse` closure of `Engine.translate`, called with `line = 0x22 :: rest`:
decode one string into `value`, advance `line` past it, set
`length = len(c.line) - len(line) - offset`, trim `line`. Returns
`(value, length, line)`. -/
def parse (cline rest : Bytes) (offset : Int) : Except GoError (Bytes × Int × Bytes) :=
  match decodeString rest with
  | .error e => .error (newInputError (.decode e))
  | .ok (value, n) =>
    let line := (0x22 :: rest).drop n
    let length : Int := (cline.length : Int) - (line.length : Int) - offset
    .ok (value, length, trimLeft line)

/-- The tail of the `case ':'` branch and of the first literal alike: `line` is what
follows a decoded literal, trimmed. `true` when the closure `translate` is called:
nothing is left, or a comma followed by white space only. -/
def endsValue (line : Bytes) : Bool :=
  match line with
  | [] => true
  | c :: tl => c = 0x2C && (trimLeft tl).length = 0

/-- Lines 158-264 of `Engine.translate` for one line `c.line`, up to the decision:
`ok (some cand)` where the source calls `translate()` (with the variables as in
`cand`), `ok none` where control reaches the fallback, `error e` where it returns `e`. -/
def extract (cline : Bytes) : Except GoError (Option Candidate) :=
  match trimLeft cline with
  | [] => .ok none
  | q :: rest =>
    if q = 0x22 then
      let offset : Int := (cline.length : Int) - ((q :: rest).length : Int)
      match parse cline rest offset with
      | .error e => .error e
      | .ok (value, length, line) =>
        match line with
        | [] => .ok (some ⟨offset, length, value⟩)
        | c :: tl =>
          if c = 0x2C then
            if (trimLeft tl).length = 0 then .ok (some ⟨offset, length, value⟩) else .ok none
          else if c = 0x3A then
            match trimLeft tl with
            | [] => .ok none
            | q2 :: rest2 =>
              if q2 = 0x22 then
                let offset2 : Int := (cline.length : Int) - ((q2 :: rest2).length : Int)
                match parse cline rest2 offset2 with
                | .error e => .error e
                | .ok (value2, length2, line2) =>
                  if endsValue line2 then .ok (some ⟨offset2, length2, value2⟩) else .ok none
              else .ok none
          else .ok none
    else .ok none

/-! ## The translator, the cache and the output sink -/

/-- A `Translator`: `Translate(ctx, line, offset, length, value)`, a deterministic
machine with internal state `σ` (a pure translator has `σ = Unit`). The context is
not represented. -/
structure Translator (σ : Type) where
  init : σ
  Translate : σ → Int → Int → Int → Bytes → Except GoError Bytes × σ

/-- One invocation of the translator, with what it returned. -/
structure Call where
  line : Int
  offset : Int
  length : Int
  value : Bytes
  result : Except GoError Bytes
  deriving DecidableEq

/-- The state a run threads through the lines. -/
structure Run (σ : Type) where
  /-- Go `x.cache`: the entries of the map (a nil map has none). -/
  cache : Bytes → Option Bytes
  /-- Every byte written to `c.writer` so far, in order (the sink accepts every write,
  like the `bytes.Buffer` of the test). -/
  out : Bytes
  /-- The translator's internal state. -/
  tstate : σ
  /-- The invocations of the translator so far, oldest first. -/
  calls : List Call
  /-- Go `c.number`. -/
  number : Int

/-- Go `s[:hi]` with its bounds check. -/
def sliceTo (s : Bytes) (hi : Int) : Option Bytes :=
  if 0 ≤ hi ∧ hi ≤ (s.length : Int) then some (s.take hi.toNat) else none

/-- Go `s[lo:]` with its bounds check. -/
def sliceFrom (s : Bytes) (lo : Int) : Option Bytes :=
  if 0 ≤ lo ∧ lo ≤ (s.length : Int) then some (s.drop lo.toNat) else none

/-- The four `io.Copy` calls that end the `translate` closure: `c.line[:offset]`, `b`,
`c.line[offset+length:]`, `lineSeparator`. -/
def writeLine {σ : Type} (st : Run σ) (cline : Bytes) (offset length : Int) (b : Bytes) :
    Run σ × Option GoError :=
  match sliceTo cline offset with
  | none => (st, some (.panic "slice bounds out of range"))
  | some pre =>
    let st2 := { st with out := st.out ++ pre ++ b }
    match sliceFrom cline (offset + length) with
    | none => (st2, some (.panic "slice bounds out of range"))
    | some suf => ({ st2 with out := st2.out ++ suf ++ lineSeparator }, none)

/-- The `translate` closure of `Engine.translate`: cache lookup; on a miss the
translator call and, when it succeeds, the cache store; then the writes. -/
def translateClosure {σ : Type} (tr : Translator σ) (st : Run σ) (cline : Bytes)
    (cand : Candidate) : Run σ × Option GoError :=
  match st.cache cand.value with
  | some s => writeLine st cline cand.offset cand.length (jsonMarshal s)
  | none =>
    let r := tr.Translate st.tstate st.number cand.offset cand.length cand.value
    let st1 : Run σ :=
      { st with
        tstate := r.2
        calls := st.calls ++ [⟨st.number, cand.offset, cand.length, cand.value, r.1⟩] }
    match r.1 with
    | .error e => (st1, some e)
    | .ok s =>
      let st2 : Run σ :=
        { st1 with cache := fun k => if k = cand.value then some s else st1.cache k }
      writeLine st2 cline cand.offset cand.length (jsonMarshal s)

/-- The body of the loop of `Engine.translate` for one line. -/
def processLine {σ : Type} (tr : Translator σ) (st : Run σ) (cline : Bytes) :
    Run σ × Option GoError :=
  match extract cline with
  | .error e => (st, some e)
  | .ok (some cand) => translateClosure tr st cline cand
  | .ok none => ({ st with out := st.out ++ cline ++ lineSeparator }, none)

/-! ## The line source -/

/-- A `*bufio.Scanner` splitting lines: the lines it has not delivered yet (each
as `Bytes()` returns it, without its terminator, one line feed) and its token limit. -/
structure Scanner where
  lines : List Bytes
  maxTokenSize : Nat
  deriving DecidableEq, Repr

/-- Go `bufio.MaxScanTokenSize`. -/
def MaxScanTokenSize : Nat := 64 * 1024

/-- The result of `Engine.translate`. -/
structure Result (σ : Type) where
  run : Run σ
  /-- The lines the scanner has not delivered. -/
  unread : List Bytes
  /-- The returned error, `none` for `nil`. -/
  err : Option GoError

/-- The loop `for c.next() { ... }` of `Engine.translate` over the scanner's pending
lines. `c.next()` is the first step of each round: `number++`, then `Scan()`, which
delivers the next line when it fits in the buffer with its terminator and otherwise
reports `false` (as at the end of the input); the loop then ends and the method
returns `nil`: `scanner.Err()` is never consulted. -/
def translateLoop {σ : Type} (tr : Translator σ) (maxTokenSize : Nat) :
    List Bytes → Run σ → Result σ
  | [], st => ⟨{ st with number := st.number + 1 }, [], none⟩
  | l :: rest, st =>
    let st1 : Run σ := { st with number := st.number + 1 }
    if l.length < maxTokenSize then
      match processLine tr st1 l with
      | (st2, some e) => ⟨st2, rest, some e⟩
      | (st2, none) => translateLoop tr maxTokenSize rest st2
    else ⟨st1, l :: rest, none⟩

/-- The state of the loop of `Engine.translate` after the rounds for the lines `lines`,
each delivered by the scanner: `number++` and the loop body for each line, up to the
first error. -/
def runLines {σ : Type} (tr : Translator σ) : List Bytes → Run σ → Run σ × Option GoError
  | [], st => (st, none)
  | l :: rest, st =>
    match processLine tr { st with number := st.number + 1 } l with
    | (st2, some e) => (st2, some e)
    | (st2, none) => runLines tr rest st2

/-- Every translator call made so far succeeded and the cache holds its result under
the call's value, and no two calls carry the same value. -/
def CallsCached {σ : Type} (st : Run σ) : Prop :=
  (∀ c ∈ st.calls, ∃ t, c.result = .ok t ∧ st.cache c.value = some t) ∧
    (st.calls.map (·.value)).Nodup

/-- The cache only maps a text to itself. -/
def CacheIsIdentity {σ : Type} (st : Run σ) : Prop :=
  ∀ v t, st.cache v = some t → t = v

/-- Go `Engine.translate` on a validated configuration: the loop, started with the
engine's cache, the sink's content and `c.number`. -/
def Engine.translate {σ : Type} (tr : Translator σ) (scanner : Scanner) (st : Run σ) :
    Result σ :=
  translateLoop tr scanner.maxTokenSize scanner.lines st

/-! ## Options, validation and `Engine.Translate` -/

/-- Go `Engine`: the cache is a field of the engine. -/
structure Engine where
  cache : Bytes → Option Bytes

/-- The machine the program runs on, as the options see it: the files the path options
open and the memory `make` can obtain. -/
structure Host where
  /-- Go `os.Open(filePath)`: the lines of the file, or the error. -/
  Open : String → Except GoError (List Bytes)
  /-- Go `os.OpenFile(filePath, O_WRONLY|O_CREATE|O_TRUNC, 0600)`: the error, if any. -/
  OpenFile : String → Option GoError
  /-- The number of bytes the operating system grants to one allocation. -/
  Memory : Nat

/-- Go runtime `maxAlloc` on a 64-bit platform with 48 address bits (such as
linux/amd64), `1 << 48`: the largest size `makeslice` lets through. -/
def maxAlloc : Nat := 281474976710656

/-- Go `make([]byte, n)`, that is `makeslice` of the runtime for elements of one byte;
the result is the length of the slice. A negative `n` and an `n` above `maxAlloc` panic
(`panicmakeslicelen`); a size within that limit which the operating system does not
grant ends the process in `mallocgc` with a fatal error. Neither is a returned error. -/
def makeBytes (memory : Nat) (n : Int) : Except GoError Nat :=
  if n < 0 ∨ (maxAlloc : Int) < n then
    .error (.panic "runtime error: makeslice: len out of range")
  else if memory < n.toNat then .error (.fatal "runtime: out of memory")
  else .ok n.toNat

/-- Go `translateConfig`. `writer` is the content of the sink, `buffer` is
`len(c.buffer)`, `deferred` lists the files to close on return. -/
structure translateConfig (σ : Type) where
  deferred : List String
  translator : Option (Translator σ)
  scanner : Option Scanner
  customScanner : Bool
  writer : Option Bytes
  buffer : Nat
  number : Int

/-- The zero value `translateConfig{translateState: &translateState{}}`. -/
def translateConfig.zero (σ : Type) : translateConfig σ :=
  ⟨[], none, none, false, none, 0, 0⟩

/-- The exported constructors of `TranslateOption`. An argument of interface or pointer
type may be `nil`, here `none`; `max` is a Go `int`, of 64 bits on the platforms `maxAlloc`
stands for. -/
inductive TranslateOption (σ : Type) where
  | WithTranslator (translator : Option (Translator σ))
  | WithInputScanner (scanner : Option Scanner)
  | WithInputFilePath (filePath : String)
  | WithMaxLineLength (max : Int)
  | WithOutputFilePath (filePath : String)
  | WithOutputWriter (writer : Option Bytes)

/-- The function an option is, applied to the configuration. `WithMaxLineLength`
allocates the buffer in the option itself, `c.buffer = make([]byte, max)`, so that a
`max` the runtime refuses panics there, before `validate` and `finalise`. -/
def TranslateOption.apply {σ : Type} (fs : Host) :
    TranslateOption σ → translateConfig σ → Except GoError (translateConfig σ)
  | .WithTranslator translator, c => .ok { c with translator := translator }
  | .WithInputScanner scanner, c => .ok { c with scanner := scanner, customScanner := true }
  | .WithInputFilePath filePath, c =>
    match fs.Open filePath with
    | .error err => .error err
    | .ok lines =>
      .ok { c with
            deferred := c.deferred ++ [filePath]
            scanner := some ⟨lines, MaxScanTokenSize⟩
            customScanner := false }
  | .WithMaxLineLength max, c =>
    if max ≤ 0 then .error (.wrapf "%w: max line length must be > 0" ErrInvalidOption)
    else
      match makeBytes fs.Memory max with
      | .error err => .error err
      | .ok n => .ok { c with buffer := n }
  | .WithOutputFilePath filePath, c =>
    match fs.OpenFile filePath with
    | some err => .error err
    | none => .ok { c with deferred := c.deferred ++ [filePath], writer := some [] }
  | .WithOutputWriter writer, c => .ok { c with writer := writer }

/-- The loop `for _, option := range options` of `Engine.Translate`: the first error
ends it. -/
def applyOptions {σ : Type} (fs : Host) :
    List (TranslateOption σ) → translateConfig σ → Except GoError (translateConfig σ)
  | [], c => .ok c
  | o :: os, c =>
    match o.apply fs c with
    | .error err => .error err
    | .ok c1 => applyOptions fs os c1

/-- Go `translateConfig.validate`. -/
def translateConfig.validate {σ : Type} (x : translateConfig σ) : Option GoError :=
  if x.translator.isNone then some ErrTranslatorRequired
  else if x.scanner.isNone then some ErrInputRequired
  else if x.writer.isNone then some ErrOutputRequired
  else none

/-- Go `translateConfig.finalise`: with a non-empty buffer, reject a custom scanner,
otherwise `x.scanner.Buffer(x.buffer, n)`, a nil dereference when there is no scanner. -/
def translateConfig.finalise {σ : Type} (x : translateConfig σ) :
    Except GoError (translateConfig σ) :=
  if x.buffer ≠ 0 then
    if x.customScanner then
      .error (.wrapf "%w: custom scanner incompatible with max line length option"
        ErrInvalidOption)
    else
      match x.scanner with
      | none => .error (.panic "nil pointer dereference")
      | some sc => .ok { x with scanner := some { sc with maxTokenSize := x.buffer } }
  else .ok x

/-- What a call of `Engine.Translate` leaves behind. -/
structure Outcome (σ : Type) where
  /-- The returned error, `none` for `nil`. -/
  err : Option GoError
  /-- Go `x.cache` after the call. -/
  cache : Bytes → Option Bytes
  /-- The lines the input scanner has not delivered, `none` without a scanner. -/
  unread : Option (List Bytes)
  /-- The content of the output sink, `none` without a writer. -/
  writer : Option Bytes
  /-- The invocations of the translator during the call. -/
  calls : List Call
  /-- The files closed on return. -/
  closed : List String

/-- An outcome before the loop: nothing read, written or translated. -/
def Outcome.early {σ : Type} (x : Engine) (c : translateConfig σ) (err : GoError) :
    Outcome σ :=
  ⟨some err, x.cache, c.scanner.map (·.lines), c.writer, [], c.deferred⟩

/-- Go `Engine.Translate`: apply the options, validate, finalise, validate, run the
loop. When an option fails, the configuration at that point is not inspected
further (the files opened by the options before it, which Go closes on return, are not
listed in `closed` in that case). -/
def Engine.Translate {σ : Type} (fs : Host) (x : Engine)
    (options : List (TranslateOption σ)) : Outcome σ :=
  match applyOptions fs options (translateConfig.zero σ) with
  | .error err => ⟨some err, x.cache, none, none, [], []⟩
  | .ok c =>
    match c.validate with
    | some err => Outcome.early x c err
    | none =>
      match c.finalise with
      | .error err => Outcome.early x c err
      | .ok c1 =>
        match c1.validate with
        | some err => Outcome.early x c1 err
        | none =>
          match c1.translator, c1.scanner, c1.writer with
          | some tr, some sc, some w =>
            let r := Engine.translate tr sc ⟨x.cache, w, tr.init, [], c1.number⟩
            ⟨r.err, r.run.cache, some r.unread, some r.run.out, r.run.calls, c1.deferred⟩
          | _, _, _ => Outcome.early x c1 (.panic "nil pointer dereference")

/-! ## The shapes of a candidate line, as the specification words them -/

/-- A run of JSON white space: space, tab, carriage return, line feed. -/
def IsWs (ws : Bytes) : Prop := ∀ b ∈ ws, jsonWhitespaceRuneFunc b = true

/-- The bytes between the quotes of a JSON string literal: unescaped bytes (anything
from `0x20` up except the quote and the backslash), the two-byte escapes
`\" \\ \/ \b \f \n \r \t` and `\u` followed by four hexadecimal digits. -/
inductive StrBody : Bytes → Prop where
  | nil : StrBody []
  | plain (c : Nat) (s : Bytes) :
      0x20 ≤ c → c ≠ 0x22 → c ≠ 0x5C → StrBody s → StrBody (c :: s)
  | esc (e : Nat) (s : Bytes) :
      isSimpleEscape e = true → StrBody s → StrBody (0x5C :: e :: s)
  | uesc (a b c d : Nat) (s : Bytes) :
      isHex a = true → isHex b = true → isHex c = true → isHex d = true →
      StrBody s → StrBody (0x5C :: 0x75 :: a :: b :: c :: d :: s)

/-- One JSON string literal: quote, body, quote. -/
def IsStringLiteral (lit : Bytes) : Prop :=
  ∃ body, StrBody body ∧ lit = 0x22 :: (body ++ [0x22])

/-- What may follow the candidate literal on its line: white space, or white space, a
comma and white space. -/
def IsValueTail (suf : Bytes) : Prop :=
  IsWs suf ∨ ∃ ws1 ws2, IsWs ws1 ∧ IsWs ws2 ∧ suf = ws1 ++ 0x2C :: ws2

/-- What may precede the candidate literal on its line: white space, or white space, a
key literal, white space, a colon and white space. -/
def IsValueHead (pre : Bytes) : Prop :=
  IsWs pre ∨ ∃ ws0 key ws1 ws2, IsWs ws0 ∧ IsStringLiteral key ∧ IsWs ws1 ∧ IsWs ws2 ∧
    pre = ws0 ++ key ++ ws1 ++ 0x3A :: ws2

/-- A well-formed string literal starts at a quote that is followed by `rest`. -/
def StartsLiteral (rest : Bytes) : Prop :=
  ∃ body tail, StrBody body ∧ rest = body ++ 0x22 :: tail

/-- A line whose first byte after the white space is a quote at which no well-formed
literal starts, or a line `ws key ws : ws` followed by such a quote. -/
def IsMalformedLine (l rest : Bytes) : Prop :=
  ¬ StartsLiteral rest ∧
    ((∃ ws, IsWs ws ∧ l = ws ++ 0x22 :: rest) ∨
      ∃ ws0 key ws1 ws2, IsWs ws0 ∧ IsStringLiteral key ∧ IsWs ws1 ∧ IsWs ws2 ∧
        l = ws0 ++ key ++ ws1 ++ 0x3A :: ws2 ++ 0x22 :: rest)

/-- The lines, each followed by one line feed. -/
def withTerminators : List Bytes → Bytes
  | [] => []
  | l :: rest => l ++ [0x0A] ++ withTerminators rest

/-- The candidate lines as the specification lists them (after the leading white
space is stripped): (a) `literal ws*`, (b) `literal ws* , ws*`,
(c) `literal ws* : ws* literal ws*`, (d) `literal ws* : ws* literal ws* , ws*`. -/
inductive CandidateShape : Bytes → Prop where
  | value (lit ws : Bytes) :
      IsStringLiteral lit → IsWs ws → CandidateShape (lit ++ ws)
  | valueComma (lit ws1 ws2 : Bytes) :
      IsStringLiteral lit → IsWs ws1 → IsWs ws2 → CandidateShape (lit ++ ws1 ++ 0x2C :: ws2)
  | keyValue (key ws1 ws2 lit ws3 : Bytes) :
      IsStringLiteral key → IsWs ws1 → IsWs ws2 → IsStringLiteral lit → IsWs ws3 →
      CandidateShape (key ++ ws1 ++ 0x3A :: ws2 ++ lit ++ ws3)
  | keyValueComma (key ws1 ws2 lit ws3 ws4 : Bytes) :
      IsStringLiteral key → IsWs ws1 → IsWs ws2 → IsStringLiteral lit → IsWs ws3 →
      IsWs ws4 → CandidateShape (key ++ ws1 ++ 0x3A :: ws2 ++ lit ++ ws3 ++ 0x2C :: ws4)

/-! ## The Yandex translator of `yandex.go` -/

/-- Go `unicode.IsSpace`: the Unicode White_Space code points. -/
def IsSpace (r : Nat) : Bool :=
  (0x09 ≤ r && r ≤ 0x0D) || r == 0x20 || r == 0x85 || r == 0xA0 || r == 0x1680 ||
    (0x2000 ≤ r && r ≤ 0x200A) || r == 0x2028 || r == 0x2029 || r == 0x202F ||
    r == 0x205F || r == 0x3000

/-- Go `utf8.RuneStart`: the byte is not a continuation byte. -/
def RuneStart (b : Nat) : Bool := !(0x80 ≤ b && b ≤ 0xBF)

/-- The check that ends Go `utf8.DecodeLastRune`: the bytes from the rune start found to
the end of the slice must be exactly one encoding. -/
def decodeExact (slice : Bytes) : Nat × Nat :=
  match slice with
  | [] => (RuneError, 0)
  | b :: rest => if (DecodeRune b rest).2 = slice.length then DecodeRune b rest else (RuneError, 1)

/-- Go `utf8.DecodeLastRune` on the slice whose bytes, last first, are `rev`: an ASCII
byte is its own rune; otherwise the rune start is looked for among the three bytes
before the last one, and anything that is not one complete encoding is
`(RuneError, 1)`. -/
def DecodeLastRune (rev : Bytes) : Nat × Nat :=
  match rev with
  | [] => (RuneError, 0)
  | last :: before =>
    if last < 0x80 then (last, 1)
    else
      match before with
      | [] => (RuneError, 1)
      | b1 :: more =>
        if RuneStart b1 then decodeExact [b1, last]
        else
          match more with
          | [] => (RuneError, 1)
          | b2 :: more2 =>
            if RuneStart b2 then decodeExact [b2, b1, last]
            else
              match more2 with
              | [] => (RuneError, 1)
              | b3 :: _ => if RuneStart b3 then decodeExact [b3, b2, b1, last] else (RuneError, 1)

/-- Go `strings.TrimLeftFunc(s, unicode.IsSpace)`: drop the leading runes that are white
space. `fuel` bounds the number of runes. -/
def trimLeftSpace : Nat → Bytes → Bytes
  | _, [] => []
  | 0, b :: rest => b :: rest
  | fuel + 1, b :: rest =>
    if IsSpace (DecodeRune b rest).1 then
      trimLeftSpace fuel (rest.drop ((DecodeRune b rest).2 - 1))
    else b :: rest

/-- Go `strings.TrimRightFunc(s, unicode.IsSpace)` on the slice whose bytes, last first,
are `rev`: drop the trailing runes that are white space; the result is again last byte
first. -/
def trimRightSpace : Nat → Bytes → Bytes
  | _, [] => []
  | 0, b :: rest => b :: rest
  | fuel + 1, b :: rest =>
    if IsSpace (DecodeLastRune (b :: rest)).1 then
      trimRightSpace fuel (rest.drop ((DecodeLastRune (b :: rest)).2 - 1))
    else b :: rest

/-- Go `strings.TrimSpace`: the string without its leading and trailing white space (the
library's loops over ASCII bytes are a short cut for the same result). -/
def TrimSpace (s : Bytes) : Bytes :=
  (trimRightSpace s.length (trimLeftSpace s.length s).reverse).reverse

/-- Go `Yandex`. -/
structure Yandex where
  APIKey : Bytes
  Language : Bytes
  deriving DecidableEq, Repr

/-- Go `Yandex.Translate`. `remote apiKey language value` stands for the call of the
external client, `translate.New(x.APIKey).Translate(x.Language, value)` followed by
`Result()`. -/
def Yandex.Translate (remote : Bytes → Bytes → Bytes → Except GoError Bytes) (x : Yandex)
    (_line _offset _length : Int) (value : Bytes) : Except GoError Bytes :=
  if TrimSpace value = [] then .ok value
  else if x.APIKey = [] then .error (.sentinel "yandex: requires api key")
  else remote x.APIKey x.Language value

/-! ## The cancellation context -/

/-- A translator with what it is told about the context: `done` says whether the
context handed to the call is already cancelled (`ctx.Err() != nil`). -/
structure ContextTranslator (σ : Type) where
  init : σ
  Translate : Bool → σ → Int → Int → Int → Bytes → Except GoError Bytes × σ

/-- The translator the loop deals with when the context is cancelled just before the
round of line `cancelAt` (a value of one or less: before the run starts). The loop hands
`c.ctx` to every call and does nothing else with it, so the cancellation reaches the run
only through the calls made from line `cancelAt` on. -/
def ContextTranslator.cancelledFrom {σ : Type} (ct : ContextTranslator σ) (cancelAt : Int) :
    Translator σ where
  init := ct.init
  Translate := fun ts line offset length value =>
    ct.Translate (decide (cancelAt ≤ line)) ts line offset length value

/-- Go `context.Canceled`. -/
def Canceled : GoError := .sentinel "context canceled"

/-- The contract of the translator: a call with a cancelled context fails with the
context's error. -/
def ContextTranslator.Honours {σ : Type} (ct : ContextTranslator σ) : Prop :=
  ∀ ts line offset length value, (ct.Translate true ts line offset length value).1 = .error Canceled

/-- A translator that honours the context and otherwise returns its input. -/
def honouringTranslator : ContextTranslator Unit where
  init := ()
  Translate := fun done _ _ _ _ value => if done then (.error Canceled, ()) else (.ok value, ())

/-- A translator that ignores the context, as `Yandex.Translate` and the translator of the
test do, and returns its input. -/
def ignoringTranslator : ContextTranslator Unit where
  init := ()
  Translate := fun _ _ _ _ _ value => (.ok value, ())

/-! ## Well-formed text and the encoder's and decoder's loops without fuel -/

/-- Well-formed UTF-8: the encodings of Unicode scalar values (code points up to
`U+10FFFF` outside the surrogate range), one after the other. -/
inductive WellFormed : Bytes → Prop where
  | nil : WellFormed []
  | cons (r : Nat) (s : Bytes) :
      r ≤ 0x10FFFF → ¬ (0xD800 ≤ r ∧ r ≤ 0xDFFF) → WellFormed s → WellFormed (EncodeRune r ++ s)

/-- The loop of `encodeState.string` with the fuel it needs. -/
def encodeBody (s : Bytes) : Bytes := encodeLoop s.length s

/-- The loop of `unquoteBytes` with the fuel it needs. -/
def unquoteBody (s : Bytes) : Option Bytes := unquoteLoop s.length s

/-- What `encodeState.string` writes for one scalar value. -/
def encodeRuneText (r : Nat) : Bytes :=
  if r < 0x80 then (if htmlSafe r then [r] else escapeByte r)
  else if r = 0x2028 ∨ r = 0x2029 then [0x5C, 0x75, 0x32, 0x30, 0x32, hexDigit (r % 16)]
  else EncodeRune r

/-- The line the `translate` closure writes for the candidate `cand` of `cline` and the
translation `t`, without the line separator. -/
def emittedLine (cline : Bytes) (cand : Candidate) (t : Bytes) : Bytes :=
  cline.take cand.offset.toNat ++ jsonMarshal t ++ cline.drop (cand.offset + cand.length).toNat

/-! ## Concrete inputs used to exercise the statements -/

/-- The bytes of an ASCII string. -/
def ascii (s : String) : Bytes := s.toList.map Char.toNat

/-- The translator of `parser_test.go`: a map from source text to translation, any
other text is returned as it is; it panics on a line number below one or a negative
offset or length. -/
def mapTranslator (m : List (Bytes × Bytes)) : Translator Unit where
  init := ()
  Translate := fun _ line offset length value =>
    if line ≤ 0 then (.error (.panic "line"), ())
    else if offset < 0 then (.error (.panic "offset"), ())
    else if length < 0 then (.error (.panic "length"), ())
    else
      match m.lookup value with
      | some v => (.ok v, ())
      | none => (.ok value, ())

/-- A translator that returns its input unchanged. -/
def identityTranslator : Translator Unit where
  init := ()
  Translate := fun _ _ _ _ value => (.ok value, ())

/-- A translator that fails on every call. -/
def failingTranslator : Translator Unit where
  init := ()
  Translate := fun _ _ _ _ _ => (.error (.other "translation failed"), ())

/-- The state at the start of a run on an engine without cache entries and an empty
sink. -/
def Run.fresh {σ : Type} (tstate : σ) : Run σ := ⟨fun _ => none, [], tstate, [], 0⟩

/-- The candidate literal as it stands in the line: the bytes of the candidate's span. -/
def Candidate.literal (cand : Candidate) (cline : Bytes) : Bytes :=
  (cline.drop cand.offset.toNat).take cand.length.toNat

/-- The line the loop writes for the line `l` when the translation of a text is the text
itself: `l` when it holds no candidate, otherwise `l` with the candidate literal replaced
by what `json.Marshal` writes for the literal's decoded text. -/
def roundTripLine (l : Bytes) : Bytes :=
  match extract l with
  | .ok (some cand) => emittedLine l cand cand.value
  | _ => l

/-- The relation between an input line and the line written for it: the same bytes, or
the line with its candidate literal replaced by the encoding of some text. -/
def WrittenFor (l o : Bytes) : Prop :=
  o = l ∨ ∃ cand t, extract l = .ok (some cand) ∧ o = emittedLine l cand t

/-- A machine with the one input file `in.json`, holding three lines, and a megabyte of
memory for an allocation. -/
def sampleFiles : Host where
  Open := fun filePath =>
    if filePath = "in.json" then .ok [ascii "\x7b", ascii "  \"a\": \"hello\",", ascii "\x7d"]
    else .error (.other "no such file")
  OpenFile := fun _ => none
  Memory := 1048576

/-- A machine without files, with a megabyte of memory for an allocation. -/
def noFiles : Host where
  Open := fun _ => .error (.other "no such file")
  OpenFile := fun _ => none
  Memory := 1048576

/-! # Properties -/

/-! ## White space -/

theorem isWs_nil : IsWs [] := by
  intro b hb; cases hb

theorem isWs_cons {b : Nat} {ws : Bytes} (hb : jsonWhitespaceRuneFunc b = true) (h : IsWs ws) :
    IsWs (b :: ws) := by
  intro x hx
  rcases List.mem_cons.1 hx with rfl | hx
  · exact hb
  · exact h x hx

theorem trimLeft_append_ws (ws l : Bytes) (h : IsWs ws) : trimLeft (ws ++ l) = trimLeft l := by
  induction ws with
  | nil => rfl
  | cons b ws ih =>
    have hb : jsonWhitespaceRuneFunc b = true := h b (List.mem_cons_self _ _)
    have hws : IsWs ws := fun x hx => h x (List.mem_cons_of_mem _ hx)
    simp only [trimLeft, List.cons_append, List.dropWhile_cons, hb, if_true]
    exact ih hws

theorem trimLeft_cons_of_not_ws (c : Nat) (l : Bytes) (h : jsonWhitespaceRuneFunc c = false) :
    trimLeft (c :: l) = c :: l := by
  simp [trimLeft, List.dropWhile_cons, h]

theorem trimLeft_ws (ws : Bytes) (h : IsWs ws) : trimLeft ws = [] := by
  have := trimLeft_append_ws ws [] h
  simpa [trimLeft] using this

/-- What `trimLeft` removes is white space, and what it leaves does not start with any. -/
theorem trimLeft_split (l : Bytes) :
    ∃ ws, IsWs ws ∧ l = ws ++ trimLeft l ∧
      ∀ c tl, trimLeft l = c :: tl → jsonWhitespaceRuneFunc c = false := by
  induction l with
  | nil => exact ⟨[], isWs_nil, rfl, fun c tl h => by simp [trimLeft] at h⟩
  | cons b l ih =>
    by_cases hb : jsonWhitespaceRuneFunc b = true
    · obtain ⟨ws, hws, hl, hhd⟩ := ih
      have e : trimLeft (b :: l) = trimLeft l := by
        simp [trimLeft, List.dropWhile_cons, hb]
      refine ⟨b :: ws, isWs_cons hb hws, ?_, ?_⟩
      · rw [e, List.cons_append, ← hl]
      · rw [e]; exact hhd
    · have hb2 : jsonWhitespaceRuneFunc b = false := by simpa using hb
      have e := trimLeft_cons_of_not_ws b l hb2
      refine ⟨[], isWs_nil, by rw [e]; rfl, ?_⟩
      intro c tl h
      rw [e] at h
      cases h
      exact hb2

theorem trimLeft_eq_nil_iff (l : Bytes) : trimLeft l = [] ↔ IsWs l := by
  constructor
  · intro h
    obtain ⟨ws, hws, hl, -⟩ := trimLeft_split l
    rw [h, List.append_nil] at hl
    rw [hl]; exact hws
  · exact trimLeft_ws l

theorem isSimpleEscape_u : isSimpleEscape 0x75 = false := by decide

theorem scanLit_nil (st : ScanState) (n : Nat) : scanLit st [] n = .error .unexpectedEOF := by
  cases st <;> rfl

theorem scanLit_inString_cons (c : Nat) (cs : Bytes) (n : Nat) :
    scanLit .inString (c :: cs) n =
      if c = 0x22 then .ok (n + 1)
      else if c = 0x5C then scanLit .inStringEsc cs (n + 1)
      else if c < 0x20 then .error (.syntaxError c "in string literal" (n + 1))
      else scanLit .inString cs (n + 1) := rfl

theorem scanLit_inStringEsc_cons (c : Nat) (cs : Bytes) (n : Nat) :
    scanLit .inStringEsc (c :: cs) n =
      if isSimpleEscape c then scanLit .inString cs (n + 1)
      else if c = 0x75 then scanLit (.inStringEscU 0) cs (n + 1)
      else .error (.syntaxError c "in string escape code" (n + 1)) := rfl

theorem scanLit_inStringEscU_cons (seen c : Nat) (cs : Bytes) (n : Nat) :
    scanLit (.inStringEscU seen) (c :: cs) n =
      if isHex c then
        scanLit (if seen < 3 then .inStringEscU (seen + 1) else .inString) cs (n + 1)
      else .error (.syntaxError c "in \\u hexadecimal character escape" (n + 1)) := rfl

/-- One accepted step in a `\u` escape. -/
theorem scanLit_escU_ok {seen : Nat} {cs : Bytes} {n m : Nat}
    (h : scanLit (.inStringEscU seen) cs n = .ok m) :
    ∃ a cs1, cs = a :: cs1 ∧ isHex a = true ∧
      scanLit (if seen < 3 then .inStringEscU (seen + 1) else .inString) cs1 (n + 1) = .ok m := by
  cases cs with
  | nil => rw [scanLit_nil] at h; cases h
  | cons a cs1 =>
    rw [scanLit_inStringEscU_cons] at h
    by_cases ha : isHex a = true
    · rw [if_pos ha] at h; exact ⟨a, cs1, rfl, ha, h⟩
    · rw [if_neg ha] at h; cases h

/-- Four accepted hexadecimal digits lead back to `stateInString`. -/
theorem scanLit_escU0_ok {cs : Bytes} {n m : Nat}
    (h : scanLit (.inStringEscU 0) cs n = .ok m) :
    ∃ a b c d cs1, cs = a :: b :: c :: d :: cs1 ∧ isHex a = true ∧ isHex b = true ∧
      isHex c = true ∧ isHex d = true ∧ scanLit .inString cs1 (n + 4) = .ok m := by
  obtain ⟨a, t1, e1, ha, h1⟩ := scanLit_escU_ok h
  rw [if_pos (by decide)] at h1
  obtain ⟨b, t2, e2, hb, h2⟩ := scanLit_escU_ok h1
  rw [if_pos (by decide)] at h2
  obtain ⟨c, t3, e3, hc, h3⟩ := scanLit_escU_ok h2
  rw [if_pos (by decide)] at h3
  obtain ⟨d, t4, e4, hd, h4⟩ := scanLit_escU_ok h3
  rw [if_neg (by decide)] at h4
  exact ⟨a, b, c, d, t4, by rw [e1, e2, e3, e4], ha, hb, hc, hd, h4⟩

theorem scanLit_escU0_hex (a b c d : Nat) (cs : Bytes) (n : Nat)
    (ha : isHex a = true) (hb : isHex b = true) (hc : isHex c = true) (hd : isHex d = true) :
    scanLit (.inStringEscU 0) (a :: b :: c :: d :: cs) n = scanLit .inString cs (n + 4) := by
  rw [scanLit_inStringEscU_cons, if_pos ha, if_pos (by decide),
    scanLit_inStringEscU_cons, if_pos hb, if_pos (by decide),
    scanLit_inStringEscU_cons, if_pos hc, if_pos (by decide),
    scanLit_inStringEscU_cons, if_pos hd, if_neg (by decide)]

/-- The scanner accepts a body followed by a quote, and stops right after that quote. -/
theorem scanLit_of_strBody {body : Bytes} (h : StrBody body) (tail : Bytes) (n : Nat) :
    scanLit .inString (body ++ 0x22 :: tail) n = .ok (n + body.length + 1) := by
  induction h generalizing n with
  | nil => rw [List.nil_append, scanLit_inString_cons, if_pos rfl]; rfl
  | plain c s h1 h2 h3 _ ih =>
    have h4 : ¬ c < 0x20 := Nat.not_lt.2 h1
    rw [List.cons_append, scanLit_inString_cons, if_neg h2, if_neg h3, if_neg h4, ih,
      List.length_cons]
    congr 1; omega
  | esc e s he _ ih =>
    rw [List.cons_append, List.cons_append, scanLit_inString_cons, if_neg (by decide),
      if_pos rfl, scanLit_inStringEsc_cons, if_pos he, ih, List.length_cons, List.length_cons]
    congr 1; omega
  | uesc a b c d s ha hb hc hd _ ih =>
    have hu : ¬ (isSimpleEscape 0x75 = true) := by decide
    rw [show (0x5C :: 0x75 :: a :: b :: c :: d :: s) ++ 0x22 :: tail
        = 0x5C :: 0x75 :: a :: b :: c :: d :: (s ++ 0x22 :: tail) from rfl,
      scanLit_inString_cons, if_neg (by decide), if_pos rfl, scanLit_inStringEsc_cons,
      if_neg hu, if_pos rfl, scanLit_escU0_hex _ _ _ _ _ _ ha hb hc hd, ih]
    simp only [List.length_cons]
    congr 1; omega

/-- Whatever the scanner accepts is a body followed by a quote. -/
theorem strBody_of_scanLit (k : Nat) :
    ∀ (cs : Bytes) (n m : Nat), cs.length ≤ k → scanLit .inString cs n = .ok m →
      ∃ body tail, StrBody body ∧ cs = body ++ 0x22 :: tail ∧ m = n + body.length + 1 := by
  induction k using Nat.strong_induction_on with
  | _ k ih =>
    intro cs n m hk h
    cases cs with
    | nil => rw [scanLit_nil] at h; cases h
    | cons c cs =>
      rw [scanLit_inString_cons] at h
      rw [List.length_cons] at hk
      by_cases h1 : c = 0x22
      · rw [if_pos h1] at h
        injection h with h
        exact ⟨[], cs, StrBody.nil, by rw [h1]; rfl, by rw [← h]; rfl⟩
      · rw [if_neg h1] at h
        by_cases h2 : c = 0x5C
        · rw [if_pos h2] at h
          cases cs with
          | nil => rw [scanLit_nil] at h; cases h
          | cons e cs =>
            rw [scanLit_inStringEsc_cons] at h
            rw [List.length_cons] at hk
            by_cases h3 : isSimpleEscape e = true
            · rw [if_pos h3] at h
              obtain ⟨body, tail, hb, hcs, hm⟩ := ih cs.length (by omega) cs _ _ (le_refl _) h
              refine ⟨0x5C :: e :: body, tail, StrBody.esc e body h3 hb, ?_, ?_⟩
              · rw [h2, hcs]; rfl
              · rw [hm]; simp only [List.length_cons]; omega
            · rw [if_neg h3] at h
              by_cases h4 : e = 0x75
              · rw [if_pos h4] at h
                obtain ⟨a, b, c', d, cs1, e1, ha, hb, hc, hd, h5⟩ := scanLit_escU0_ok h
                have hl : cs1.length < k := by
                  rw [e1] at hk; simp only [List.length_cons] at hk; omega
                obtain ⟨body, tail, hbd, hcs, hm⟩ := ih cs1.length hl cs1 _ _ (le_refl _) h5
                refine ⟨0x5C :: 0x75 :: a :: b :: c' :: d :: body, tail,
                  StrBody.uesc a b c' d body ha hb hc hd hbd, ?_, ?_⟩
                · rw [h2, h4, e1, hcs]; rfl
                · rw [hm]; simp only [List.length_cons]; omega
              · rw [if_neg h4] at h; cases h
        · rw [if_neg h2] at h
          by_cases h5 : c < 0x20
          · rw [if_pos h5] at h; cases h
          · rw [if_neg h5] at h
            obtain ⟨body, tail, hb, hcs, hm⟩ := ih cs.length (by omega) cs _ _ (le_refl _) h
            refine ⟨c :: body, tail, StrBody.plain c body (Nat.not_lt.1 h5) h1 h2 hb, ?_, ?_⟩
            · rw [hcs]; rfl
            · rw [hm]; simp only [List.length_cons]; omega

theorem strBody_tail_of_ne {b : Nat} {s : Bytes} (h : StrBody (b :: s)) (hb : b ≠ 0x5C) :
    StrBody s := by
  cases h with
  | plain _ _ _ _ _ hs => exact hs
  | esc e s _ _ => exact absurd rfl hb
  | uesc a b c d s _ _ _ _ _ => exact absurd rfl hb

theorem isCont_ne {b : Nat} (h : isCont b = true) : b ≠ 0x5C := by
  simp only [isCont, Bool.and_eq_true, decide_eq_true_eq] at h
  omega

theorem acceptLo_ge (p0 : Nat) : 0x80 ≤ acceptLo p0 := by
  unfold acceptLo
  split
  · decide
  split <;> decide

/-- The continuation bytes `DecodeRune` consumes are unescaped bytes of the body. -/
theorem strBody_drop_decodeRune (c : Nat) {rest : Bytes} (h : StrBody rest) :
    StrBody (rest.drop ((DecodeRune c rest).2 - 1)) := by
  unfold DecodeRune
  split
  · exact h
  split
  · exact h
  split
  · split
    · rename_i b1 tl
      split
      · rename_i hc
        exact strBody_tail_of_ne h (isCont_ne hc)
      · exact h
    · exact h
  split
  · split
    · rename_i b1 b2 tl
      split
      · exact h
      split
      · exact h
      · rename_i h1 h2
        have hb1 : b1 ≠ 0x5C := by
          simp only [Bool.or_eq_true, decide_eq_true_eq, not_or, not_lt] at h1
          have h0 := acceptLo_ge c
          omega
        have hb2 : isCont b2 = true := by simpa using h2
        exact strBody_tail_of_ne (strBody_tail_of_ne h hb1) (isCont_ne hb2)
    · exact h
  split
  · split
    · rename_i b1 b2 b3 tl
      split
      · exact h
      split
      · exact h
      split
      · exact h
      · rename_i h1 h2 h3
        have hb1 : b1 ≠ 0x5C := by
          simp only [Bool.or_eq_true, decide_eq_true_eq, not_or, not_lt] at h1
          have h0 := acceptLo_ge c
          omega
        have hb2 : isCont b2 = true := by simpa using h2
        have hb3 : isCont b3 = true := by simpa using h3
        exact strBody_tail_of_ne (strBody_tail_of_ne (strBody_tail_of_ne h hb1) (isCont_ne hb2))
          (isCont_ne hb3)
    · exact h
  · exact h

theorem hexVal_isSome_of_isHex {c : Nat} (h : isHex c = true) : ∃ v, hexVal c = some v := by
  unfold hexVal
  unfold isHex at h
  split
  · exact ⟨_, rfl⟩
  split
  · exact ⟨_, rfl⟩
  split
  · exact ⟨_, rfl⟩
  · simp_all

theorem isHex_of_hexVal {c v : Nat} (h : hexVal c = some v) : isHex c = true := by
  unfold hexVal at h
  unfold isHex
  split at h
  · simp_all
  split at h
  · simp_all
  split at h
  · simp_all
  · cases h

theorem getu4_of_hex (a b c d : Nat) (s : Bytes)
    (ha : isHex a = true) (hb : isHex b = true) (hc : isHex c = true) (hd : isHex d = true) :
    ∃ r, getu4 (0x5C :: 0x75 :: a :: b :: c :: d :: s) = some r := by
  obtain ⟨x, hx⟩ := hexVal_isSome_of_isHex ha
  obtain ⟨y, hy⟩ := hexVal_isSome_of_isHex hb
  obtain ⟨z, hz⟩ := hexVal_isSome_of_isHex hc
  obtain ⟨w, hw⟩ := hexVal_isSome_of_isHex hd
  exact ⟨((x * 16 + y) * 16 + z) * 16 + w, by simp [getu4, hx, hy, hz, hw]⟩

theorem getu4_some {s : Bytes} {r : Nat} (h : getu4 s = some r) :
    ∃ a b c d t, s = 0x5C :: 0x75 :: a :: b :: c :: d :: t ∧ isHex a = true ∧ isHex b = true ∧
      isHex c = true ∧ isHex d = true := by
  match s, h with
  | c0 :: c1 :: a :: b :: c :: d :: t, h =>
    simp only [getu4] at h
    split at h
    · rename_i h01
      simp only [Bool.and_eq_true, decide_eq_true_eq] at h01
      split at h
      · rename_i x y z w hx hy hz hw
        exact ⟨a, b, c, d, t, by rw [h01.1, h01.2], isHex_of_hexVal hx, isHex_of_hexVal hy,
          isHex_of_hexVal hz, isHex_of_hexVal hw⟩
      · cases h
    · cases h
  | [], h => simp [getu4] at h
  | [_], h => simp [getu4] at h
  | [_, _], h => simp [getu4] at h
  | [_, _, _], h => simp [getu4] at h
  | [_, _, _, _], h => simp [getu4] at h
  | [_, _, _, _, _], h => simp [getu4] at h

theorem strBody_of_uesc {a b c d : Nat} {t : Bytes}
    (h : StrBody (0x5C :: 0x75 :: a :: b :: c :: d :: t)) : StrBody t := by
  cases h with
  | plain _ _ _ _ h3 _ => exact absurd rfl h3
  | esc e s he _ => exact absurd he (by decide)
  | uesc _ _ _ _ _ _ _ _ _ hs => exact hs

theorem isSimpleEscape_cases {e : Nat} (h : isSimpleEscape e = true) :
    e = 0x62 ∨ e = 0x66 ∨ e = 0x6E ∨ e = 0x72 ∨ e = 0x74 ∨ e = 0x5C ∨ e = 0x2F ∨ e = 0x22 := by
  simpa [isSimpleEscape, or_assoc] using h

theorem unquoteLoop_nil (fuel : Nat) : unquoteLoop fuel [] = some [] := by
  cases fuel <;> rfl

/-- The loop of `unquoteBytes` accepts every body the scanner accepts. -/
theorem unquoteLoop_isSome (k : Nat) :
    ∀ (body : Bytes) (fuel : Nat), body.length ≤ k → body.length ≤ fuel → StrBody body →
      (unquoteLoop fuel body).isSome = true := by
  induction k using Nat.strong_induction_on with
  | _ k ih =>
    intro body fuel hk hf hb
    cases hb with
    | nil => rw [unquoteLoop_nil]; rfl
    | plain c s h1 h2 h3 hs =>
      rw [List.length_cons] at hk hf
      obtain ⟨f, rfl⟩ : ∃ f, fuel = f + 1 := ⟨fuel - 1, by omega⟩
      rw [unquoteLoop, unquoteStep.eq_def, if_neg h3]
      have h4 : ¬ ((decide (c = 0x22) || decide (c < 0x20)) = true) := by
        simp only [Bool.or_eq_true, decide_eq_true_eq, not_or, not_lt]
        exact ⟨h2, h1⟩
      rw [if_neg h4]
      split
      · rw [Option.isSome_map']
        exact ih s.length (by omega) s f (le_refl _) (by omega) hs
      · rw [Option.isSome_map']
        have hd := strBody_drop_decodeRune c hs
        have hl : (s.drop ((DecodeRune c s).2 - 1)).length ≤ s.length := by
          rw [List.length_drop]; omega
        exact ih _ (by omega) _ f (le_refl _) (by omega) hd
    | esc e s he hs =>
      simp only [List.length_cons] at hk hf
      obtain ⟨f, rfl⟩ : ∃ f, fuel = f + 1 := ⟨fuel - 1, by omega⟩
      have hrec : (unquoteLoop f s).isSome = true :=
        ih s.length (by omega) s f (le_refl _) (by omega) hs
      rw [unquoteLoop, unquoteStep.eq_def, if_pos rfl]
      rcases isSimpleEscape_cases he with h | h | h | h | h | h | h | h <;> subst h <;>
        simp [hrec]
    | uesc a b c d s ha hb hc hd hs =>
      simp only [List.length_cons] at hk hf
      obtain ⟨f, rfl⟩ : ∃ f, fuel = f + 1 := ⟨fuel - 1, by omega⟩
      obtain ⟨r, hr⟩ := getu4_of_hex a b c d s ha hb hc hd
      have hrec : (unquoteLoop f s).isSome = true :=
        ih s.length (by omega) s f (le_refl _) (by omega) hs
      rw [unquoteLoop, unquoteStep.eq_def, if_pos rfl]
      dsimp only
      rw [if_neg (by decide), if_neg (by decide), if_neg (by decide), if_neg (by decide),
        if_neg (by decide), if_neg (by decide), if_pos rfl, hr]
      dsimp only [List.drop_succ_cons, List.drop_zero]
      split
      · split
        · rename_i hdec
          rw [Option.isSome_map']
          have hg : ∃ r2, getu4 s = some r2 := by
            cases hgs : getu4 s with
            | none => rw [hgs] at hdec; exact absurd rfl hdec
            | some r2 => exact ⟨r2, rfl⟩
          obtain ⟨r2, hr2⟩ := hg
          obtain ⟨a2, b2, c2, d2, t, et, -⟩ := getu4_some hr2
          subst et
          have ht := strBody_of_uesc hs
          simp only [List.drop_succ_cons, List.drop_zero]
          simp only [List.length_cons] at hk hf
          exact ih t.length (by omega) t f (le_refl _) (by omega) ht
        · rw [Option.isSome_map']; exact hrec
      · rw [Option.isSome_map']; exact hrec

theorem take_literal (body tail : Bytes) :
    (0x22 :: (body ++ 0x22 :: tail)).take (1 + body.length + 1) = 0x22 :: (body ++ [0x22]) := by
  rw [show 1 + body.length + 1 = (body.length + 1) + 1 by omega, List.take_succ_cons]
  congr 1
  rw [show body ++ 0x22 :: tail = (body ++ [0x22]) ++ tail by simp]
  rw [List.take_append_of_le_length (by simp)]
  exact List.take_of_length_le (by simp)

theorem drop_literal (body tail : Bytes) :
    (0x22 :: (body ++ 0x22 :: tail)).drop (1 + body.length + 1) = tail := by
  rw [show 1 + body.length + 1 = (body.length + 1) + 1 by omega, List.drop_succ_cons]
  rw [show body ++ 0x22 :: tail = (body ++ [0x22]) ++ tail by simp]
  rw [List.drop_append_of_le_length (by simp)]
  rw [List.drop_of_length_le (by simp)]
  rfl

theorem unquoteBytes_literal (body : Bytes) :
    unquoteBytes (0x22 :: (body ++ [0x22])) = unquoteLoop (body.length + 1) body := by
  simp [unquoteBytes]

/-- Every literal of the grammar decodes. -/
theorem unquoteBytes_isSome {body : Bytes} (h : StrBody body) :
    ∃ v, unquoteBytes (0x22 :: (body ++ [0x22])) = some v := by
  rw [unquoteBytes_literal]
  have := unquoteLoop_isSome body.length body (body.length + 1) (le_refl _) (by omega) h
  exact Option.isSome_iff_exists.1 this

/-- Go `Decode` succeeds exactly when a literal starts at the quote; it then consumes the
literal and returns its text. -/
theorem decodeString_ok_iff (rest v : Bytes) (n : Nat) :
    decodeString rest = .ok (v, n) ↔
      ∃ body tail, StrBody body ∧ rest = body ++ 0x22 :: tail ∧ n = 1 + body.length + 1 ∧
        unquoteBytes (0x22 :: (body ++ [0x22])) = some v := by
  constructor
  · intro h
    unfold decodeString at h
    cases hs : scanLit .inString rest 1 with
    | error e => rw [hs] at h; cases h
    | ok m =>
      rw [hs] at h
      obtain ⟨body, tail, hb, hr, hm⟩ := strBody_of_scanLit rest.length rest 1 m (le_refl _) hs
      subst hr; subst hm
      dsimp only at h
      rw [take_literal] at h
      cases hu : unquoteBytes (0x22 :: (body ++ [0x22])) with
      | none => rw [hu] at h; cases h
      | some w =>
        rw [hu] at h
        injection h with h
        injection h with h1 h2
        exact ⟨body, tail, hb, rfl, h2.symm, by rw [← h1]; exact hu⟩
  · rintro ⟨body, tail, hb, rfl, rfl, hu⟩
    unfold decodeString
    rw [scanLit_of_strBody hb]
    dsimp only
    rw [take_literal, hu]

/-- Go `Decode` never reaches the decoder's internal panic. -/
theorem decodeString_ne_phase (rest : Bytes) : decodeString rest ≠ .error .phase := by
  intro h
  unfold decodeString at h
  cases hs : scanLit .inString rest 1 with
  | error e =>
    rw [hs] at h
    injection h with h
    subst h
    -- the scanner itself never reports `phase`
    exact absurd hs (by
      have key : ∀ (st : ScanState) (cs : Bytes) (n : Nat),
          scanLit st cs n ≠ .error .phase := by
        intro st cs
        induction cs generalizing st with
        | nil => intro n; rw [scanLit_nil]; intro h; cases h
        | cons c cs ih =>
          intro n
          cases st with
          | inString =>
            rw [scanLit_inString_cons]
            split
            · intro h; cases h
            split
            · exact ih _ _
            split
            · intro h; cases h
            · exact ih _ _
          | inStringEsc =>
            rw [scanLit_inStringEsc_cons]
            split
            · exact ih _ _
            split
            · exact ih _ _
            · intro h; cases h
          | inStringEscU seen =>
            rw [scanLit_inStringEscU_cons]
            split
            · exact ih _ _
            · intro h; cases h
      exact key _ _ _)
  | ok m =>
    rw [hs] at h
    obtain ⟨body, tail, hb, hr, hm⟩ := strBody_of_scanLit rest.length rest 1 m (le_refl _) hs
    subst hr; subst hm
    dsimp only at h
    rw [take_literal] at h
    obtain ⟨v, hv⟩ := unquoteBytes_isSome hb
    rw [hv] at h
    cases h

/-- The `parse` closure at a quote that follows `pre` in the line: it succeeds exactly
on a literal, `length` is the literal's length and `line` the trimmed rest. -/
theorem parse_ok_iff (pre rest value line : Bytes) (length : Int) :
    parse (pre ++ 0x22 :: rest) rest
        (((pre ++ 0x22 :: rest).length : Int) - ((0x22 :: rest).length : Int)) =
      .ok (value, length, line) ↔
      ∃ body tail, StrBody body ∧ rest = body ++ 0x22 :: tail ∧
        length = ((body.length + 2 : Nat) : Int) ∧
        unquoteBytes (0x22 :: (body ++ [0x22])) = some value ∧ line = trimLeft tail := by
  unfold parse
  constructor
  · intro h
    cases hd : decodeString rest with
    | error e => rw [hd] at h; cases h
    | ok p =>
      obtain ⟨v, n⟩ := p
      rw [hd] at h
      obtain ⟨body, tail, hb, hr, hn, hu⟩ := (decodeString_ok_iff rest v n).1 hd
      subst hr; subst hn
      dsimp only at h
      rw [drop_literal] at h
      injection h with h
      injection h with h1 h
      injection h with h2 h3
      refine ⟨body, tail, hb, rfl, ?_, by rw [← h1]; exact hu, h3.symm⟩
      rw [← h2]
      simp only [List.length_append, List.length_cons]
      push_cast
      omega
  · rintro ⟨body, tail, hb, rfl, rfl, hu, rfl⟩
    have hd := (decodeString_ok_iff (body ++ 0x22 :: tail) value (1 + body.length + 1)).2
      ⟨body, tail, hb, rfl, rfl, hu⟩
    rw [hd]
    dsimp only
    rw [drop_literal]
    congr 3
    simp only [List.length_append, List.length_cons]
    push_cast
    omega

theorem parse_error_iff (cline rest : Bytes) (offset : Int) (e : GoError) :
    parse cline rest offset = .error e ↔
      ∃ d, decodeString rest = .error d ∧ e = newInputError (.decode d) := by
  unfold parse
  cases hd : decodeString rest with
  | error d =>
    constructor
    · intro h; injection h with h; exact ⟨d, rfl, h.symm⟩
    · rintro ⟨d2, h1, h2⟩; injection h1 with h1; rw [h2, h1]
  | ok p =>
    obtain ⟨v, n⟩ := p
    constructor
    · intro h; cases h
    · rintro ⟨d2, h1, -⟩; cases h1

theorem ws_quote : jsonWhitespaceRuneFunc 0x22 = false := by decide
theorem ws_comma : jsonWhitespaceRuneFunc 0x2C = false := by decide
theorem ws_colon : jsonWhitespaceRuneFunc 0x3A = false := by decide

theorem trimLeft_eq_cons {l tl : Bytes} {c : Nat} (h : trimLeft l = c :: tl) :
    ∃ ws, IsWs ws ∧ l = ws ++ c :: tl := by
  obtain ⟨ws, hws, hl, -⟩ := trimLeft_split l
  exact ⟨ws, hws, by rw [h] at hl; exact hl⟩

/-- The closure `translate` is called after a literal exactly when white space, or white
space, a comma and white space follow it. -/
theorem endsValue_trimLeft_iff (tail : Bytes) :
    endsValue (trimLeft tail) = true ↔ IsValueTail tail := by
  constructor
  · intro h
    cases ht : trimLeft tail with
    | nil => exact Or.inl ((trimLeft_eq_nil_iff tail).1 ht)
    | cons c tl =>
      rw [ht] at h
      simp only [endsValue, Bool.and_eq_true, decide_eq_true_eq, List.length_eq_zero] at h
      obtain ⟨ws, hws, hl⟩ := trimLeft_eq_cons ht
      exact Or.inr ⟨ws, tl, hws, (trimLeft_eq_nil_iff tl).1 h.2, by rw [hl, h.1]⟩
  · rintro (h | ⟨ws1, ws2, h1, h2, rfl⟩)
    · rw [(trimLeft_eq_nil_iff tail).2 h]; rfl
    · rw [trimLeft_append_ws _ _ h1, trimLeft_cons_of_not_ws _ _ ws_comma]
      simp only [endsValue, Bool.and_eq_true, decide_eq_true_eq, List.length_eq_zero]
      exact ⟨trivial, (trimLeft_eq_nil_iff ws2).2 h2⟩

/-- The line scan of `Engine.translate` on a line `ws ++ quote :: rest`, in terms of the
two results of `parse`. -/
theorem extract_quote (ws rest : Bytes) (hws : IsWs ws) :
    extract (ws ++ 0x22 :: rest) =
      match parse (ws ++ 0x22 :: rest) rest
          (((ws ++ 0x22 :: rest).length : Int) - ((0x22 :: rest).length : Int)) with
      | .error e => .error e
      | .ok (value, length, line) =>
        if endsValue line then
          .ok (some ⟨((ws ++ 0x22 :: rest).length : Int) - ((0x22 :: rest).length : Int),
            length, value⟩)
        else
          match line with
          | [] => .ok none
          | c :: tl =>
            if c = 0x3A then
              match trimLeft tl with
              | [] => .ok none
              | q2 :: rest2 =>
                if q2 = 0x22 then
                  match parse (ws ++ 0x22 :: rest) rest2
                      (((ws ++ 0x22 :: rest).length : Int) - ((q2 :: rest2).length : Int)) with
                  | .error e => .error e
                  | .ok (value2, length2, line2) =>
                    if endsValue line2 then
                      .ok (some ⟨((ws ++ 0x22 :: rest).length : Int) -
                        ((q2 :: rest2).length : Int), length2, value2⟩)
                    else .ok none
                else .ok none
            else .ok none := by
  unfold extract
  rw [trimLeft_append_ws _ _ hws, trimLeft_cons_of_not_ws _ _ ws_quote]
  dsimp only
  rw [if_pos rfl]
  cases hp : parse (ws ++ 0x22 :: rest) rest
      (((ws ++ 0x22 :: rest).length : Int) - ((0x22 :: rest).length : Int)) with
  | error e => rfl
  | ok p =>
    obtain ⟨value, length, line⟩ := p
    dsimp only
    cases line with
    | nil => rfl
    | cons c tl =>
      dsimp only
      by_cases hc : c = 0x2C
      · subst hc
        by_cases ht : (trimLeft tl).length = 0
        · simp [endsValue, ht]
        · simp [endsValue, ht]
      · simp [endsValue, hc]

theorem parse_ok_iff_of_eq {cline pre rest : Bytes} (hc : cline = pre ++ 0x22 :: rest)
    (value line : Bytes) (length : Int) :
    parse cline rest ((cline.length : Int) - ((0x22 :: rest).length : Int)) =
      .ok (value, length, line) ↔
      ∃ body tail, StrBody body ∧ rest = body ++ 0x22 :: tail ∧
        length = ((body.length + 2 : Nat) : Int) ∧
        unquoteBytes (0x22 :: (body ++ [0x22])) = some value ∧ line = trimLeft tail := by
  subst hc
  exact parse_ok_iff pre rest value line length

theorem offset_eq {cline pre tl : Bytes} (hc : cline = pre ++ tl) :
    (cline.length : Int) - (tl.length : Int) = (pre.length : Int) := by
  subst hc
  simp only [List.length_append]
  push_cast
  omega

/-- The line scan finds a candidate exactly on the lines `pre ++ literal ++ suf` whose
head and tail have the accepted forms; the candidate is the span and text of that
literal. -/
theorem extract_some_iff (cline : Bytes) (c : Candidate) :
    extract cline = .ok (some c) ↔
      ∃ pre body suf, cline = pre ++ 0x22 :: (body ++ 0x22 :: suf) ∧ StrBody body ∧
        IsValueHead pre ∧ IsValueTail suf ∧ c.offset = (pre.length : Int) ∧
        c.length = ((body.length + 2 : Nat) : Int) ∧
        unquoteBytes (0x22 :: (body ++ [0x22])) = some c.value := by
  constructor
  · intro h
    cases ht : trimLeft cline with
    | nil => simp only [extract, ht] at h; cases h
    | cons q rest =>
      obtain ⟨ws, hws, hl⟩ := trimLeft_eq_cons ht
      by_cases hq : q = 0x22
      swap
      · simp only [extract, ht, hq, if_false] at h; cases h
      subst hq
      rw [hl, extract_quote ws rest hws, ← hl] at h
      cases hp : parse cline rest ((cline.length : Int) - ((0x22 :: rest).length : Int)) with
      | error e => rw [hp] at h; cases h
      | ok p =>
        obtain ⟨value, length, line⟩ := p
        rw [hp] at h
        dsimp only at h
        obtain ⟨body, tail, hb, hr, hlen, hu, hline⟩ :=
          (parse_ok_iff_of_eq hl value line length).1 hp
        by_cases he : endsValue line = true
        · rw [if_pos he] at h
          injection h with h
          injection h with h
          subst h
          refine ⟨ws, body, tail, by rw [hl, hr], hb, Or.inl hws, ?_, offset_eq hl, hlen, hu⟩
          rw [hline] at he
          exact (endsValue_trimLeft_iff tail).1 he
        · rw [if_neg he] at h
          cases hline2 : line with
          | nil => rw [hline2] at h; cases h
          | cons ch tl =>
            rw [hline2] at h
            dsimp only at h
            by_cases hch : ch = 0x3A
            swap
            · rw [if_neg hch] at h; cases h
            rw [if_pos hch] at h
            subst hch
            cases ht2 : trimLeft tl with
            | nil => rw [ht2] at h; cases h
            | cons q2 rest2 =>
              rw [ht2] at h
              dsimp only at h
              by_cases hq2 : q2 = 0x22
              swap
              · rw [if_neg hq2] at h; cases h
              rw [if_pos hq2] at h
              subst hq2
              obtain ⟨ws1, hws1, htail⟩ := trimLeft_eq_cons (hline.symm.trans hline2)
              obtain ⟨ws2, hws2, htl⟩ := trimLeft_eq_cons ht2
              have hl2 : cline =
                  (ws ++ (0x22 :: (body ++ [0x22])) ++ ws1 ++ 0x3A :: ws2) ++ 0x22 :: rest2 := by
                rw [hl, hr, htail, htl]; simp
              cases hp2 : parse cline rest2
                  ((cline.length : Int) - ((0x22 :: rest2).length : Int)) with
              | error e => rw [hp2] at h; cases h
              | ok p2 =>
                obtain ⟨value2, length2, line2⟩ := p2
                rw [hp2] at h
                dsimp only at h
                obtain ⟨body2, tail2, hb2, hr2, hlen2, hu2, hline3⟩ :=
                  (parse_ok_iff_of_eq hl2 value2 line2 length2).1 hp2
                by_cases he2 : endsValue line2 = true
                swap
                · rw [if_neg he2] at h; cases h
                rw [if_pos he2] at h
                injection h with h
                injection h with h
                subst h
                refine ⟨ws ++ (0x22 :: (body ++ [0x22])) ++ ws1 ++ 0x3A :: ws2, body2, tail2,
                  by rw [hl2, hr2], hb2,
                  Or.inr ⟨ws, 0x22 :: (body ++ [0x22]), ws1, ws2, hws, ⟨body, hb, rfl⟩, hws1,
                    hws2, rfl⟩,
                  ?_, offset_eq hl2, hlen2, hu2⟩
                rw [hline3] at he2
                exact (endsValue_trimLeft_iff tail2).1 he2
  · rintro ⟨pre, body, suf, hc, hb, hpre, hsuf, hoff, hlen, hu⟩
    obtain ⟨off, len, val⟩ := c
    dsimp only at hoff hlen hu
    subst hoff hlen
    rcases hpre with hws | ⟨ws0, key, ws1, ws2, hws0, ⟨kbody, hkb, rfl⟩, hws1, hws2, rfl⟩
    · rw [hc, extract_quote pre _ hws, ← hc]
      have hp := (parse_ok_iff_of_eq hc val (trimLeft suf) ((body.length + 2 : Nat) : Int)).2
        ⟨body, suf, hb, rfl, rfl, hu, rfl⟩
      rw [hp]
      dsimp only
      rw [if_pos ((endsValue_trimLeft_iff suf).2 hsuf), offset_eq hc]
    · have hc1 : cline = ws0 ++
          0x22 :: (kbody ++ 0x22 :: (ws1 ++ 0x3A :: (ws2 ++ 0x22 :: (body ++ 0x22 :: suf)))) := by
        rw [hc]; simp
      obtain ⟨kv, hkv⟩ := unquoteBytes_isSome hkb
      rw [hc1, extract_quote ws0 _ hws0, ← hc1]
      have hp := (parse_ok_iff_of_eq hc1 kv
        (trimLeft (ws1 ++ 0x3A :: (ws2 ++ 0x22 :: (body ++ 0x22 :: suf))))
        ((kbody.length + 2 : Nat) : Int)).2 ⟨kbody, _, hkb, rfl, rfl, hkv, rfl⟩
      rw [hp]
      dsimp only
      rw [trimLeft_append_ws _ _ hws1, trimLeft_cons_of_not_ws _ _ ws_colon]
      rw [if_neg (by simp [endsValue])]
      dsimp only
      rw [if_pos rfl, trimLeft_append_ws _ _ hws2, trimLeft_cons_of_not_ws _ _ ws_quote]
      dsimp only
      rw [if_pos rfl]
      have hp2 := (parse_ok_iff_of_eq hc val (trimLeft suf) ((body.length + 2 : Nat) : Int)).2
        ⟨body, suf, hb, rfl, rfl, hu, rfl⟩
      rw [hp2]
      dsimp only
      rw [if_pos ((endsValue_trimLeft_iff suf).2 hsuf), offset_eq hc]

theorem take_pre (pre tl : Bytes) : (pre ++ tl).take pre.length = pre := by
  rw [List.take_append_of_le_length (le_refl _), List.take_length]

theorem drop_pre (pre tl : Bytes) : (pre ++ tl).drop pre.length = tl := by
  rw [List.drop_append_of_le_length (le_refl _), List.drop_length, List.nil_append]

theorem drop_pre_literal (pre body suf : Bytes) :
    (pre ++ 0x22 :: (body ++ 0x22 :: suf)).drop (pre.length + (body.length + 2)) = suf := by
  rw [← List.drop_drop, drop_pre]
  have := drop_literal body suf
  rw [show 1 + body.length + 1 = body.length + 2 by omega] at this
  exact this

theorem sliceTo_pre (pre tl : Bytes) : sliceTo (pre ++ tl) (pre.length : Int) = some pre := by
  unfold sliceTo
  rw [if_pos ⟨Int.natCast_nonneg _, by simp⟩, Int.toNat_ofNat, take_pre]

theorem sliceFrom_pre_literal (pre body suf : Bytes) :
    sliceFrom (pre ++ 0x22 :: (body ++ 0x22 :: suf))
      ((pre.length : Int) + ((body.length + 2 : Nat) : Int)) = some suf := by
  unfold sliceFrom
  have e : (pre.length : Int) + ((body.length + 2 : Nat) : Int)
      = ((pre.length + (body.length + 2) : Nat) : Int) := by push_cast; rfl
  rw [e, if_pos ⟨Int.natCast_nonneg _, by simp; omega⟩, Int.toNat_ofNat, drop_pre_literal]

/-- The writes of the closure on a line `pre ++ literal ++ suf` with the literal's span. -/
theorem writeLine_span {σ : Type} (st : Run σ) (pre body suf b : Bytes) :
    writeLine st (pre ++ 0x22 :: (body ++ 0x22 :: suf)) (pre.length : Int)
        ((body.length + 2 : Nat) : Int) b =
      ({ st with out := st.out ++ pre ++ b ++ suf ++ lineSeparator }, none) := by
  unfold writeLine
  rw [sliceTo_pre, sliceFrom_pre_literal]

/-- The closure on a candidate whose span is that of a literal in the line: a cache hit
writes the cached text's encoding and changes nothing else. -/
theorem translateClosure_hit {σ : Type} (tr : Translator σ) (st : Run σ)
    (pre body suf value t : Bytes) (h : st.cache value = some t) :
    translateClosure tr st (pre ++ 0x22 :: (body ++ 0x22 :: suf))
        ⟨(pre.length : Int), ((body.length + 2 : Nat) : Int), value⟩ =
      ({ st with out := st.out ++ pre ++ jsonMarshal t ++ suf ++ lineSeparator }, none) := by
  unfold translateClosure
  dsimp only
  rw [h]
  dsimp only
  rw [writeLine_span]

/-- The closure on a cache miss followed by a successful translation. -/
theorem translateClosure_miss_ok {σ : Type} (tr : Translator σ) (st : Run σ)
    (pre body suf value t : Bytes) (h : st.cache value = none)
    (ht : (tr.Translate st.tstate st.number (pre.length : Int)
      ((body.length + 2 : Nat) : Int) value).1 = .ok t) :
    translateClosure tr st (pre ++ 0x22 :: (body ++ 0x22 :: suf))
        ⟨(pre.length : Int), ((body.length + 2 : Nat) : Int), value⟩ =
      ({ cache := fun k => if k = value then some t else st.cache k
         out := st.out ++ pre ++ jsonMarshal t ++ suf ++ lineSeparator
         tstate := (tr.Translate st.tstate st.number (pre.length : Int)
           ((body.length + 2 : Nat) : Int) value).2
         calls := st.calls ++ [⟨st.number, (pre.length : Int),
           ((body.length + 2 : Nat) : Int), value, .ok t⟩]
         number := st.number }, none) := by
  unfold translateClosure
  dsimp only
  rw [h]
  dsimp only
  rw [ht]
  dsimp only
  rw [writeLine_span]

/-- The closure on a cache miss followed by a failed translation: nothing is written
and nothing is stored. -/
theorem translateClosure_miss_error {σ : Type} (tr : Translator σ) (st : Run σ)
    (cline : Bytes) (cand : Candidate) (e : GoError) (h : st.cache cand.value = none)
    (ht : (tr.Translate st.tstate st.number cand.offset cand.length cand.value).1 = .error e) :
    translateClosure tr st cline cand =
      ({ st with
         tstate := (tr.Translate st.tstate st.number cand.offset cand.length cand.value).2
         calls := st.calls ++ [⟨st.number, cand.offset, cand.length, cand.value, .error e⟩] },
        some e) := by
  unfold translateClosure
  rw [h]
  dsimp only
  rw [ht]

/-- C1. Byte-exact framing: on a candidate line whose translation `t` is resolved, from
the cache or from a successful translator call, the engine writes exactly
`line[:offset] ++ jsonMarshal t ++ line[offset+length:] ++ "\n"` and reports no error. -/
theorem C1_byte_exact_framing {σ : Type} (tr : Translator σ) (st : Run σ) (cline : Bytes)
    (cand : Candidate) (t : Bytes) (hc : extract cline = .ok (some cand))
    (ht : st.cache cand.value = some t ∨
      (st.cache cand.value = none ∧
        (tr.Translate st.tstate st.number cand.offset cand.length cand.value).1 = .ok t)) :
    (processLine tr st cline).2 = none ∧
      (processLine tr st cline).1.out =
        st.out ++ cline.take cand.offset.toNat ++ jsonMarshal t ++
          cline.drop (cand.offset + cand.length).toNat ++ [0x0A] := by
  obtain ⟨pre, body, suf, hl, -, -, -, hoff, hlen, -⟩ := (extract_some_iff cline cand).1 hc
  obtain ⟨off, len, value⟩ := cand
  dsimp only at hoff hlen ht
  subst hoff hlen hl
  have e1 : ((pre.length : Int)).toNat = pre.length := Int.toNat_ofNat _
  have e2 : ((pre.length : Int) + ((body.length + 2 : Nat) : Int)).toNat
      = pre.length + (body.length + 2) := by
    rw [← Int.natCast_add, Int.toNat_ofNat]
  unfold processLine
  rw [hc]
  dsimp only
  rw [e1, e2, take_pre, drop_pre_literal]
  rcases ht with h | ⟨h, h2⟩
  · rw [translateClosure_hit tr st pre body suf value t h]
    exact ⟨rfl, rfl⟩
  · rw [translateClosure_miss_ok tr st pre body suf value t h h2]
    exact ⟨rfl, rfl⟩

theorem C1_byte_exact_framing_witness :
    (processLine (mapTranslator [(ascii "hello", ascii "world")])
        ⟨fun _ => none, [], (), [], 1⟩ (ascii "  \"hello\",")).1.out =
      ascii "  \"world\",\n" :=
  (C1_byte_exact_framing (mapTranslator [(ascii "hello", ascii "world")])
      ⟨fun _ => none, [], (), [], 1⟩ (ascii "  \"hello\",")
      ⟨2, 7, ascii "hello"⟩ (ascii "world") (by decide) (Or.inr ⟨by decide, by decide⟩)).2.trans
    (by decide)

/-- The shapes of the specification are the lines `literal ++ suf` and
`key ws : ws literal ++ suf` with an accepted tail `suf`. -/
theorem candidateShape_iff (l : Bytes) :
    CandidateShape l ↔
      ∃ pre body suf, l = pre ++ 0x22 :: (body ++ 0x22 :: suf) ∧ StrBody body ∧
        IsValueTail suf ∧
        (pre = [] ∨ ∃ key ws1 ws2, IsStringLiteral key ∧ IsWs ws1 ∧ IsWs ws2 ∧
          pre = key ++ ws1 ++ 0x3A :: ws2) := by
  constructor
  · intro h
    cases h with
    | value lit ws hlit hws =>
      obtain ⟨body, hb, rfl⟩ := hlit
      exact ⟨[], body, ws, by simp, hb, Or.inl hws, Or.inl rfl⟩
    | valueComma lit ws1 ws2 hlit h1 h2 =>
      obtain ⟨body, hb, rfl⟩ := hlit
      exact ⟨[], body, ws1 ++ 0x2C :: ws2, by simp, hb, Or.inr ⟨ws1, ws2, h1, h2, rfl⟩,
        Or.inl rfl⟩
    | keyValue key ws1 ws2 lit ws3 hkey h1 h2 hlit h3 =>
      obtain ⟨body, hb, rfl⟩ := hlit
      exact ⟨key ++ ws1 ++ 0x3A :: ws2, body, ws3, by simp, hb, Or.inl h3,
        Or.inr ⟨key, ws1, ws2, hkey, h1, h2, rfl⟩⟩
    | keyValueComma key ws1 ws2 lit ws3 ws4 hkey h1 h2 hlit h3 h4 =>
      obtain ⟨body, hb, rfl⟩ := hlit
      exact ⟨key ++ ws1 ++ 0x3A :: ws2, body, ws3 ++ 0x2C :: ws4, by simp, hb,
        Or.inr ⟨ws3, ws4, h3, h4, rfl⟩, Or.inr ⟨key, ws1, ws2, hkey, h1, h2, rfl⟩⟩
  · rintro ⟨pre, body, suf, rfl, hb, hsuf, hpre⟩
    have hlit : IsStringLiteral (0x22 :: (body ++ [0x22])) := ⟨body, hb, rfl⟩
    rcases hpre with rfl | ⟨key, ws1, ws2, hkey, h1, h2, rfl⟩
    · rcases hsuf with hws | ⟨ws3, ws4, h3, h4, rfl⟩
      · have := CandidateShape.value _ suf hlit hws
        simpa using this
      · have := CandidateShape.valueComma _ ws3 ws4 hlit h3 h4
        simpa using this
    · rcases hsuf with hws | ⟨ws3, ws4, h3, h4, rfl⟩
      · have := CandidateShape.keyValue key ws1 ws2 _ suf hkey h1 h2 hlit hws
        simpa using this
      · have := CandidateShape.keyValueComma key ws1 ws2 _ ws3 ws4 hkey h1 h2 hlit h3 h4
        simpa using this

theorem isStringLiteral_head {lit : Bytes} (h : IsStringLiteral lit) :
    ∃ tl, lit = 0x22 :: tl := by
  obtain ⟨body, -, rfl⟩ := h
  exact ⟨_, rfl⟩

/-- C2. Candidate classification: the line scan yields a candidate exactly when the
line, after its leading white space, has one of the four shapes `literal ws*`,
`literal ws* , ws*`, `literal ws* : ws* literal ws*`, `literal ws* : ws* literal ws* , ws*`;
a line of any other shape on which no literal fails to decode yields no candidate, and a
line that does not start with a quote yields no candidate and no error. -/
theorem C2_candidate_classification (line : Bytes) :
    ((∃ c, extract line = .ok (some c)) ↔ CandidateShape (trimLeft line)) ∧
      ((∀ e, extract line ≠ .error e) → ¬ CandidateShape (trimLeft line) →
        extract line = .ok none) ∧
      ((trimLeft line).head? ≠ some 0x22 → extract line = .ok none) := by
  have hiff : (∃ c, extract line = .ok (some c)) ↔ CandidateShape (trimLeft line) := by
    rw [candidateShape_iff]
    constructor
    · rintro ⟨c, hc⟩
      obtain ⟨pre, body, suf, hl, hb, hpre, hsuf, -, -, -⟩ := (extract_some_iff line c).1 hc
      rcases hpre with hws | ⟨ws0, key, ws1, ws2, h0, hkey, h1, h2, rfl⟩
      · refine ⟨[], body, suf, ?_, hb, hsuf, Or.inl rfl⟩
        rw [hl, trimLeft_append_ws _ _ hws, trimLeft_cons_of_not_ws _ _ ws_quote]
        rfl
      · refine ⟨key ++ ws1 ++ 0x3A :: ws2, body, suf, ?_, hb, hsuf,
          Or.inr ⟨key, ws1, ws2, hkey, h1, h2, rfl⟩⟩
        obtain ⟨ktl, rfl⟩ := isStringLiteral_head hkey
        rw [hl]
        simp only [List.append_assoc, List.cons_append]
        rw [trimLeft_append_ws _ _ h0, trimLeft_cons_of_not_ws _ _ ws_quote]
    · rintro ⟨pre, body, suf, hl, hb, hsuf, hpre⟩
      obtain ⟨ws, hws, hline, -⟩ := trimLeft_split line
      obtain ⟨v, hv⟩ := unquoteBytes_isSome hb
      rcases hpre with rfl | ⟨key, ws1, ws2, hkey, h1, h2, rfl⟩
      · refine ⟨⟨(ws.length : Int), ((body.length + 2 : Nat) : Int), v⟩, ?_⟩
        exact (extract_some_iff line _).2
          ⟨ws, body, suf, by rw [hline, hl]; rfl, hb, Or.inl hws, hsuf, rfl, rfl, hv⟩
      · refine ⟨⟨((ws ++ key ++ ws1 ++ 0x3A :: ws2).length : Int),
          ((body.length + 2 : Nat) : Int), v⟩, ?_⟩
        exact (extract_some_iff line _).2
          ⟨ws ++ key ++ ws1 ++ 0x3A :: ws2, body, suf,
            by rw [hline, hl]; simp, hb,
            Or.inr ⟨ws, key, ws1, ws2, hws, hkey, h1, h2, rfl⟩, hsuf, rfl, rfl, hv⟩
  refine ⟨hiff, ?_, ?_⟩
  · intro hne hshape
    cases hx : extract line with
    | error e => exact absurd hx (hne e)
    | ok o =>
      cases o with
      | none => rfl
      | some c => exact absurd (hiff.1 ⟨c, hx⟩) hshape
  · intro hq
    unfold extract
    cases ht : trimLeft line with
    | nil => rfl
    | cons q rest =>
      rw [ht] at hq
      have hq2 : q ≠ 0x22 := by
        intro h; apply hq; rw [h]; rfl
      dsimp only
      rw [if_neg hq2]

theorem C2_candidate_classification_witness :
    CandidateShape (trimLeft (ascii "  \"key\": \"hello\" , ")) ∧
      extract (ascii "\"k\": 5") = .ok none ∧ extract (ascii "\x7b") = .ok none := by
  have h5 : extract (ascii "\"k\": 5") = .ok none := by decide
  refine ⟨(C2_candidate_classification (ascii "  \"key\": \"hello\" , ")).1.1
      ⟨⟨9, 7, ascii "hello"⟩, by decide⟩,
    (C2_candidate_classification (ascii "\"k\": 5")).2.1 ?_ ?_,
    (C2_candidate_classification (ascii "\x7b")).2.2 (by decide)⟩
  · intro e h
    rw [h5] at h
    cases h
  · intro h
    obtain ⟨c, hc⟩ := (C2_candidate_classification (ascii "\"k\": 5")).1.2 h
    rw [h5] at hc
    cases hc

/-- C3. No-candidate pass-through: on a line without candidate (and without input
error) the engine writes the line's bytes followed by one line feed, reports no error,
does not invoke the translator and leaves the cache as it was. -/
theorem C3_no_candidate_pass_through {σ : Type} (tr : Translator σ) (st : Run σ)
    (cline : Bytes) (h : extract cline = .ok none) :
    (processLine tr st cline).2 = none ∧
      (processLine tr st cline).1.out = st.out ++ cline ++ [0x0A] ∧
      (processLine tr st cline).1.calls = st.calls ∧
      (processLine tr st cline).1.tstate = st.tstate ∧
      (processLine tr st cline).1.cache = st.cache := by
  unfold processLine
  rw [h]
  exact ⟨rfl, rfl, rfl, rfl, rfl⟩

theorem C3_no_candidate_pass_through_witness :
    (processLine (mapTranslator [(ascii "hello", ascii "world")]) (Run.fresh ())
        (ascii "\x7b")).1.out = ascii "\x7b\n" ∧
      (processLine (mapTranslator [(ascii "hello", ascii "world")]) (Run.fresh ())
        (ascii "\x7b")).1.calls = [] :=
  ⟨(C3_no_candidate_pass_through (mapTranslator [(ascii "hello", ascii "world")])
      (Run.fresh ()) (ascii "\x7b") (by decide)).2.1.trans (by decide),
    (C3_no_candidate_pass_through (mapTranslator [(ascii "hello", ascii "world")])
      (Run.fresh ()) (ascii "\x7b") (by decide)).2.2.1⟩

theorem getElem?_pre_cons (pre tl : Bytes) (c : Nat) :
    (pre ++ c :: tl)[pre.length]? = some c := by
  rw [List.getElem?_append_right (le_refl _)]
  simp

/-- C6. Candidate span: `offset` and `length` delimit the JSON string literal with its
quotes. The offset is not negative, the length is at least two, the span lies inside the
line (so both slices of the closure are in bounds), the span starts and ends with a
quote, it is one string literal, and decoding it gives the candidate's value. -/
theorem C6_candidate_span (cline : Bytes) (cand : Candidate)
    (h : extract cline = .ok (some cand)) :
    0 ≤ cand.offset ∧ 2 ≤ cand.length ∧
      cand.offset + cand.length ≤ (cline.length : Int) ∧
      cline[cand.offset.toNat]? = some 0x22 ∧
      cline[(cand.offset + cand.length - 1).toNat]? = some 0x22 ∧
      IsStringLiteral ((cline.drop cand.offset.toNat).take cand.length.toNat) ∧
      unquoteBytes ((cline.drop cand.offset.toNat).take cand.length.toNat) =
        some cand.value ∧
      decodeString ((cline.drop cand.offset.toNat).take cand.length.toNat).tail =
        .ok (cand.value, cand.length.toNat) ∧
      sliceTo cline cand.offset = some (cline.take cand.offset.toNat) ∧
      sliceFrom cline (cand.offset + cand.length) =
        some (cline.drop (cand.offset + cand.length).toNat) := by
  obtain ⟨pre, body, suf, hl, hb, -, -, hoff, hlen, hu⟩ := (extract_some_iff cline cand).1 h
  obtain ⟨off, len, value⟩ := cand
  dsimp only at hoff hlen hu ⊢
  subst hoff hlen hl
  have e1 : ((pre.length : Int)).toNat = pre.length := Int.toNat_ofNat _
  have e2 : ((pre.length : Int) + ((body.length + 2 : Nat) : Int)).toNat
      = pre.length + (body.length + 2) := by
    rw [← Int.natCast_add, Int.toNat_ofNat]
  have e3 : ((pre.length : Int) + ((body.length + 2 : Nat) : Int) - 1).toNat
      = pre.length + (body.length + 1) := by
    have : (pre.length : Int) + ((body.length + 2 : Nat) : Int) - 1
        = ((pre.length + (body.length + 1) : Nat) : Int) := by push_cast; omega
    rw [this, Int.toNat_ofNat]
  have e4 : (((body.length + 2 : Nat) : Int)).toNat = body.length + 2 := Int.toNat_ofNat _
  have hslice : ((pre ++ 0x22 :: (body ++ 0x22 :: suf)).drop pre.length).take (body.length + 2)
      = 0x22 :: (body ++ [0x22]) := by
    rw [drop_pre]
    have := take_literal body suf
    rw [show 1 + body.length + 1 = body.length + 2 by omega] at this
    exact this
  rw [e1, e2, e3, e4, hslice]
  refine ⟨Int.natCast_nonneg _, ?_, ?_, getElem?_pre_cons pre _ _, ?_, ⟨body, hb, rfl⟩, hu, ?_,
    ?_, ?_⟩
  · push_cast; omega
  · simp only [List.length_append, List.length_cons]; push_cast; omega
  · have : pre ++ 0x22 :: (body ++ 0x22 :: suf) = (pre ++ 0x22 :: body) ++ 0x22 :: suf := by
      simp
    rw [this]
    have hl2 : pre.length + (body.length + 1) = (pre ++ 0x22 :: body).length := by simp
    rw [hl2]
    exact getElem?_pre_cons _ _ _
  · rw [List.tail_cons]
    have := (decodeString_ok_iff (body ++ [0x22]) value (1 + body.length + 1)).2
      ⟨body, [], hb, rfl, rfl, hu⟩
    rw [this]
    congr 2
    omega
  · rw [sliceTo_pre, take_pre]
  · rw [sliceFrom_pre_literal, drop_pre_literal]

theorem C6_candidate_span_witness :
    (ascii "\"key\": \"hello\",")[(7 : Int).toNat]? = some 0x22 ∧
      unquoteBytes (((ascii "\"key\": \"hello\",").drop (7 : Int).toNat).take (7 : Int).toNat)
        = some (ascii "hello") :=
  ⟨(C6_candidate_span (ascii "\"key\": \"hello\",") ⟨7, 7, ascii "hello"⟩ (by decide)).2.2.2.1,
    (C6_candidate_span (ascii "\"key\": \"hello\",") ⟨7, 7, ascii "hello"⟩
      (by decide)).2.2.2.2.2.2.1⟩

/-- C7. Object keys are never translated: on a line `ws key ws : ws value tail`, where
`key` and `value` are string literals and `tail` is white space or white space, a comma
and white space, the candidate is the second literal. On a cache hit the line is written
with every byte before the value's opening quote and every byte after its closing quote
kept; on a miss the one translator call receives the decoded text of the value, and when
it succeeds the line is written in the same way. -/
theorem C7_object_keys_not_translated (ws0 key ws1 ws2 val suf : Bytes)
    (h0 : IsWs ws0) (hkey : IsStringLiteral key) (h1 : IsWs ws1) (h2 : IsWs ws2)
    (hval : IsStringLiteral val) (hsuf : IsValueTail suf) :
    ∃ v, unquoteBytes val = some v ∧
      extract (ws0 ++ key ++ ws1 ++ 0x3A :: ws2 ++ val ++ suf) =
        .ok (some ⟨((ws0 ++ key ++ ws1 ++ 0x3A :: ws2).length : Int), (val.length : Int), v⟩) ∧
      ∀ {σ : Type} (tr : Translator σ) (st : Run σ),
        (∀ t, st.cache v = some t →
          processLine tr st (ws0 ++ key ++ ws1 ++ 0x3A :: ws2 ++ val ++ suf) =
            ({ st with out := st.out ++ (ws0 ++ key ++ ws1 ++ 0x3A :: ws2) ++ jsonMarshal t ++
                suf ++ [0x0A] }, none)) ∧
        (st.cache v = none →
          (processLine tr st (ws0 ++ key ++ ws1 ++ 0x3A :: ws2 ++ val ++ suf)).1.calls =
            st.calls ++ [⟨st.number, ((ws0 ++ key ++ ws1 ++ 0x3A :: ws2).length : Int),
              (val.length : Int), v,
              (tr.Translate st.tstate st.number
                ((ws0 ++ key ++ ws1 ++ 0x3A :: ws2).length : Int) (val.length : Int) v).1⟩] ∧
          ∀ t, (tr.Translate st.tstate st.number
                ((ws0 ++ key ++ ws1 ++ 0x3A :: ws2).length : Int) (val.length : Int) v).1 =
              .ok t →
            (processLine tr st (ws0 ++ key ++ ws1 ++ 0x3A :: ws2 ++ val ++ suf)).1.out =
              st.out ++ (ws0 ++ key ++ ws1 ++ 0x3A :: ws2) ++ jsonMarshal t ++ suf ++ [0x0A]) := by
  obtain ⟨body, hb, rfl⟩ := hval
  obtain ⟨v, hv⟩ := unquoteBytes_isSome hb
  have hline : ws0 ++ key ++ ws1 ++ 0x3A :: ws2 ++ 0x22 :: (body ++ [0x22]) ++ suf
      = (ws0 ++ key ++ ws1 ++ 0x3A :: ws2) ++ 0x22 :: (body ++ 0x22 :: suf) := by simp
  have hlen : ((0x22 :: (body ++ [0x22])).length : Int) = ((body.length + 2 : Nat) : Int) := by
    simp only [List.length_cons, List.length_append, List.length_nil]
  rw [hline, hlen]
  have hx : extract ((ws0 ++ key ++ ws1 ++ 0x3A :: ws2) ++ 0x22 :: (body ++ 0x22 :: suf)) =
      .ok (some ⟨((ws0 ++ key ++ ws1 ++ 0x3A :: ws2).length : Int),
        ((body.length + 2 : Nat) : Int), v⟩) :=
    (extract_some_iff _ _).2 ⟨ws0 ++ key ++ ws1 ++ 0x3A :: ws2, body, suf, rfl, hb,
      Or.inr ⟨ws0, key, ws1, ws2, h0, hkey, h1, h2, rfl⟩, hsuf, rfl, rfl, hv⟩
  refine ⟨v, hv, hx, ?_⟩
  intro σ tr st
  constructor
  · intro t ht
    unfold processLine
    rw [hx]
    dsimp only
    rw [translateClosure_hit tr st _ body suf v t ht]
    rfl
  · intro hmiss
    unfold processLine
    rw [hx]
    dsimp only
    constructor
    · unfold translateClosure
      dsimp only
      rw [hmiss]
      dsimp only
      split
      · rfl
      · rw [writeLine_span]
    · intro t ht
      rw [translateClosure_miss_ok tr st _ body suf v t hmiss ht]
      rfl

theorem C7_object_keys_not_translated_witness :
    (processLine (mapTranslator [(ascii "hello", ascii "world"), (ascii "key", ascii "clef")])
        ⟨fun _ => none, [], (), [], 1⟩ (ascii "\"key\": \"hello\"")).1.out =
      ascii "\"key\": \"world\"\n" := by
  have hk : IsStringLiteral (ascii "\"key\"") :=
    ⟨ascii "key", by
      refine .plain _ _ (by decide) (by decide) (by decide) ?_
      refine .plain _ _ (by decide) (by decide) (by decide) ?_
      exact .plain _ _ (by decide) (by decide) (by decide) .nil, by decide⟩
  have hv : IsStringLiteral (ascii "\"hello\"") :=
    ⟨ascii "hello", by
      refine .plain _ _ (by decide) (by decide) (by decide) ?_
      refine .plain _ _ (by decide) (by decide) (by decide) ?_
      refine .plain _ _ (by decide) (by decide) (by decide) ?_
      refine .plain _ _ (by decide) (by decide) (by decide) ?_
      exact .plain _ _ (by decide) (by decide) (by decide) .nil, by decide⟩
  obtain ⟨v, hu, -, hp⟩ := C7_object_keys_not_translated [] (ascii "\"key\"") [] (ascii " ")
    (ascii "\"hello\"") [] isWs_nil hk isWs_nil (isWs_cons (by decide) isWs_nil) hv
    (Or.inl isWs_nil)
  have hv2 : v = ascii "hello" := by
    have : unquoteBytes (ascii "\"hello\"") = some (ascii "hello") := by decide
    rw [this] at hu
    exact (Option.some.inj hu).symm
  subst hv2
  exact ((hp (mapTranslator [(ascii "hello", ascii "world"), (ascii "key", ascii "clef")])
    ⟨fun _ => none, [], (), [], 1⟩).2 rfl).2 (ascii "world") (by decide)

/-! ## Whole runs -/

/-- The loop over `pre ++ rest`, when the lines of `pre` are delivered and processed
without error, continues on `rest` from the state reached after `pre`. -/
theorem translateLoop_append {σ : Type} (tr : Translator σ) (m : Nat) (pre rest : List Bytes) :
    ∀ (st : Run σ), (∀ x ∈ pre, x.length < m) → (runLines tr pre st).2 = none →
      translateLoop tr m (pre ++ rest) st = translateLoop tr m rest (runLines tr pre st).1 := by
  induction pre with
  | nil => intro st _ _; rfl
  | cons l pre ih =>
    intro st hfit hok
    have hl : l.length < m := hfit l (List.mem_cons_self _ _)
    have hfit2 : ∀ x ∈ pre, x.length < m := fun x hx => hfit x (List.mem_cons_of_mem _ hx)
    rw [List.cons_append, translateLoop, if_pos hl]
    rw [runLines] at hok ⊢
    cases hp : processLine tr { st with number := st.number + 1 } l with
    | mk st2 oe =>
      rw [hp] at hok
      cases oe with
      | some e => cases hok
      | none => exact ih st2 hfit2 hok

/-- One round of the loop on a delivered line. -/
theorem translateLoop_cons {σ : Type} (tr : Translator σ) (m : Nat) (l : Bytes)
    (rest : List Bytes) (st : Run σ) (hl : l.length < m) :
    translateLoop tr m (l :: rest) st =
      match processLine tr { st with number := st.number + 1 } l with
      | (st2, some e) => ⟨st2, rest, some e⟩
      | (st2, none) => translateLoop tr m rest st2 := by
  rw [translateLoop, if_pos hl]

/-- C8. Translator failure is fail-fast: when the lines before line `k` are delivered
and processed without error and the translator fails with `e` on the candidate of line
`k`, the run returns `e`; the output and the cache are those reached after the lines
before (no byte of line `k` is written, nothing is stored for its value), the failing
call is the last call, and no later line is read. -/
theorem C8_translator_failure {σ : Type} (tr : Translator σ) (m : Nat)
    (pre post : List Bytes) (l : Bytes) (st : Run σ) (cand : Candidate) (e : GoError)
    (hfit : ∀ x ∈ pre, x.length < m) (hl : l.length < m)
    (hpre : (runLines tr pre st).2 = none)
    (hc : extract l = .ok (some cand))
    (hmiss : (runLines tr pre st).1.cache cand.value = none)
    (hfail : (tr.Translate (runLines tr pre st).1.tstate ((runLines tr pre st).1.number + 1)
      cand.offset cand.length cand.value).1 = .error e) :
    (translateLoop tr m (pre ++ l :: post) st).err = some e ∧
      (translateLoop tr m (pre ++ l :: post) st).run.out = (runLines tr pre st).1.out ∧
      (translateLoop tr m (pre ++ l :: post) st).run.cache = (runLines tr pre st).1.cache ∧
      (translateLoop tr m (pre ++ l :: post) st).run.cache cand.value = none ∧
      (translateLoop tr m (pre ++ l :: post) st).run.calls =
        (runLines tr pre st).1.calls ++
          [⟨(runLines tr pre st).1.number + 1, cand.offset, cand.length, cand.value,
            .error e⟩] ∧
      (translateLoop tr m (pre ++ l :: post) st).unread = post := by
  rw [translateLoop_append tr m pre (l :: post) st hfit hpre, translateLoop_cons tr m l post _ hl]
  have hp : processLine tr
      { (runLines tr pre st).1 with number := (runLines tr pre st).1.number + 1 } l =
      ({ (runLines tr pre st).1 with
          number := (runLines tr pre st).1.number + 1
          tstate := (tr.Translate (runLines tr pre st).1.tstate
            ((runLines tr pre st).1.number + 1) cand.offset cand.length cand.value).2
          calls := (runLines tr pre st).1.calls ++
            [⟨(runLines tr pre st).1.number + 1, cand.offset, cand.length, cand.value,
              .error e⟩] }, some e) := by
    unfold processLine
    rw [hc]
    dsimp only
    rw [translateClosure_miss_error tr
      { (runLines tr pre st).1 with number := (runLines tr pre st).1.number + 1 } l cand e
      hmiss hfail]
  rw [hp]
  exact ⟨rfl, rfl, rfl, hmiss, rfl, rfl⟩

theorem C8_translator_failure_witness :
    (translateLoop failingTranslator 100
        ([ascii "\x7b"] ++ ascii "  \"a\": \"hello\"," :: [ascii "  \"b\": \"x\"", ascii "\x7d"])
        (Run.fresh ())).err = some (.other "translation failed") ∧
      (translateLoop failingTranslator 100
        ([ascii "\x7b"] ++ ascii "  \"a\": \"hello\"," :: [ascii "  \"b\": \"x\"", ascii "\x7d"])
        (Run.fresh ())).run.out = ascii "\x7b\n" ∧
      (translateLoop failingTranslator 100
        ([ascii "\x7b"] ++ ascii "  \"a\": \"hello\"," :: [ascii "  \"b\": \"x\"", ascii "\x7d"])
        (Run.fresh ())).unread = [ascii "  \"b\": \"x\"", ascii "\x7d"] := by
  have h := C8_translator_failure failingTranslator 100 [ascii "\x7b"]
    [ascii "  \"b\": \"x\"", ascii "\x7d"] (ascii "  \"a\": \"hello\",") (Run.fresh ())
    ⟨7, 7, ascii "hello"⟩ (.other "translation failed") (by decide) (by decide) (by decide)
    (by decide) (by decide) (by decide)
  exact ⟨h.1, h.2.1.trans (by decide), h.2.2.2.2.2⟩

/-- Go `Decode` fails at a quote at which no well-formed literal starts. -/
theorem decodeString_error_of_not_startsLiteral {rest : Bytes} (h : ¬ StartsLiteral rest) :
    ∃ d, decodeString rest = .error d := by
  cases hd : decodeString rest with
  | error d => exact ⟨d, rfl⟩
  | ok p =>
    obtain ⟨v, n⟩ := p
    obtain ⟨body, tail, hb, hr, -, -⟩ := (decodeString_ok_iff rest v n).1 hd
    exact absurd ⟨body, tail, hb, hr⟩ h

/-- The line scan on a malformed line returns the decoder's error, wrapped. -/
theorem extract_malformed {l rest : Bytes} (h : IsMalformedLine l rest) :
    ∃ d, decodeString rest = .error d ∧ extract l = .error (newInputError (.decode d)) := by
  obtain ⟨hbad, hshape⟩ := h
  obtain ⟨d, hd⟩ := decodeString_error_of_not_startsLiteral hbad
  refine ⟨d, hd, ?_⟩
  rcases hshape with ⟨ws, hws, rfl⟩ | ⟨ws0, key, ws1, ws2, h0, ⟨kbody, hkb, rfl⟩, h1, h2, rfl⟩
  · rw [extract_quote ws rest hws]
    have hp := (parse_error_iff (ws ++ 0x22 :: rest) rest
      (((ws ++ 0x22 :: rest).length : Int) - ((0x22 :: rest).length : Int))
      (newInputError (.decode d))).2 ⟨d, hd, rfl⟩
    rw [hp]
  · have hc1 : ws0 ++ 0x22 :: (kbody ++ [0x22]) ++ ws1 ++ 0x3A :: ws2 ++ 0x22 :: rest =
        ws0 ++ 0x22 :: (kbody ++ 0x22 :: (ws1 ++ 0x3A :: (ws2 ++ 0x22 :: rest))) := by simp
    obtain ⟨kv, hkv⟩ := unquoteBytes_isSome hkb
    generalize hcl : ws0 ++ 0x22 :: (kbody ++ [0x22]) ++ ws1 ++ 0x3A :: ws2 ++ 0x22 :: rest
      = cline at hc1 ⊢
    rw [hc1, extract_quote ws0 _ h0, ← hc1]
    have hp := (parse_ok_iff_of_eq hc1 kv
      (trimLeft (ws1 ++ 0x3A :: (ws2 ++ 0x22 :: rest)))
      ((kbody.length + 2 : Nat) : Int)).2 ⟨kbody, _, hkb, rfl, rfl, hkv, rfl⟩
    rw [hp]
    dsimp only
    rw [trimLeft_append_ws _ _ h1, trimLeft_cons_of_not_ws _ _ ws_colon]
    rw [if_neg (by simp [endsValue])]
    dsimp only
    rw [if_pos rfl, trimLeft_append_ws _ _ h2, trimLeft_cons_of_not_ws _ _ ws_quote]
    dsimp only
    rw [if_pos rfl]
    have hp2 := (parse_error_iff cline rest
      ((cline.length : Int) - ((0x22 :: rest).length : Int))
      (newInputError (.decode d))).2 ⟨d, hd, rfl⟩
    rw [hp2]

/-- C9. Input errors: when the lines before are delivered and processed without error
and the next line is malformed (a quote after the leading white space, or after
`key :`, at which no well-formed string literal starts), the run returns the decoder's
error wrapped by `newInputError`, whose message starts with
`translate-json: input error: `; no byte of the line is written, the translator is not
called for it, the cache is unchanged and no later line is read. -/
theorem C9_input_errors {σ : Type} (tr : Translator σ) (m : Nat) (pre post : List Bytes)
    (l rest : Bytes) (st : Run σ)
    (hfit : ∀ x ∈ pre, x.length < m) (hl : l.length < m)
    (hpre : (runLines tr pre st).2 = none) (hbad : IsMalformedLine l rest) :
    ∃ d, decodeString rest = .error d ∧
      (translateLoop tr m (pre ++ l :: post) st).err =
        some (.wrapf "translate-json: input error: %w" (.decode d)) ∧
      (translateLoop tr m (pre ++ l :: post) st).run.out = (runLines tr pre st).1.out ∧
      (translateLoop tr m (pre ++ l :: post) st).run.calls = (runLines tr pre st).1.calls ∧
      (translateLoop tr m (pre ++ l :: post) st).run.cache = (runLines tr pre st).1.cache ∧
      (translateLoop tr m (pre ++ l :: post) st).unread = post := by
  obtain ⟨d, hd, hx⟩ := extract_malformed hbad
  refine ⟨d, hd, ?_⟩
  rw [translateLoop_append tr m pre (l :: post) st hfit hpre, translateLoop_cons tr m l post _ hl]
  unfold processLine
  rw [hx]
  exact ⟨rfl, rfl, rfl, rfl, rfl⟩

theorem not_startsLiteral_of_scanLit_error {rest : Bytes} {d : DecodeError}
    (h : scanLit .inString rest 1 = .error d) : ¬ StartsLiteral rest := by
  rintro ⟨body, tail, hb, rfl⟩
  rw [scanLit_of_strBody hb] at h
  cases h

theorem C9_input_errors_witness :
    (translateLoop identityTranslator 100
        ([ascii "\x7b"] ++ ascii "  \"a\": \"hel" :: [ascii "\x7d"]) (Run.fresh ())).err =
      some (.wrapf "translate-json: input error: %w" (.decode .unexpectedEOF)) ∧
    (translateLoop identityTranslator 100
        ([ascii "\x7b"] ++ ascii "  \"a\": \"hel" :: [ascii "\x7d"]) (Run.fresh ())).run.out =
      ascii "\x7b\n" := by
  have hbad : IsMalformedLine (ascii "  \"a\": \"hel") (ascii "hel") :=
    ⟨@not_startsLiteral_of_scanLit_error _ DecodeError.unexpectedEOF (by decide),
      Or.inr ⟨ascii "  ", ascii "\"a\"", [], ascii " ",
        isWs_cons (by decide) (isWs_cons (by decide) isWs_nil),
        ⟨ascii "a", .plain _ _ (by decide) (by decide) (by decide) .nil, by decide⟩,
        isWs_nil, isWs_cons (by decide) isWs_nil, by decide⟩⟩
  obtain ⟨d, hd, herr, hout, -⟩ := C9_input_errors identityTranslator 100 [ascii "\x7b"]
    [ascii "\x7d"] (ascii "  \"a\": \"hel") (ascii "hel") (Run.fresh ()) (by decide) (by decide)
    (by decide) hbad
  have hd2 : decodeString (ascii "hel") = .error .unexpectedEOF := by decide
  rw [hd2] at hd
  injection hd with hd
  subst hd
  exact ⟨herr, hout.trans (by decide)⟩

/-! ## Configuration -/

/-- A configuration that fails validation ends `Translate` before the loop. -/
theorem Translate_of_validate_error {σ : Type} (fs : Host) (x : Engine)
    (options : List (TranslateOption σ)) (c : translateConfig σ) (e : GoError)
    (hopt : applyOptions fs options (translateConfig.zero σ) = .ok c)
    (hv : c.validate = some e) :
    Engine.Translate fs x options = Outcome.early x c e := by
  unfold Engine.Translate
  rw [hopt]
  dsimp only
  rw [hv]

/-- C10. Missing configuration is rejected before any processing: when the options
apply without error and leave the translator, the input scanner or the output writer
unset, `Translate` returns `ErrTranslatorRequired`, `ErrInputRequired` or
`ErrOutputRequired` (the first that applies, in this order); the translator is not
invoked, no line is taken from the scanner, the writer's content and the cache are as
they were. -/
theorem C10_missing_configuration {σ : Type} (fs : Host) (x : Engine)
    (options : List (TranslateOption σ)) (c : translateConfig σ)
    (hopt : applyOptions fs options (translateConfig.zero σ) = .ok c)
    (hmissing : c.translator = none ∨ c.scanner = none ∨ c.writer = none) :
    (Engine.Translate fs x options).err =
        some (if c.translator.isNone then ErrTranslatorRequired
          else if c.scanner.isNone then ErrInputRequired else ErrOutputRequired) ∧
      (Engine.Translate fs x options).calls = [] ∧
      (Engine.Translate fs x options).unread = c.scanner.map (·.lines) ∧
      (Engine.Translate fs x options).writer = c.writer ∧
      (Engine.Translate fs x options).cache = x.cache := by
  have hv : c.validate = some (if c.translator.isNone then ErrTranslatorRequired
      else if c.scanner.isNone then ErrInputRequired else ErrOutputRequired) := by
    unfold translateConfig.validate
    cases ht : c.translator with
    | none => rfl
    | some t =>
      cases hs : c.scanner with
      | none => rfl
      | some sc =>
        cases hw : c.writer with
        | none => rfl
        | some w =>
          rw [ht, hs, hw] at hmissing
          simp at hmissing
  rw [Translate_of_validate_error fs x options c _ hopt hv]
  exact ⟨rfl, rfl, rfl, rfl, rfl⟩

theorem C10_missing_configuration_witness :
    (Engine.Translate noFiles
        ⟨fun _ => none⟩
        [.WithTranslator (some identityTranslator), .WithMaxLineLength 16,
          .WithOutputWriter (some (ascii "kept"))]).err = some ErrInputRequired ∧
      (Engine.Translate noFiles
        ⟨fun _ => none⟩
        [.WithTranslator (some identityTranslator), .WithMaxLineLength 16,
          .WithOutputWriter (some (ascii "kept"))]).writer = some (ascii "kept") := by
  have h := C10_missing_configuration
    noFiles ⟨fun _ => none⟩
    [.WithTranslator (some identityTranslator), .WithMaxLineLength 16,
      .WithOutputWriter (some (ascii "kept"))]
    ⟨[], some identityTranslator, none, false, some (ascii "kept"), 16, 0⟩ rfl
    (Or.inr (Or.inl rfl))
  exact ⟨h.1, h.2.2.2.1⟩

/-! ## The cache during a run -/

theorem writeLine_fields {σ : Type} (st : Run σ) (cline : Bytes) (offset length : Int)
    (b : Bytes) :
    (writeLine st cline offset length b).1.cache = st.cache ∧
      (writeLine st cline offset length b).1.calls = st.calls ∧
      (writeLine st cline offset length b).1.tstate = st.tstate ∧
      (writeLine st cline offset length b).1.number = st.number := by
  unfold writeLine
  split
  · exact ⟨rfl, rfl, rfl, rfl⟩
  · dsimp only
    split <;> exact ⟨rfl, rfl, rfl, rfl⟩

/-- The three ways through the `translate` closure, as far as the cache and the call
log are concerned. -/
theorem translateClosure_cases {σ : Type} (tr : Translator σ) (st : Run σ) (cline : Bytes)
    (cand : Candidate) :
    (∃ s, st.cache cand.value = some s ∧
        (translateClosure tr st cline cand).1.calls = st.calls ∧
        (translateClosure tr st cline cand).1.cache = st.cache) ∨
      (st.cache cand.value = none ∧ ∃ e,
        (tr.Translate st.tstate st.number cand.offset cand.length cand.value).1 = .error e ∧
        (translateClosure tr st cline cand).2 = some e ∧
        (translateClosure tr st cline cand).1.calls =
          st.calls ++ [⟨st.number, cand.offset, cand.length, cand.value, .error e⟩] ∧
        (translateClosure tr st cline cand).1.cache = st.cache) ∨
      (st.cache cand.value = none ∧ ∃ s,
        (tr.Translate st.tstate st.number cand.offset cand.length cand.value).1 = .ok s ∧
        (translateClosure tr st cline cand).1.calls =
          st.calls ++ [⟨st.number, cand.offset, cand.length, cand.value, .ok s⟩] ∧
        (translateClosure tr st cline cand).1.cache =
          fun k => if k = cand.value then some s else st.cache k) := by
  cases hc : st.cache cand.value with
  | some s =>
    refine Or.inl ⟨s, rfl, ?_, ?_⟩
    · unfold translateClosure; rw [hc]; exact (writeLine_fields _ _ _ _ _).2.1
    · unfold translateClosure; rw [hc]; exact (writeLine_fields _ _ _ _ _).1
  | none =>
    cases hr : (tr.Translate st.tstate st.number cand.offset cand.length cand.value).1 with
    | error e =>
      refine Or.inr (Or.inl ⟨rfl, e, rfl, ?_⟩)
      rw [translateClosure_miss_error tr st cline cand e hc hr]
      exact ⟨rfl, rfl, rfl⟩
    | ok s =>
      refine Or.inr (Or.inr ⟨rfl, s, rfl, ?_, ?_⟩)
      · unfold translateClosure; rw [hc]; dsimp only; rw [hr]
        exact (writeLine_fields _ _ _ _ _).2.1
      · unfold translateClosure; rw [hc]; dsimp only; rw [hr]
        exact (writeLine_fields _ _ _ _ _).1

theorem not_mem_values_of_miss {σ : Type} {st : Run σ} (h : CallsCached st) {v : Bytes}
    (hv : st.cache v = none) : v ∉ st.calls.map (·.value) := by
  intro hm
  obtain ⟨c, hc, rfl⟩ := List.mem_map.1 hm
  obtain ⟨t, -, ht⟩ := h.1 c hc
  rw [hv] at ht
  cases ht

/-- No line makes the translator see a value twice. -/
theorem processLine_nodup {σ : Type} (tr : Translator σ) (st : Run σ) (l : Bytes)
    (h : CallsCached st) : ((processLine tr st l).1.calls.map (·.value)).Nodup := by
  unfold processLine
  cases hx : extract l with
  | error e => exact h.2
  | ok o =>
    cases o with
    | none => exact h.2
    | some cand =>
      dsimp only
      rcases translateClosure_cases tr st l cand with
        ⟨s, -, hcalls, -⟩ | ⟨hmiss, e, -, -, hcalls, -⟩ | ⟨hmiss, s, -, hcalls, -⟩
      · rw [hcalls]; exact h.2
      · rw [hcalls, List.map_append, List.nodup_append]
        refine ⟨h.2, List.nodup_singleton _, ?_⟩
        intro a ha hb
        rw [List.map_singleton, List.mem_singleton] at hb
        subst hb
        exact not_mem_values_of_miss h hmiss ha
      · rw [hcalls, List.map_append, List.nodup_append]
        refine ⟨h.2, List.nodup_singleton _, ?_⟩
        intro a ha hb
        rw [List.map_singleton, List.mem_singleton] at hb
        subst hb
        exact not_mem_values_of_miss h hmiss ha

/-- A line processed without error keeps the call log and the cache in step. -/
theorem processLine_callsCached {σ : Type} (tr : Translator σ) (st : Run σ) (l : Bytes)
    (h : CallsCached st) (hok : (processLine tr st l).2 = none) :
    CallsCached (processLine tr st l).1 := by
  refine ⟨?_, processLine_nodup tr st l h⟩
  unfold processLine at hok ⊢
  cases hx : extract l with
  | error e => exact h.1
  | ok o =>
    cases o with
    | none => exact h.1
    | some cand =>
      rw [hx] at hok
      dsimp only at hok ⊢
      rcases translateClosure_cases tr st l cand with
        ⟨s, -, hcalls, hcache⟩ | ⟨-, e, -, herr, -, -⟩ | ⟨hmiss, s, -, hcalls, hcache⟩
      · rw [hcalls, hcache]; exact h.1
      · rw [herr] at hok; cases hok
      · rw [hcalls, hcache]
        intro c hc
        rcases List.mem_append.1 hc with hc | hc
        · obtain ⟨t, h1, h2⟩ := h.1 c hc
          refine ⟨t, h1, ?_⟩
          have hne : c.value ≠ cand.value := by
            intro he; rw [he, hmiss] at h2; cases h2
          dsimp only
          rw [if_neg hne]
          exact h2
        · rw [List.mem_singleton] at hc
          subst hc
          exact ⟨s, rfl, by dsimp only; rw [if_pos rfl]⟩

theorem callsCached_number {σ : Type} {st : Run σ} (h : CallsCached st) (n : Int) :
    CallsCached { st with number := n } := h

theorem runLines_callsCached {σ : Type} (tr : Translator σ) (lines : List Bytes) :
    ∀ (st : Run σ), CallsCached st → (runLines tr lines st).2 = none →
      CallsCached (runLines tr lines st).1 := by
  induction lines with
  | nil => intro st h _; exact h
  | cons l rest ih =>
    intro st h hok
    rw [runLines] at hok ⊢
    have h1 := processLine_callsCached tr { st with number := st.number + 1 } l
      (callsCached_number h _)
    cases hp : processLine tr { st with number := st.number + 1 } l with
    | mk st2 oe =>
      rw [hp] at hok h1
      cases oe with
      | some e => cases hok
      | none => exact ih st2 (h1 rfl) hok

theorem translateLoop_nodup {σ : Type} (tr : Translator σ) (m : Nat) (lines : List Bytes) :
    ∀ (st : Run σ), CallsCached st →
      ((translateLoop tr m lines st).run.calls.map (·.value)).Nodup := by
  induction lines with
  | nil => intro st h; exact h.2
  | cons l rest ih =>
    intro st h
    rw [translateLoop]
    split
    · have h1 := processLine_callsCached tr { st with number := st.number + 1 } l
        (callsCached_number h _)
      have h2 := processLine_nodup tr { st with number := st.number + 1 } l
        (callsCached_number h _)
      cases hp : processLine tr { st with number := st.number + 1 } l with
      | mk st2 oe =>
        rw [hp] at h1 h2
        cases oe with
        | some e => exact h2
        | none => exact ih st2 (h1 rfl)
    · exact h.2

theorem filter_value_length_le_one (calls : List Call) (v : Bytes)
    (h : (calls.map (·.value)).Nodup) :
    (calls.filter (fun c => c.value = v)).length ≤ 1 := by
  induction calls with
  | nil => simp
  | cons c rest ih =>
    rw [List.map_cons, List.nodup_cons] at h
    by_cases hc : c.value = v
    · have hnone : rest.filter (fun c => c.value = v) = [] := by
        rw [List.filter_eq_nil_iff]
        intro a ha
        have : a.value ≠ v := by
          intro hav
          exact h.1 (List.mem_map.2 ⟨a, ha, hav.trans hc.symm⟩)
        simpa using this
      rw [List.filter_cons_of_pos (by simpa using hc), hnone]
      simp
    · rw [List.filter_cons_of_neg (by simpa using hc)]
      exact ih h.2

theorem callsCached_fresh {σ : Type} (ts : σ) : CallsCached (Run.fresh ts) :=
  ⟨fun c hc => absurd hc (List.not_mem_nil c), List.nodup_nil⟩

/-- C4. Cache determinism: in a run on an engine without cache entries the translator
is invoked at most once with any value `v`, however many candidate lines carry `v` and
however they encode it; and a candidate line whose value was already passed to the
translator earlier in the run is written with the encoding of the result of that call,
whatever it is, without another call. -/
theorem C4_cache_determinism {σ : Type} (tr : Translator σ) (ts : σ) :
    (∀ (sc : Scanner) (v : Bytes),
        ((Engine.translate tr sc (Run.fresh ts)).run.calls.filter
          (fun c => c.value = v)).length ≤ 1) ∧
      ∀ (pre : List Bytes) (l : Bytes) (cand : Candidate) (c : Call),
        (runLines tr pre (Run.fresh ts)).2 = none → extract l = .ok (some cand) →
        c ∈ (runLines tr pre (Run.fresh ts)).1.calls → c.value = cand.value →
        ∃ t, c.result = .ok t ∧
          processLine tr { (runLines tr pre (Run.fresh ts)).1 with
              number := (runLines tr pre (Run.fresh ts)).1.number + 1 } l =
            ({ (runLines tr pre (Run.fresh ts)).1 with
                number := (runLines tr pre (Run.fresh ts)).1.number + 1
                out := (runLines tr pre (Run.fresh ts)).1.out ++ l.take cand.offset.toNat ++
                  jsonMarshal t ++ l.drop (cand.offset + cand.length).toNat ++ [0x0A] },
              none) := by
  constructor
  · intro sc v
    exact filter_value_length_le_one _ v
      (translateLoop_nodup tr sc.maxTokenSize sc.lines _ (callsCached_fresh ts))
  · intro pre l cand c hok hx hc hv
    have hinv := runLines_callsCached tr pre _ (callsCached_fresh ts) hok
    obtain ⟨t, ht, hcache⟩ := hinv.1 c hc
    rw [hv] at hcache
    refine ⟨t, ht, ?_⟩
    obtain ⟨p, body, suf, hl, -, -, -, hoff, hlen, -⟩ := (extract_some_iff l cand).1 hx
    obtain ⟨off, len, value⟩ := cand
    dsimp only at hoff hlen hcache ⊢
    subst hoff hlen hl
    have e1 : ((p.length : Int)).toNat = p.length := Int.toNat_ofNat _
    have e2 : ((p.length : Int) + ((body.length + 2 : Nat) : Int)).toNat
        = p.length + (body.length + 2) := by
      rw [← Int.natCast_add, Int.toNat_ofNat]
    unfold processLine
    rw [hx]
    dsimp only
    rw [e1, e2, take_pre, drop_pre_literal]
    exact translateClosure_hit tr _ p body suf value t hcache

theorem C4_cache_determinism_witness :
    (processLine (mapTranslator [(ascii "A", [])])
        { (runLines (mapTranslator [(ascii "A", [])]) [ascii "\"A\""] (Run.fresh ())).1 with
          number := 2 } (ascii "  \"\\u0041\",")).1.out = ascii "\"\"\n  \"\",\n" ∧
      (processLine (mapTranslator [(ascii "A", [])])
        { (runLines (mapTranslator [(ascii "A", [])]) [ascii "\"A\""] (Run.fresh ())).1 with
          number := 2 } (ascii "  \"\\u0041\",")).1.calls = [⟨1, 0, 3, ascii "A", .ok []⟩] := by
  obtain ⟨t, ht, hp⟩ := (C4_cache_determinism (mapTranslator [(ascii "A", [])]) ()).2
    [ascii "\"A\""] (ascii "  \"\\u0041\",") ⟨2, 8, ascii "A"⟩ ⟨1, 0, 3, ascii "A", .ok []⟩
    (by decide) (by decide) (by decide) rfl
  injection ht with ht
  subst ht
  have hn : (runLines (mapTranslator [(ascii "A", [])]) [ascii "\"A\""] (Run.fresh ())).1.number
      + 1 = 2 := by decide
  rw [hn] at hp
  rw [hp]
  exact ⟨by decide, by decide⟩

/-! ## The identity translator -/

/-- C5 (counterexample). With the identity translator the one-line input
`  "title": "a<b",` is processed without error, but the literal `"a<b"` is written as
`"a\u003cb"`: the output differs from the input line plus line feed, and the encoding of
the decoded value differs from the literal. -/
theorem C5_round_trip_counterexample :
    (Engine.translate identityTranslator ⟨[ascii "  \"title\": \"a<b\","], MaxScanTokenSize⟩
        (Run.fresh ())).err = none ∧
      (Engine.translate identityTranslator ⟨[ascii "  \"title\": \"a<b\","], MaxScanTokenSize⟩
        (Run.fresh ())).run.out = ascii "  \"title\": \"a\\u003cb\",\n" ∧
      (Engine.translate identityTranslator ⟨[ascii "  \"title\": \"a<b\","], MaxScanTokenSize⟩
        (Run.fresh ())).run.out ≠ withTerminators [ascii "  \"title\": \"a<b\","] ∧
      extract (ascii "  \"title\": \"a<b\",") = .ok (some ⟨11, 5, ascii "a<b"⟩) ∧
      jsonMarshal (ascii "a<b") ≠ ((ascii "  \"title\": \"a<b\",").drop 11).take 5 := by
  decide

/-! ## Options -/

/-- When `make([]byte, n)` returns, the slice has `n` bytes, and `n` is within the
limit of the runtime and within what the operating system grants. -/
theorem makeBytes_ok {memory : Nat} {n : Int} {k : Nat} (h : makeBytes memory n = .ok k) :
    k = n.toNat ∧ 0 ≤ n ∧ n ≤ (maxAlloc : Int) ∧ n.toNat ≤ memory := by
  unfold makeBytes at h
  by_cases h1 : n < 0 ∨ (maxAlloc : Int) < n
  · rw [if_pos h1] at h; cases h
  · rw [if_neg h1] at h
    by_cases h2 : memory < n.toNat
    · rw [if_pos h2] at h; cases h
    · rw [if_neg h2] at h
      injection h with h
      exact ⟨h.symm, by omega, by omega, by omega⟩

/-- Within the limit of the runtime and of the memory, `make([]byte, n)` returns. -/
theorem makeBytes_of_le {memory : Nat} {n : Int} (h0 : 0 ≤ n) (h1 : n ≤ (maxAlloc : Int))
    (h2 : n.toNat ≤ memory) : makeBytes memory n = .ok n.toNat := by
  unfold makeBytes
  rw [if_neg (by omega), if_neg (by omega)]

/-- Above the limit of the runtime `make([]byte, n)` panics, whatever the memory. -/
theorem makeBytes_of_gt (memory : Nat) {n : Int} (h : (maxAlloc : Int) < n) :
    makeBytes memory n = .error (.panic "runtime error: makeslice: len out of range") := by
  unfold makeBytes
  rw [if_pos (Or.inr h)]

theorem apply_buffer {σ : Type} (fs : Host) (o : TranslateOption σ)
    (c0 c1 : translateConfig σ) (h : o.apply fs c0 = .ok c1) :
    (c0.buffer ≠ 0 → c1.buffer ≠ 0) ∧
      ∀ max, o = .WithMaxLineLength max → c1.buffer ≠ 0 := by
  cases o with
  | WithTranslator t =>
    simp only [TranslateOption.apply, Except.ok.injEq] at h
    subst h
    exact ⟨fun h => h, fun max hm => by cases hm⟩
  | WithInputScanner sc =>
    simp only [TranslateOption.apply, Except.ok.injEq] at h
    subst h
    exact ⟨fun h => h, fun max hm => by cases hm⟩
  | WithInputFilePath fp =>
    simp only [TranslateOption.apply] at h
    cases ho : fs.Open fp with
    | error e => rw [ho] at h; cases h
    | ok lines =>
      rw [ho] at h
      simp only [Except.ok.injEq] at h
      subst h
      exact ⟨fun h => h, fun max hm => by cases hm⟩
  | WithMaxLineLength m =>
    simp only [TranslateOption.apply] at h
    by_cases hm : m ≤ 0
    · rw [if_pos hm] at h; cases h
    · rw [if_neg hm] at h
      cases hk : makeBytes fs.Memory m with
      | error e => rw [hk] at h; cases h
      | ok k =>
        rw [hk] at h
        simp only [Except.ok.injEq] at h
        subst h
        have : k ≠ 0 := by
          have := (makeBytes_ok hk).1
          omega
        exact ⟨fun _ => this, fun _ _ => this⟩
  | WithOutputFilePath fp =>
    simp only [TranslateOption.apply] at h
    cases ho : fs.OpenFile fp with
    | some e => rw [ho] at h; cases h
    | none =>
      rw [ho] at h
      simp only [Except.ok.injEq] at h
      subst h
      exact ⟨fun h => h, fun max hm => by cases hm⟩
  | WithOutputWriter w =>
    simp only [TranslateOption.apply, Except.ok.injEq] at h
    subst h
    exact ⟨fun h => h, fun max hm => by cases hm⟩

/-- A list of options that applies without error and holds `WithMaxLineLength` leaves a
non-empty buffer, wherever in the list that option stands. -/
theorem applyOptions_buffer {σ : Type} (fs : Host) (options : List (TranslateOption σ)) :
    ∀ (c0 c : translateConfig σ), applyOptions fs options c0 = .ok c →
      (c0.buffer ≠ 0 ∨ ∃ max, .WithMaxLineLength max ∈ options) → c.buffer ≠ 0 := by
  induction options with
  | nil =>
    intro c0 c h hb
    simp only [applyOptions, Except.ok.injEq] at h
    subst h
    rcases hb with hb | ⟨max, hm⟩
    · exact hb
    · cases hm
  | cons o os ih =>
    intro c0 c h hb
    rw [applyOptions] at h
    cases ha : o.apply fs c0 with
    | error e => rw [ha] at h; cases h
    | ok c1 =>
      rw [ha] at h
      obtain ⟨h1, h2⟩ := apply_buffer fs o c0 c1 ha
      refine ih c1 c h ?_
      rcases hb with hb | ⟨max, hm⟩
      · exact Or.inl (h1 hb)
      · rcases List.mem_cons.1 hm with hm | hm
        · exact Or.inl (h2 max hm.symm)
        · exact Or.inr ⟨max, hm⟩

theorem applyOptions_append_error {σ : Type} (fs : Host)
    (pre post : List (TranslateOption σ)) (o : TranslateOption σ) (e : GoError) :
    ∀ (c0 c1 : translateConfig σ), applyOptions fs pre c0 = .ok c1 → o.apply fs c1 = .error e →
      applyOptions fs (pre ++ o :: post) c0 = .error e := by
  induction pre with
  | nil =>
    intro c0 c1 h he
    simp only [applyOptions, Except.ok.injEq] at h
    subst h
    rw [List.nil_append, applyOptions, he]
  | cons p ps ih =>
    intro c0 c1 h he
    rw [applyOptions] at h
    rw [List.cons_append, applyOptions]
    cases ha : p.apply fs c0 with
    | error e2 => rw [ha] at h; cases h
    | ok c2 =>
      rw [ha] at h
      exact ih c2 c1 h he

/-- C11 (as amended). Incompatible options are rejected: when the options apply without
error and leave a translator, a writer and an externally supplied scanner
(`WithInputScanner` is the input option in effect) and the list holds
`WithMaxLineLength max`, at whatever position, `Translate` returns an error wrapping
`ErrInvalidOption`, without a translator call, without taking a line from the scanner and
without writing; `WithMaxLineLength max` with `max <= 0` is itself rejected with an error
wrapping `ErrInvalidOption`, which `Translate` returns when the options before it apply;
`WithMaxLineLength max` with `0 < max` applies when `max` is within the limit of the
runtime and within the memory the machine grants, and leaves a buffer of `max` bytes;
above the limit of the runtime it panics in the option, and `Translate` with it, whatever
the other options are. -/
theorem C11_incompatible_options_amended {σ : Type} (fs : Host) (x : Engine) :
    (∀ (options : List (TranslateOption σ)) (c : translateConfig σ) (max : Int),
        applyOptions fs options (translateConfig.zero σ) = .ok c →
        c.translator.isSome = true → c.writer.isSome = true → c.scanner.isSome = true →
        c.customScanner = true → .WithMaxLineLength max ∈ options →
        (Engine.Translate fs x options).err =
            some (.wrapf "%w: custom scanner incompatible with max line length option"
              ErrInvalidOption) ∧
          (Engine.Translate fs x options).calls = [] ∧
          (Engine.Translate fs x options).unread = c.scanner.map (·.lines) ∧
          (Engine.Translate fs x options).writer = c.writer ∧
          (Engine.Translate fs x options).cache = x.cache) ∧
      (∀ (max : Int), max ≤ 0 →
        (∀ (c : translateConfig σ), (TranslateOption.WithMaxLineLength max).apply fs c =
          .error (.wrapf "%w: max line length must be > 0" ErrInvalidOption)) ∧
        ∀ (pre post : List (TranslateOption σ)) (c : translateConfig σ),
          applyOptions fs pre (translateConfig.zero σ) = .ok c →
          (Engine.Translate fs x (pre ++ .WithMaxLineLength max :: post)).err =
              some (.wrapf "%w: max line length must be > 0" ErrInvalidOption) ∧
            (Engine.Translate fs x (pre ++ .WithMaxLineLength max :: post)).calls = []) ∧
      (∀ (max : Int), 0 < max → max ≤ (maxAlloc : Int) → max.toNat ≤ fs.Memory →
        ∀ (c : translateConfig σ), (TranslateOption.WithMaxLineLength max).apply fs c =
          .ok ⟨c.deferred, c.translator, c.scanner, c.customScanner, c.writer, max.toNat,
            c.number⟩) ∧
      ∀ (max : Int), (maxAlloc : Int) < max →
        (∀ (c : translateConfig σ), (TranslateOption.WithMaxLineLength max).apply fs c =
          .error (.panic "runtime error: makeslice: len out of range")) ∧
        ∀ (pre post : List (TranslateOption σ)) (c : translateConfig σ),
          applyOptions fs pre (translateConfig.zero σ) = .ok c →
          (Engine.Translate fs x (pre ++ .WithMaxLineLength max :: post)).err =
              some (.panic "runtime error: makeslice: len out of range") ∧
            (Engine.Translate fs x (pre ++ .WithMaxLineLength max :: post)).calls = [] := by
  refine ⟨?_, ?_, ?_, ?_⟩
  · intro options c max hopt htr hw hsc hcustom hmem
    have hbuf : c.buffer ≠ 0 := applyOptions_buffer fs options _ c hopt (Or.inr ⟨max, hmem⟩)
    have hv : c.validate = none := by
      unfold translateConfig.validate
      cases ht : c.translator with
      | none => rw [ht] at htr; cases htr
      | some t =>
        cases hs : c.scanner with
        | none => rw [hs] at hsc; cases hsc
        | some sc =>
          cases hwr : c.writer with
          | none => rw [hwr] at hw; cases hw
          | some w => rfl
    have hf : c.finalise = .error
        (.wrapf "%w: custom scanner incompatible with max line length option"
          ErrInvalidOption) := by
      unfold translateConfig.finalise
      rw [if_pos hbuf, hcustom]
      rfl
    unfold Engine.Translate
    rw [hopt]
    dsimp only
    rw [hv]
    dsimp only
    rw [hf]
    exact ⟨rfl, rfl, rfl, rfl, rfl⟩
  · intro max hmax
    have happly : ∀ (c : translateConfig σ), (TranslateOption.WithMaxLineLength max).apply fs c =
        .error (.wrapf "%w: max line length must be > 0" ErrInvalidOption) := by
      intro c
      simp only [TranslateOption.apply]
      rw [if_pos hmax]
    refine ⟨happly, ?_⟩
    intro pre post c hpre
    have := applyOptions_append_error fs pre post (.WithMaxLineLength max) _ _ c hpre (happly c)
    unfold Engine.Translate
    rw [this]
    exact ⟨rfl, rfl⟩
  · intro max h0 h1 h2 c
    simp only [TranslateOption.apply]
    rw [if_neg (by omega), makeBytes_of_le (le_of_lt h0) h1 h2]
  · intro max hmax
    have hpos : (0 : Int) < max := lt_of_le_of_lt (Int.ofNat_nonneg _) hmax
    have happly : ∀ (c : translateConfig σ), (TranslateOption.WithMaxLineLength max).apply fs c =
        .error (.panic "runtime error: makeslice: len out of range") := by
      intro c
      simp only [TranslateOption.apply]
      rw [if_neg (by omega), makeBytes_of_gt fs.Memory hmax]
    refine ⟨happly, ?_⟩
    intro pre post c hpre
    have := applyOptions_append_error fs pre post (.WithMaxLineLength max) _ _ c hpre (happly c)
    unfold Engine.Translate
    rw [this]
    exact ⟨rfl, rfl⟩

/-- C11 (counterexample). With a translator, a writer and an externally supplied scanner,
`WithMaxLineLength(math.MaxInt64)` (a `max > 0`) does not make `Translate` return an error
wrapping `ErrInvalidOption`: `make([]byte, max)` panics in the option. -/
theorem C11_incompatible_options_counterexample :
    (Engine.Translate noFiles ⟨fun _ => none⟩
        [.WithTranslator (some identityTranslator), .WithOutputWriter (some []),
          .WithInputScanner (some ⟨[ascii "\x7b"], MaxScanTokenSize⟩),
          .WithMaxLineLength 9223372036854775807]).err =
      some (.panic "runtime error: makeslice: len out of range") ∧
    GoError.Is (.panic "runtime error: makeslice: len out of range") ErrInvalidOption =
      false := by
  decide

theorem C11_incompatible_options_amended_witness :
    (Engine.Translate noFiles ⟨fun _ => none⟩
        [.WithMaxLineLength 16, .WithOutputWriter (some []),
          .WithInputScanner (some ⟨[ascii "\x7b"], MaxScanTokenSize⟩),
          .WithTranslator (some identityTranslator)]).err =
      some (.wrapf "%w: custom scanner incompatible with max line length option"
        ErrInvalidOption) ∧
    (Engine.Translate noFiles ⟨fun _ => none⟩
        ([.WithOutputWriter (some [])] ++ .WithMaxLineLength 0 ::
          [.WithTranslator (some identityTranslator)])).err =
      some (.wrapf "%w: max line length must be > 0" ErrInvalidOption) ∧
    (TranslateOption.WithMaxLineLength 16).apply noFiles (translateConfig.zero Unit) =
      .ok ⟨[], none, none, false, none, 16, 0⟩ ∧
    (Engine.Translate noFiles ⟨fun _ => none⟩
        ([.WithOutputWriter (some [])] ++ .WithMaxLineLength 281474976710657 ::
          [.WithTranslator (some identityTranslator)])).err =
      some (.panic "runtime error: makeslice: len out of range") :=
  ⟨((C11_incompatible_options_amended noFiles ⟨fun _ => none⟩).1
      [.WithMaxLineLength 16, .WithOutputWriter (some []),
        .WithInputScanner (some ⟨[ascii "\x7b"], MaxScanTokenSize⟩),
        .WithTranslator (some identityTranslator)]
      ⟨[], some identityTranslator, some ⟨[ascii "\x7b"], MaxScanTokenSize⟩, true, some [], 16, 0⟩
      16 rfl rfl rfl rfl rfl (List.mem_cons_self _ _)).1,
    (((C11_incompatible_options_amended noFiles ⟨fun _ => none⟩).2.1 0 (le_refl _)).2
      [.WithOutputWriter (some [])] [.WithTranslator (some identityTranslator)]
      ⟨[], none, none, false, some [], 0, 0⟩ rfl).1,
    (C11_incompatible_options_amended noFiles ⟨fun _ => none⟩).2.2.1 16 (by decide) (by decide)
      (by decide) (translateConfig.zero Unit),
    (((C11_incompatible_options_amended noFiles ⟨fun _ => none⟩).2.2.2 281474976710657
      (by decide)).2
      [.WithOutputWriter (some [])] [.WithTranslator (some identityTranslator)]
      ⟨[], none, none, false, some [], 0, 0⟩ rfl).1⟩

theorem validate_eq_none_iff {σ : Type} (c : translateConfig σ) :
    c.validate = none ↔
      c.translator.isSome = true ∧ c.scanner.isSome = true ∧ c.writer.isSome = true := by
  unfold translateConfig.validate
  cases c.translator <;> cases c.scanner <;> cases c.writer <;> simp

/-- C20. Validation precedes finalisation: when the options apply and leave the
translator, the scanner or the writer unset, `Translate` returns the matching sentinel
(translator, input, output, in this order), whether or not `WithMaxLineLength` was given:
it does not panic and does not return the incompatibility error. On a configuration that
passes validation `finalise` never dereferences a nil scanner, and the validation that
follows a successful `finalise` never fails. -/
theorem C20_validation_precedes_finalisation {σ : Type} (fs : Host) (x : Engine) :
    (∀ (options : List (TranslateOption σ)) (c : translateConfig σ),
        applyOptions fs options (translateConfig.zero σ) = .ok c →
        (c.translator.isNone = true ∨ c.scanner.isNone = true ∨ c.writer.isNone = true) →
        (Engine.Translate fs x options).err =
            some (if c.translator.isNone then ErrTranslatorRequired
              else if c.scanner.isNone then ErrInputRequired else ErrOutputRequired) ∧
          (∀ msg, (Engine.Translate fs x options).err ≠ some (.panic msg)) ∧
          (∀ format, (Engine.Translate fs x options).err ≠
            some (.wrapf format ErrInvalidOption))) ∧
      (∀ (c : translateConfig σ), c.validate = none →
        ∀ msg, c.finalise ≠ .error (.panic msg)) ∧
      ∀ (c c1 : translateConfig σ), c.validate = none → c.finalise = .ok c1 →
        c1.validate = none := by
  refine ⟨?_, ?_, ?_⟩
  · intro options c hopt hmissing
    have hv : c.validate = some (if c.translator.isNone then ErrTranslatorRequired
        else if c.scanner.isNone then ErrInputRequired else ErrOutputRequired) := by
      unfold translateConfig.validate
      cases ht : c.translator with
      | none => rfl
      | some t =>
        cases hs : c.scanner with
        | none => rfl
        | some sc =>
          cases hw : c.writer with
          | none => rfl
          | some w =>
            rw [ht, hs, hw] at hmissing
            simp at hmissing
    have herr : (Engine.Translate fs x options).err =
        some (if c.translator.isNone then ErrTranslatorRequired
          else if c.scanner.isNone then ErrInputRequired else ErrOutputRequired) := by
      unfold Engine.Translate
      rw [hopt]
      dsimp only
      rw [hv]
      rfl
    refine ⟨herr, ?_, ?_⟩
    · intro msg h
      rw [herr] at h
      split at h
      · cases h
      · split at h <;> cases h
    · intro format h
      rw [herr] at h
      split at h
      · cases h
      · split at h <;> cases h
  · intro c hv msg hf
    obtain ⟨-, hs, -⟩ := (validate_eq_none_iff c).1 hv
    unfold translateConfig.finalise at hf
    split at hf
    · split at hf
      · cases hf
      · cases hsc : c.scanner with
        | none => rw [hsc] at hs; cases hs
        | some sc => rw [hsc] at hf; cases hf
    · cases hf
  · intro c c1 hv hf
    obtain ⟨ht, hs, hw⟩ := (validate_eq_none_iff c).1 hv
    rw [validate_eq_none_iff]
    unfold translateConfig.finalise at hf
    split at hf
    · split at hf
      · cases hf
      · cases hsc : c.scanner with
        | none => rw [hsc] at hs; cases hs
        | some sc =>
          rw [hsc] at hf
          simp only [Except.ok.injEq] at hf
          subst hf
          exact ⟨ht, rfl, hw⟩
    · simp only [Except.ok.injEq] at hf
      subst hf
      exact ⟨ht, hs, hw⟩

theorem C20_validation_precedes_finalisation_witness :
    (Engine.Translate noFiles ⟨fun _ => none⟩
        [(.WithMaxLineLength 8 : TranslateOption Unit),
          .WithOutputWriter (some [])]).err = some ErrTranslatorRequired ∧
      (Engine.Translate noFiles
        ⟨fun _ => none⟩
        [.WithMaxLineLength 8, .WithTranslator (some identityTranslator)]).err =
        some ErrInputRequired :=
  ⟨((C20_validation_precedes_finalisation
      noFiles ⟨fun _ => none⟩).1
      [(.WithMaxLineLength 8 : TranslateOption Unit), .WithOutputWriter (some [])]
      ⟨[], none, none, false, some [], 8, 0⟩ rfl (Or.inl rfl)).1,
    ((C20_validation_precedes_finalisation
      noFiles ⟨fun _ => none⟩).1
      [.WithMaxLineLength 8, .WithTranslator (some identityTranslator)]
      ⟨[], some identityTranslator, none, false, none, 8, 0⟩ rfl (Or.inr (Or.inl rfl))).1⟩

/-! ## What one line does to the cache and the call log -/

theorem translateClosure_number {σ : Type} (tr : Translator σ) (st : Run σ) (cline : Bytes)
    (cand : Candidate) : (translateClosure tr st cline cand).1.number = st.number := by
  unfold translateClosure
  split
  · exact (writeLine_fields _ _ _ _ _).2.2.2
  · dsimp only
    split
    · rfl
    · exact (writeLine_fields _ _ _ _ _).2.2.2

/-- The effect of one round of the loop on the line number, the call log and the cache:
either both are unchanged, or the line has a candidate that missed the cache, one call
was made with the candidate's span and text, and the result was stored if the call
succeeded. -/
theorem processLine_effect {σ : Type} (tr : Translator σ) (st : Run σ) (l : Bytes) :
    (processLine tr st l).1.number = st.number ∧
      (((processLine tr st l).1.calls = st.calls ∧ (processLine tr st l).1.cache = st.cache) ∨
        ∃ cand, extract l = .ok (some cand) ∧ st.cache cand.value = none ∧
          (processLine tr st l).1.calls = st.calls ++
            [⟨st.number, cand.offset, cand.length, cand.value,
              (tr.Translate st.tstate st.number cand.offset cand.length cand.value).1⟩] ∧
          ((∃ e, (tr.Translate st.tstate st.number cand.offset cand.length cand.value).1 =
                .error e ∧
              (processLine tr st l).2 = some e ∧ (processLine tr st l).1.cache = st.cache) ∨
            ∃ s, (tr.Translate st.tstate st.number cand.offset cand.length cand.value).1 =
                .ok s ∧
              (processLine tr st l).1.cache =
                fun k => if k = cand.value then some s else st.cache k)) := by
  unfold processLine
  cases hx : extract l with
  | error e => exact ⟨rfl, Or.inl ⟨rfl, rfl⟩⟩
  | ok o =>
    cases o with
    | none => exact ⟨rfl, Or.inl ⟨rfl, rfl⟩⟩
    | some cand =>
      dsimp only
      refine ⟨translateClosure_number tr st l cand, ?_⟩
      rcases translateClosure_cases tr st l cand with
        ⟨s, -, hcalls, hcache⟩ | ⟨hmiss, e, hr, herr, hcalls, hcache⟩ |
        ⟨hmiss, s, hr, hcalls, hcache⟩
      · exact Or.inl ⟨hcalls, hcache⟩
      · refine Or.inr ⟨cand, rfl, hmiss, ?_, Or.inl ⟨e, hr, herr, hcache⟩⟩
        rw [hcalls, hr]
      · refine Or.inr ⟨cand, rfl, hmiss, ?_, Or.inr ⟨s, hr, hcache⟩⟩
        rw [hcalls, hr]

theorem processLine_cache_mono {σ : Type} (tr : Translator σ) (st : Run σ) (l : Bytes)
    (k t : Bytes) (h : st.cache k = some t) : (processLine tr st l).1.cache k = some t := by
  rcases (processLine_effect tr st l).2 with ⟨-, hc⟩ | ⟨cand, -, hmiss, -, hr⟩
  · rw [hc]; exact h
  · rcases hr with ⟨e, -, -, hc⟩ | ⟨s, -, hc⟩
    · rw [hc]; exact h
    · rw [hc]
      have hne : k ≠ cand.value := by
        intro he; rw [he, hmiss] at h; cases h
      dsimp only
      rw [if_neg hne]
      exact h

/-- A property of the state that every round of the loop keeps, and that does not
depend on the line number, holds at the end of the loop. -/
theorem translateLoop_invariant {σ : Type} (tr : Translator σ) (m : Nat) (P : Run σ → Prop)
    (hnum : ∀ st n, P st → P { st with number := n })
    (hstep : ∀ st l, P st → P (processLine tr st l).1) (lines : List Bytes) :
    ∀ (st : Run σ), P st → P (translateLoop tr m lines st).run := by
  induction lines with
  | nil => intro st h; exact hnum st _ h
  | cons l rest ih =>
    intro st h
    rw [translateLoop]
    split
    · have h1 := hstep { st with number := st.number + 1 } l (hnum st _ h)
      cases hp : processLine tr { st with number := st.number + 1 } l with
      | mk st2 oe =>
        rw [hp] at h1
        cases oe with
        | some e => exact h1
        | none => exact ih st2 h1
    · exact hnum st _ h

theorem translateLoop_cache_mono {σ : Type} (tr : Translator σ) (m : Nat) (lines : List Bytes)
    (st : Run σ) (k t : Bytes) (h : st.cache k = some t) :
    (translateLoop tr m lines st).run.cache k = some t :=
  translateLoop_invariant tr m (fun s => s.cache k = some t) (fun _ _ h => h)
    (fun s l hs => processLine_cache_mono tr s l k t hs) lines st h

/-- C19. Cache monotonicity: processing one line keeps every entry of the cache with its
value; the cache is either unchanged or gains the one entry `value -> result`, and this
only when the line has a candidate whose value was not in the cache and the translator
call for it succeeded; hence an entry, once made, stays as it is to the end of the run. -/
theorem C19_cache_monotonicity {σ : Type} (tr : Translator σ) (st : Run σ) :
    (∀ (l : Bytes),
        (∀ k t, st.cache k = some t → (processLine tr st l).1.cache k = some t) ∧
        ((processLine tr st l).1.cache = st.cache ∨
          ∃ cand s, extract l = .ok (some cand) ∧ st.cache cand.value = none ∧
            (tr.Translate st.tstate st.number cand.offset cand.length cand.value).1 = .ok s ∧
            (processLine tr st l).1.cache =
              fun k => if k = cand.value then some s else st.cache k)) ∧
      ∀ (m : Nat) (lines : List Bytes) (k t : Bytes), st.cache k = some t →
        (translateLoop tr m lines st).run.cache k = some t := by
  refine ⟨fun l => ⟨fun k t h => processLine_cache_mono tr st l k t h, ?_⟩,
    fun m lines k t h => translateLoop_cache_mono tr m lines st k t h⟩
  rcases (processLine_effect tr st l).2 with ⟨-, hc⟩ | ⟨cand, hx, hmiss, -, hr⟩
  · exact Or.inl hc
  · rcases hr with ⟨e, -, -, hc⟩ | ⟨s, hs, hc⟩
    · exact Or.inl hc
    · exact Or.inr ⟨cand, s, hx, hmiss, hs, hc⟩

theorem C19_cache_monotonicity_witness :
    (translateLoop (mapTranslator [(ascii "hello", ascii "world")]) 100
        [ascii "\"hello\",", ascii "\"hello\""]
        ⟨fun k => if k = ascii "hello" then some (ascii "monde") else none, [], (), [], 0⟩
      ).run.cache (ascii "hello") = some (ascii "monde") :=
  (C19_cache_monotonicity (mapTranslator [(ascii "hello", ascii "world")])
      ⟨fun k => if k = ascii "hello" then some (ascii "monde") else none, [], (), [], 0⟩).2
    100 [ascii "\"hello\",", ascii "\"hello\""] (ascii "hello") (ascii "monde") rfl

/-! ## `Engine.Translate` and the loop -/

theorem apply_number {σ : Type} (fs : Host) (o : TranslateOption σ)
    (c0 c1 : translateConfig σ) (h : o.apply fs c0 = .ok c1) : c1.number = c0.number := by
  cases o with
  | WithTranslator t =>
    simp only [TranslateOption.apply, Except.ok.injEq] at h; subst h; rfl
  | WithInputScanner sc =>
    simp only [TranslateOption.apply, Except.ok.injEq] at h; subst h; rfl
  | WithInputFilePath fp =>
    simp only [TranslateOption.apply] at h
    cases ho : fs.Open fp with
    | error e => rw [ho] at h; cases h
    | ok lines => rw [ho] at h; simp only [Except.ok.injEq] at h; subst h; rfl
  | WithMaxLineLength m =>
    simp only [TranslateOption.apply] at h
    by_cases hm : m ≤ 0
    · rw [if_pos hm] at h; cases h
    · rw [if_neg hm] at h
      cases hk : makeBytes fs.Memory m with
      | error e => rw [hk] at h; cases h
      | ok k => rw [hk] at h; simp only [Except.ok.injEq] at h; subst h; rfl
  | WithOutputFilePath fp =>
    simp only [TranslateOption.apply] at h
    cases ho : fs.OpenFile fp with
    | some e => rw [ho] at h; cases h
    | none => rw [ho] at h; simp only [Except.ok.injEq] at h; subst h; rfl
  | WithOutputWriter w =>
    simp only [TranslateOption.apply, Except.ok.injEq] at h; subst h; rfl

theorem applyOptions_number {σ : Type} (fs : Host) (options : List (TranslateOption σ)) :
    ∀ (c0 c : translateConfig σ), applyOptions fs options c0 = .ok c →
      c.number = c0.number := by
  induction options with
  | nil =>
    intro c0 c h
    simp only [applyOptions, Except.ok.injEq] at h
    subst h; rfl
  | cons o os ih =>
    intro c0 c h
    rw [applyOptions] at h
    cases ha : o.apply fs c0 with
    | error e => rw [ha] at h; cases h
    | ok c1 =>
      rw [ha] at h
      rw [ih c1 c h, apply_number fs o c0 c1 ha]

theorem finalise_number {σ : Type} (c c1 : translateConfig σ) (h : c.finalise = .ok c1) :
    c1.number = c.number := by
  unfold translateConfig.finalise at h
  split at h
  · split at h
    · cases h
    · split at h
      · cases h
      · simp only [Except.ok.injEq] at h; subst h; rfl
  · simp only [Except.ok.injEq] at h; subst h; rfl

/-- A call of `Translate` either ends before the loop, with no translator call and the
cache as it was, or runs the loop from line number zero on the engine's cache with an
empty call log. -/
theorem Translate_outcome {σ : Type} (fs : Host) (x : Engine)
    (options : List (TranslateOption σ)) :
    ((Engine.Translate fs x options).calls = [] ∧
        (Engine.Translate fs x options).cache = x.cache) ∨
      ∃ (tr : Translator σ) (sc : Scanner) (w : Bytes),
        (Engine.Translate fs x options).calls =
            (Engine.translate tr sc ⟨x.cache, w, tr.init, [], 0⟩).run.calls ∧
          (Engine.Translate fs x options).cache =
            (Engine.translate tr sc ⟨x.cache, w, tr.init, [], 0⟩).run.cache ∧
          (Engine.Translate fs x options).err =
            (Engine.translate tr sc ⟨x.cache, w, tr.init, [], 0⟩).err ∧
          (Engine.Translate fs x options).writer =
            some (Engine.translate tr sc ⟨x.cache, w, tr.init, [], 0⟩).run.out ∧
          (Engine.Translate fs x options).unread =
            some (Engine.translate tr sc ⟨x.cache, w, tr.init, [], 0⟩).unread := by
  unfold Engine.Translate
  cases hopt : applyOptions fs options (translateConfig.zero σ) with
  | error e => exact Or.inl ⟨rfl, rfl⟩
  | ok c =>
    dsimp only
    cases hv : c.validate with
    | some e => exact Or.inl ⟨rfl, rfl⟩
    | none =>
      dsimp only
      cases hf : c.finalise with
      | error e => exact Or.inl ⟨rfl, rfl⟩
      | ok c1 =>
        dsimp only
        cases hv1 : c1.validate with
        | some e => exact Or.inl ⟨rfl, rfl⟩
        | none =>
          dsimp only
          have hn : c1.number = 0 := by
            rw [finalise_number c c1 hf, applyOptions_number fs options _ c hopt]
            rfl
          cases ht : c1.translator with
          | none => exact Or.inl ⟨rfl, rfl⟩
          | some tr =>
            cases hs : c1.scanner with
            | none => exact Or.inl ⟨rfl, rfl⟩
            | some sc =>
              cases hw : c1.writer with
              | none => exact Or.inl ⟨rfl, rfl⟩
              | some w =>
                dsimp only
                rw [hn]
                exact Or.inr ⟨tr, sc, w, rfl, rfl, rfl, rfl, rfl⟩

/-! ## The cache across calls of `Translate` -/

/-- A value that has an entry when the loop starts is not passed to the translator. -/
theorem translateLoop_calls_missed {σ : Type} (tr : Translator σ) (m : Nat)
    (lines : List Bytes) (st : Run σ) :
    ∀ c ∈ (translateLoop tr m lines st).run.calls, c ∈ st.calls ∨ st.cache c.value = none := by
  have h := translateLoop_invariant tr m
    (fun s => (∀ k t, st.cache k = some t → s.cache k = some t) ∧
      ∀ c ∈ s.calls, c ∈ st.calls ∨ st.cache c.value = none)
    (fun _ _ h => h)
    (fun s l hs => by
      refine ⟨fun k t hk => processLine_cache_mono tr s l k t (hs.1 k t hk), ?_⟩
      rcases (processLine_effect tr s l).2 with ⟨hc, -⟩ | ⟨cand, -, hmiss, hc, -⟩
      · rw [hc]; exact hs.2
      · rw [hc]
        intro c hcm
        rcases List.mem_append.1 hcm with hcm | hcm
        · exact hs.2 c hcm
        · rw [List.mem_singleton] at hcm
          subst hcm
          right
          dsimp only
          cases hst : st.cache cand.value with
          | none => rfl
          | some t => rw [hs.1 _ t hst] at hmiss; cases hmiss)
    lines st ⟨fun _ _ h => h, fun c hc => Or.inl hc⟩
  exact h.2

/-- The result of every successful call is in the cache, under the call's value. -/
theorem translateLoop_calls_stored {σ : Type} (tr : Translator σ) (m : Nat)
    (lines : List Bytes) (st : Run σ)
    (h0 : ∀ c ∈ st.calls, ∀ t, c.result = .ok t → st.cache c.value = some t) :
    ∀ c ∈ (translateLoop tr m lines st).run.calls, ∀ t, c.result = .ok t →
      (translateLoop tr m lines st).run.cache c.value = some t :=
  translateLoop_invariant tr m
    (fun s => ∀ c ∈ s.calls, ∀ t, c.result = .ok t → s.cache c.value = some t)
    (fun _ _ h => h)
    (fun s l hs => by
      rcases (processLine_effect tr s l).2 with ⟨hc, hca⟩ | ⟨cand, -, hmiss, hc, hr⟩
      · rw [hc, hca]; exact hs
      · rw [hc]
        intro c hcm t ht
        rcases List.mem_append.1 hcm with hcm | hcm
        · exact processLine_cache_mono tr s l _ t (hs c hcm t ht)
        · rw [List.mem_singleton] at hcm
          subst hcm
          dsimp only at ht ⊢
          rcases hr with ⟨e, he, -, -⟩ | ⟨s2, hs2, hca⟩
          · rw [he] at ht; cases ht
          · rw [hs2] at ht
            injection ht with ht
            subst ht
            rw [hca]
            dsimp only
            rw [if_pos rfl])
    lines st h0

/-- C12 (as amended). The cache belongs to the engine and outlives a call of
`Translate`: every entry present when a call starts is still there, unchanged, when it
returns; a value that has an entry when the call starts is not passed to the translator
during the call; the result of every successful translator call is in the cache when the
call returns. Hence a value translated during one call is not passed to the translator
in a later call on the same engine. -/
theorem C12_cache_lifetime_amended {σ τ : Type} (fs1 fs2 : Host) (x : Engine)
    (options1 : List (TranslateOption σ)) (options2 : List (TranslateOption τ)) :
    (∀ k t, x.cache k = some t → (Engine.Translate fs1 x options1).cache k = some t) ∧
      (∀ c ∈ (Engine.Translate fs1 x options1).calls, x.cache c.value = none) ∧
      (∀ c ∈ (Engine.Translate fs1 x options1).calls, ∀ t, c.result = .ok t →
        (Engine.Translate fs1 x options1).cache c.value = some t) ∧
      ∀ c1 ∈ (Engine.Translate fs1 x options1).calls, ∀ t, c1.result = .ok t →
        ∀ c2 ∈ (Engine.Translate fs2 ⟨(Engine.Translate fs1 x options1).cache⟩ options2).calls,
          c2.value ≠ c1.value := by
  have hmono : ∀ {ρ : Type} (fs : Host) (y : Engine) (opts : List (TranslateOption ρ)),
      ∀ k t, y.cache k = some t → (Engine.Translate fs y opts).cache k = some t := by
    intro ρ fs y opts k t hk
    rcases Translate_outcome fs y opts with ⟨-, hc⟩ | ⟨tr, sc, w, -, hc, -⟩
    · rw [hc]; exact hk
    · rw [hc]
      exact translateLoop_cache_mono tr sc.maxTokenSize sc.lines _ k t hk
  have hmiss : ∀ {ρ : Type} (fs : Host) (y : Engine) (opts : List (TranslateOption ρ)),
      ∀ c ∈ (Engine.Translate fs y opts).calls, y.cache c.value = none := by
    intro ρ fs y opts c hc
    rcases Translate_outcome fs y opts with ⟨hcalls, -⟩ | ⟨tr, sc, w, hcalls, -⟩
    · rw [hcalls] at hc; cases hc
    · rw [hcalls] at hc
      rcases translateLoop_calls_missed tr sc.maxTokenSize sc.lines _ c hc with h | h
      · cases h
      · exact h
  have hstored : ∀ c ∈ (Engine.Translate fs1 x options1).calls, ∀ t, c.result = .ok t →
      (Engine.Translate fs1 x options1).cache c.value = some t := by
    intro c hc t ht
    rcases Translate_outcome fs1 x options1 with ⟨hcalls, -⟩ | ⟨tr, sc, w, hcalls, hcache, -⟩
    · rw [hcalls] at hc; cases hc
    · rw [hcalls] at hc
      rw [hcache]
      exact translateLoop_calls_stored tr sc.maxTokenSize sc.lines _
        (fun c hc => absurd hc (List.not_mem_nil c)) c hc t ht
  refine ⟨hmono fs1 x options1, hmiss fs1 x options1, hstored, ?_⟩
  intro c1 hc1 t ht c2 hc2 heq
  have h1 := hstored c1 hc1 t ht
  have h2 := hmiss fs2 ⟨(Engine.Translate fs1 x options1).cache⟩ options2 c2 hc2
  dsimp only at h2
  rw [heq, h1] at h2
  cases h2

/-- C12 (counterexample). Two calls of `Translate` on one engine, each over the one
line `"hello"`: the first call passes `hello` to the translator and leaves the entry
`hello -> world` in the engine's cache; the second call starts with that entry and
writes `"world"` without passing `hello` to the translator again. -/
theorem C12_cache_lifetime_counterexample :
    (Engine.Translate noFiles ⟨fun _ => none⟩
        [.WithTranslator (some (mapTranslator [(ascii "hello", ascii "world")])),
          .WithInputScanner (some ⟨[ascii "\"hello\""], MaxScanTokenSize⟩),
          .WithOutputWriter (some [])]).calls =
        [⟨1, 0, 7, ascii "hello", .ok (ascii "world")⟩] ∧
      (Engine.Translate noFiles
        ⟨fun _ => none⟩
        [.WithTranslator (some (mapTranslator [(ascii "hello", ascii "world")])),
          .WithInputScanner (some ⟨[ascii "\"hello\""], MaxScanTokenSize⟩),
          .WithOutputWriter (some [])]).cache (ascii "hello") = some (ascii "world") ∧
      (Engine.Translate noFiles
        ⟨(Engine.Translate noFiles
          ⟨fun _ => none⟩
          [.WithTranslator (some (mapTranslator [(ascii "hello", ascii "world")])),
            .WithInputScanner (some ⟨[ascii "\"hello\""], MaxScanTokenSize⟩),
            .WithOutputWriter (some [])]).cache⟩
        [.WithTranslator (some (mapTranslator [(ascii "hello", ascii "world")])),
          .WithInputScanner (some ⟨[ascii "\"hello\""], MaxScanTokenSize⟩),
          .WithOutputWriter (some [])]).calls = [] ∧
      (Engine.Translate noFiles
        ⟨(Engine.Translate noFiles
          ⟨fun _ => none⟩
          [.WithTranslator (some (mapTranslator [(ascii "hello", ascii "world")])),
            .WithInputScanner (some ⟨[ascii "\"hello\""], MaxScanTokenSize⟩),
            .WithOutputWriter (some [])]).cache⟩
        [.WithTranslator (some (mapTranslator [(ascii "hello", ascii "world")])),
          .WithInputScanner (some ⟨[ascii "\"hello\""], MaxScanTokenSize⟩),
          .WithOutputWriter (some [])]).writer = some (ascii "\"world\"\n") := by
  decide

theorem C12_cache_lifetime_amended_witness :
    (Engine.Translate noFiles
        ⟨fun k => if k = ascii "hello" then some (ascii "monde") else none⟩
        [.WithTranslator (some (mapTranslator [(ascii "hello", ascii "world")])),
          .WithInputScanner (some ⟨[ascii "\"hello\""], MaxScanTokenSize⟩),
          .WithOutputWriter (some [])]).cache (ascii "hello") = some (ascii "monde") :=
  (@C12_cache_lifetime_amended Unit Unit
      noFiles
      noFiles
      ⟨fun k => if k = ascii "hello" then some (ascii "monde") else none⟩
      [.WithTranslator (some (mapTranslator [(ascii "hello", ascii "world")])),
        .WithInputScanner (some ⟨[ascii "\"hello\""], MaxScanTokenSize⟩),
        .WithOutputWriter (some [])] []).1 (ascii "hello") (ascii "monde") rfl

/-! ## The arguments of the translator calls -/

/-- Every call the loop adds to the log was made for one of its lines: the line argument
is the line's index counted from the loop's starting number, the span and text are the
line's candidate, and the logged result is what the translator returned for them. -/
theorem translateLoop_calls_args {σ : Type} (tr : Translator σ) (m : Nat)
    (lines : List Bytes) :
    ∀ (st : Run σ), ∀ c ∈ (translateLoop tr m lines st).run.calls,
      c ∈ st.calls ∨ ∃ (k : Nat) (l : Bytes) (ts : σ), lines[k]? = some l ∧
        c.line = st.number + (k : Int) + 1 ∧
        extract l = .ok (some ⟨c.offset, c.length, c.value⟩) ∧
        c.result = (tr.Translate ts c.line c.offset c.length c.value).1 := by
  induction lines with
  | nil => intro st c hc; exact Or.inl hc
  | cons l rest ih =>
    intro st c hc
    rw [translateLoop] at hc
    split at hc
    · have heff := processLine_effect tr { st with number := st.number + 1 } l
      have hstep : ∀ c ∈ (processLine tr { st with number := st.number + 1 } l).1.calls,
          c ∈ st.calls ∨ ∃ (k : Nat) (l2 : Bytes) (ts : σ), (l :: rest)[k]? = some l2 ∧
            c.line = st.number + (k : Int) + 1 ∧
            extract l2 = .ok (some ⟨c.offset, c.length, c.value⟩) ∧
            c.result = (tr.Translate ts c.line c.offset c.length c.value).1 := by
        intro c hc
        rcases heff.2 with ⟨hcalls, -⟩ | ⟨cand, hx, -, hcalls, -⟩
        · rw [hcalls] at hc; exact Or.inl hc
        · rw [hcalls] at hc
          rcases List.mem_append.1 hc with hc | hc
          · exact Or.inl hc
          · rw [List.mem_singleton] at hc
            subst hc
            exact Or.inr ⟨0, l, st.tstate, by simp, by simp, hx, rfl⟩
      cases hp : processLine tr { st with number := st.number + 1 } l with
      | mk st2 oe =>
        rw [hp] at hc hstep heff
        cases oe with
        | some e => exact hstep c hc
        | none =>
          dsimp only at hc
          rcases ih st2 c hc with h | ⟨k, l2, ts, hk, hline, hx, hres⟩
          · exact hstep c h
          · refine Or.inr ⟨k + 1, l2, ts, by simpa using hk, ?_, hx, hres⟩
            rw [hline, heff.1]
            push_cast
            omega
    · exact Or.inl hc

/-- C13. Translator call arguments: in a run started at line number zero with an empty
call log, every translator call is made for one of the input lines; its line argument is
that line's 1-based index, counting all lines before it, and its offset, length and
value are the line's candidate, so `line >= 1`, `offset >= 0` and `length >= 0`. The same
bounds hold for every call made by `Translate`, and the translator of the test never
reaches one of its panics. -/
theorem C13_translator_call_arguments :
    (∀ {σ : Type} (tr : Translator σ) (sc : Scanner) (st : Run σ),
        st.number = 0 → st.calls = [] →
        ∀ c ∈ (Engine.translate tr sc st).run.calls,
          ∃ (k : Nat) (l : Bytes), sc.lines[k]? = some l ∧ c.line = (k : Int) + 1 ∧
            extract l = .ok (some ⟨c.offset, c.length, c.value⟩) ∧
            1 ≤ c.line ∧ 0 ≤ c.offset ∧ 0 ≤ c.length) ∧
      (∀ {σ : Type} (fs : Host) (x : Engine) (options : List (TranslateOption σ)),
        ∀ c ∈ (Engine.Translate fs x options).calls,
          1 ≤ c.line ∧ 0 ≤ c.offset ∧ 0 ≤ c.length) ∧
      ∀ (mp : List (Bytes × Bytes)) (sc : Scanner) (st : Run Unit),
        st.number = 0 → st.calls = [] →
        ∀ c ∈ (Engine.translate (mapTranslator mp) sc st).run.calls,
          ∀ msg, c.result ≠ .error (.panic msg) := by
  have hloop : ∀ {σ : Type} (tr : Translator σ) (sc : Scanner) (st : Run σ),
      st.number = 0 → st.calls = [] →
      ∀ c ∈ (Engine.translate tr sc st).run.calls,
        ∃ (k : Nat) (l : Bytes) (ts : σ), sc.lines[k]? = some l ∧ c.line = (k : Int) + 1 ∧
          extract l = .ok (some ⟨c.offset, c.length, c.value⟩) ∧
          c.result = (tr.Translate ts c.line c.offset c.length c.value).1 ∧
          1 ≤ c.line ∧ 0 ≤ c.offset ∧ 0 ≤ c.length := by
    intro σ tr sc st hn hcalls c hc
    rcases translateLoop_calls_args tr sc.maxTokenSize sc.lines st c hc with
      h | ⟨k, l, ts, hk, hline, hx, hres⟩
    · rw [hcalls] at h; cases h
    · obtain ⟨p, body, suf, -, -, -, -, hoff, hlen, -⟩ := (extract_some_iff l _).1 hx
      dsimp only at hoff hlen
      rw [hn] at hline
      refine ⟨k, l, ts, hk, by rw [hline]; omega, hx, hres, by rw [hline]; omega, ?_, ?_⟩
      · rw [hoff]; exact Int.natCast_nonneg _
      · rw [hlen]; exact Int.natCast_nonneg _
  refine ⟨?_, ?_, ?_⟩
  · intro σ tr sc st hn hcalls c hc
    obtain ⟨k, l, -, hk, hline, hx, -, h1, h2, h3⟩ := hloop tr sc st hn hcalls c hc
    exact ⟨k, l, hk, hline, hx, h1, h2, h3⟩
  · intro σ fs x options c hc
    rcases Translate_outcome fs x options with ⟨hcalls, -⟩ | ⟨tr, sc, w, hcalls, -⟩
    · rw [hcalls] at hc; cases hc
    · rw [hcalls] at hc
      obtain ⟨-, -, -, -, -, -, -, h1, h2, h3⟩ := hloop tr sc _ rfl rfl c hc
      exact ⟨h1, h2, h3⟩
  · intro mp sc st hn hcalls c hc msg hres
    obtain ⟨-, -, ts, -, -, -, hr, h1, h2, h3⟩ := hloop (mapTranslator mp) sc st hn hcalls c hc
    rw [hr] at hres
    simp only [mapTranslator] at hres
    rw [if_neg (by omega), if_neg (by omega), if_neg (by omega)] at hres
    split at hres <;> cases hres

theorem C13_translator_call_arguments_witness :
    ∃ (k : Nat) (l : Bytes),
      [ascii "\x7b", ascii "  \"a\": \"hello\"", ascii "\x7d"][k]? = some l ∧
        (2 : Int) = (k : Int) + 1 ∧
        extract l = .ok (some ⟨7, 7, ascii "hello"⟩) ∧ (1 : Int) ≤ 2 ∧ (0 : Int) ≤ 7 ∧
        (0 : Int) ≤ 7 :=
  C13_translator_call_arguments.1 (mapTranslator [(ascii "hello", ascii "world")])
    ⟨[ascii "\x7b", ascii "  \"a\": \"hello\"", ascii "\x7d"], 100⟩ (Run.fresh ()) rfl rfl
    ⟨2, 7, 7, ascii "hello", .ok (ascii "world")⟩ (by decide)

/-! ## Blank values -/

/-- C14. Empty-value boundary: a candidate whose text is empty or white space only goes
through the closure like any other. On a cache miss the translator is called once with
exactly that text and the candidate's span; when the call succeeds its result is stored
under that text (the empty key included), the other entries are unchanged, and the line
is written with the encoded result between the bytes before and after the literal. The
literal `""` is accepted as a candidate with the empty text. -/
theorem C14_empty_value_boundary :
    (∀ {σ : Type} (tr : Translator σ) (st : Run σ) (cline : Bytes) (cand : Candidate)
        (t : Bytes), extract cline = .ok (some cand) → TrimSpace cand.value = [] →
        st.cache cand.value = none →
        (tr.Translate st.tstate st.number cand.offset cand.length cand.value).1 = .ok t →
        (processLine tr st cline).2 = none ∧
          (processLine tr st cline).1.calls =
            st.calls ++ [⟨st.number, cand.offset, cand.length, cand.value, .ok t⟩] ∧
          (processLine tr st cline).1.cache cand.value = some t ∧
          (∀ k, k ≠ cand.value → (processLine tr st cline).1.cache k = st.cache k) ∧
          (processLine tr st cline).1.out =
            st.out ++ cline.take cand.offset.toNat ++ jsonMarshal t ++
              cline.drop (cand.offset + cand.length).toNat ++ [0x0A]) ∧
      ∀ (ws suf : Bytes), IsWs ws → IsValueTail suf →
        extract (ws ++ 0x22 :: 0x22 :: suf) = .ok (some ⟨(ws.length : Int), 2, []⟩) := by
  constructor
  · intro σ tr st cline cand t hx _ hmiss hok
    obtain ⟨p, body, suf, hl, -, -, -, hoff, hlen, -⟩ := (extract_some_iff cline cand).1 hx
    obtain ⟨off, len, value⟩ := cand
    dsimp only at hoff hlen hmiss hok ⊢
    subst hoff hlen hl
    have e1 : ((p.length : Int)).toNat = p.length := Int.toNat_ofNat _
    have e2 : ((p.length : Int) + ((body.length + 2 : Nat) : Int)).toNat
        = p.length + (body.length + 2) := by
      rw [← Int.natCast_add, Int.toNat_ofNat]
    unfold processLine
    rw [hx]
    dsimp only
    rw [translateClosure_miss_ok tr st p body suf value t hmiss hok, e1, e2, take_pre,
      drop_pre_literal]
    refine ⟨rfl, rfl, ?_, ?_, rfl⟩
    · dsimp only; rw [if_pos rfl]
    · intro k hk; dsimp only; rw [if_neg hk]
  · intro ws suf hws hsuf
    have hu : unquoteBytes (0x22 :: (([] : Bytes) ++ [0x22])) = some [] := by decide
    exact (extract_some_iff _ _).2 ⟨ws, [], suf, rfl, StrBody.nil, Or.inl hws, hsuf, rfl, rfl,
      hu⟩

theorem C14_empty_value_boundary_witness :
    (processLine (mapTranslator [(ascii "", ascii "mmm")]) ⟨fun _ => none, [], (), [], 1⟩
        (ascii "  \"description\": \"\",")).1.out = ascii "  \"description\": \"mmm\",\n" ∧
      (processLine (mapTranslator [(ascii "", ascii "mmm")]) ⟨fun _ => none, [], (), [], 1⟩
        (ascii "  \"description\": \"\",")).1.cache [] = some (ascii "mmm") := by
  have h := C14_empty_value_boundary.1 (mapTranslator [(ascii "", ascii "mmm")])
    ⟨fun _ => none, [], (), [], 1⟩ (ascii "  \"description\": \"\",") ⟨17, 2, []⟩ (ascii "mmm")
    (by decide) (by decide) rfl (by decide)
  exact ⟨h.2.2.2.2.trans (by decide), h.2.2.1⟩

/-! ## The Yandex translator -/

theorem trimLeftSpace_ascii_blank (value : Bytes) :
    ∀ (fuel : Nat), value.length ≤ fuel →
      (∀ b ∈ value, b = 0x20 ∨ (0x09 ≤ b ∧ b ≤ 0x0D)) → trimLeftSpace fuel value = [] := by
  induction value with
  | nil => intro fuel _ _; cases fuel <;> rfl
  | cons b rest ih =>
    intro fuel hf hb
    obtain ⟨f, rfl⟩ : ∃ f, fuel = f + 1 :=
      ⟨fuel - 1, by simp only [List.length_cons] at hf; omega⟩
    have hb0 := hb b (List.mem_cons_self _ _)
    have hlt : b < 0x80 := by omega
    have hd : DecodeRune b rest = (b, 1) := by
      unfold DecodeRune; rw [if_pos hlt]
    have hsp : IsSpace b = true := by
      rcases hb0 with h | ⟨h1, h2⟩
      · subst h; decide
      · simp [IsSpace, h1, h2]
    rw [trimLeftSpace, hd]
    dsimp only
    rw [if_pos hsp]
    exact ih f (by simp only [List.length_cons] at hf; simpa using (by omega : rest.length ≤ f))
      (fun x hx => hb x (List.mem_cons_of_mem _ hx))

/-- C15. Yandex blank pass-through: for a value whose trimmed form is empty,
`Yandex.Translate` returns that value and no error, whatever the line, offset, length,
language, API key and remote service are (neither the key check nor the remote call is
reached); the empty value and every value made of ASCII white space only are such
values; for any other value with an empty API key it returns the error
`yandex: requires api key`. -/
theorem C15_yandex_blank_pass_through
    (remote : Bytes → Bytes → Bytes → Except GoError Bytes) (x : Yandex)
    (line offset length : Int) (value : Bytes) :
    (TrimSpace value = [] → Yandex.Translate remote x line offset length value = .ok value) ∧
      ((∀ b ∈ value, b = 0x20 ∨ (0x09 ≤ b ∧ b ≤ 0x0D)) → TrimSpace value = []) ∧
      (TrimSpace value ≠ [] → x.APIKey = [] →
        Yandex.Translate remote x line offset length value =
          .error (.sentinel "yandex: requires api key")) := by
  refine ⟨?_, ?_, ?_⟩
  · intro h
    unfold Yandex.Translate
    rw [if_pos h]
  · intro h
    unfold TrimSpace
    rw [trimLeftSpace_ascii_blank value value.length (le_refl _) h, List.reverse_nil]
    cases value.length <;> rfl
  · intro h hk
    unfold Yandex.Translate
    rw [if_neg h, if_pos hk]

theorem C15_yandex_blank_pass_through_witness :
    Yandex.Translate (fun _ _ _ => .error (.other "unreachable")) ⟨[], ascii "en"⟩ 3 4 5
        (ascii " \t ") = .ok (ascii " \t ") ∧
      Yandex.Translate (fun _ _ _ => .error (.other "unreachable")) ⟨[], ascii "en"⟩ 3 4 5
        (ascii " hello ") = .error (.sentinel "yandex: requires api key") :=
  ⟨(C15_yandex_blank_pass_through (fun _ _ _ => .error (.other "unreachable"))
      ⟨[], ascii "en"⟩ 3 4 5 (ascii " \t ")).1 (by decide),
    (C15_yandex_blank_pass_through (fun _ _ _ => .error (.other "unreachable"))
      ⟨[], ascii "en"⟩ 3 4 5 (ascii " hello ")).2.2 (by decide) rfl⟩

/-! ## Cancellation -/

/-- With a translator that honours a cancelled context, a round that ends without error
has made no call. -/
theorem processLine_cancelled {σ : Type} (ct : ContextTranslator σ) (hhon : ct.Honours)
    (cancelAt : Int) (st : Run σ) (l : Bytes) (hc : cancelAt ≤ st.number)
    (hok : (processLine (ct.cancelledFrom cancelAt) st l).2 = none) :
    (processLine (ct.cancelledFrom cancelAt) st l).1.calls = st.calls ∧
      (processLine (ct.cancelledFrom cancelAt) st l).1.cache = st.cache := by
  rcases (processLine_effect (ct.cancelledFrom cancelAt) st l).2 with
    h | ⟨cand, -, -, -, hr⟩
  · exact h
  · have hfail : ((ct.cancelledFrom cancelAt).Translate st.tstate st.number cand.offset
        cand.length cand.value).1 = .error Canceled := by
      simp only [ContextTranslator.cancelledFrom, hc, decide_True]
      exact hhon _ _ _ _ _
    rcases hr with ⟨e, -, herr, -⟩ | ⟨s, hs, -⟩
    · rw [herr] at hok; cases hok
    · rw [hfail] at hs; cases hs

theorem runLines_cancelled {σ : Type} (ct : ContextTranslator σ) (hhon : ct.Honours)
    (cancelAt : Int) (lines : List Bytes) :
    ∀ (st : Run σ), cancelAt ≤ st.number + 1 →
      (runLines (ct.cancelledFrom cancelAt) lines st).2 = none →
      (runLines (ct.cancelledFrom cancelAt) lines st).1.calls = st.calls ∧
        (runLines (ct.cancelledFrom cancelAt) lines st).1.cache = st.cache ∧
        cancelAt ≤ (runLines (ct.cancelledFrom cancelAt) lines st).1.number + 1 := by
  induction lines with
  | nil => intro st hc _; exact ⟨rfl, rfl, hc⟩
  | cons l rest ih =>
    intro st hc hok
    rw [runLines] at hok ⊢
    have h1 := processLine_cancelled ct hhon cancelAt { st with number := st.number + 1 } l hc
    have h2 := (processLine_effect (ct.cancelledFrom cancelAt)
      { st with number := st.number + 1 } l).1
    cases hp : processLine (ct.cancelledFrom cancelAt) { st with number := st.number + 1 } l with
    | mk st2 oe =>
      rw [hp] at hok h1 h2
      cases oe with
      | some e => cases hok
      | none =>
        dsimp only at hok h1 h2 ⊢
        obtain ⟨hcalls, hcache⟩ := h1 rfl
        obtain ⟨i1, i2, i3⟩ := ih st2 (by rw [h2]; omega) hok
        exact ⟨i1.trans hcalls, i2.trans hcache, i3⟩

/-- Lines without candidate are read and written whatever the translator does. -/
theorem translateLoop_no_candidates {σ : Type} (tr : Translator σ) (m : Nat)
    (lines : List Bytes) :
    ∀ (st : Run σ), (∀ l ∈ lines, l.length < m) → (∀ l ∈ lines, extract l = .ok none) →
      (translateLoop tr m lines st).err = none ∧
        (translateLoop tr m lines st).run.out = st.out ++ withTerminators lines ∧
        (translateLoop tr m lines st).run.calls = st.calls ∧
        (translateLoop tr m lines st).unread = [] := by
  induction lines with
  | nil => intro st _ _; simp [translateLoop, withTerminators]
  | cons l rest ih =>
    intro st hfit hx
    rw [translateLoop_cons tr m l rest st (hfit l (List.mem_cons_self _ _))]
    have hp : processLine tr { st with number := st.number + 1 } l =
        ({ st with number := st.number + 1, out := st.out ++ l ++ lineSeparator }, none) := by
      unfold processLine
      rw [hx l (List.mem_cons_self _ _)]
    rw [hp]
    dsimp only
    obtain ⟨h1, h2, h3, h4⟩ :=
      ih ⟨st.cache, st.out ++ l ++ lineSeparator, st.tstate, st.calls, st.number + 1⟩
        (fun x hx2 => hfit x (List.mem_cons_of_mem _ hx2))
        (fun x hx2 => hx x (List.mem_cons_of_mem _ hx2))
    refine ⟨h1, ?_, h3, h4⟩
    rw [h2, withTerminators]
    simp [lineSeparator]

/-- C18 (as amended). Cancellation reaches the run through the translator only: the
loop never inspects the context. Whatever the translator and the context, lines without
candidate are all read and written. With a translator that fails once the context is
cancelled, and a context cancelled before the first of the lines is taken: the lines
that are processed without error cause no translator call, and at the first candidate
line that misses the cache the run returns the context's error, writes nothing of that
line, stores nothing and reads no later line. -/
theorem C18_cancellation_amended {σ : Type} (ct : ContextTranslator σ) (cancelAt : Int)
    (m : Nat) (st : Run σ) :
    (∀ (lines : List Bytes), (∀ l ∈ lines, l.length < m) →
        (∀ l ∈ lines, extract l = .ok none) →
        (translateLoop (ct.cancelledFrom cancelAt) m lines st).err = none ∧
          (translateLoop (ct.cancelledFrom cancelAt) m lines st).run.out =
            st.out ++ withTerminators lines ∧
          (translateLoop (ct.cancelledFrom cancelAt) m lines st).unread = []) ∧
      ∀ (pre post : List Bytes) (l : Bytes) (cand : Candidate), ct.Honours →
        cancelAt ≤ st.number + 1 → (∀ x ∈ pre, x.length < m) → l.length < m →
        (runLines (ct.cancelledFrom cancelAt) pre st).2 = none →
        extract l = .ok (some cand) → st.cache cand.value = none →
        (runLines (ct.cancelledFrom cancelAt) pre st).1.calls = st.calls ∧
          (translateLoop (ct.cancelledFrom cancelAt) m (pre ++ l :: post) st).err =
            some Canceled ∧
          (translateLoop (ct.cancelledFrom cancelAt) m (pre ++ l :: post) st).run.out =
            (runLines (ct.cancelledFrom cancelAt) pre st).1.out ∧
          (translateLoop (ct.cancelledFrom cancelAt) m (pre ++ l :: post) st).run.cache =
            st.cache ∧
          (translateLoop (ct.cancelledFrom cancelAt) m (pre ++ l :: post) st).run.calls =
            st.calls ++ [⟨(runLines (ct.cancelledFrom cancelAt) pre st).1.number + 1,
              cand.offset, cand.length, cand.value, .error Canceled⟩] ∧
          (translateLoop (ct.cancelledFrom cancelAt) m (pre ++ l :: post) st).unread = post := by
  constructor
  · intro lines hfit hx
    obtain ⟨h1, h2, -, h4⟩ := translateLoop_no_candidates (ct.cancelledFrom cancelAt) m lines st
      hfit hx
    exact ⟨h1, h2, h4⟩
  · intro pre post l cand hhon hc hfit hl hpre hx hmiss
    obtain ⟨hcalls, hcache, hnum⟩ := runLines_cancelled ct hhon cancelAt pre st hc hpre
    have hmiss2 : (runLines (ct.cancelledFrom cancelAt) pre st).1.cache cand.value = none := by
      rw [hcache]; exact hmiss
    have hfail : ((ct.cancelledFrom cancelAt).Translate
        (runLines (ct.cancelledFrom cancelAt) pre st).1.tstate
        ((runLines (ct.cancelledFrom cancelAt) pre st).1.number + 1)
        cand.offset cand.length cand.value).1 = .error Canceled := by
      show (ct.Translate (decide (cancelAt ≤
        (runLines (ct.cancelledFrom cancelAt) pre st).1.number + 1)) _ _ _ _ _).1 = _
      rw [decide_eq_true hnum]
      exact hhon _ _ _ _ _
    rw [translateLoop_append _ m pre (l :: post) st hfit hpre, translateLoop_cons _ m l post _ hl]
    have hp : processLine (ct.cancelledFrom cancelAt)
        { (runLines (ct.cancelledFrom cancelAt) pre st).1 with
          number := (runLines (ct.cancelledFrom cancelAt) pre st).1.number + 1 } l =
        ({ (runLines (ct.cancelledFrom cancelAt) pre st).1 with
            number := (runLines (ct.cancelledFrom cancelAt) pre st).1.number + 1
            tstate := ((ct.cancelledFrom cancelAt).Translate
              (runLines (ct.cancelledFrom cancelAt) pre st).1.tstate
              ((runLines (ct.cancelledFrom cancelAt) pre st).1.number + 1)
              cand.offset cand.length cand.value).2
            calls := (runLines (ct.cancelledFrom cancelAt) pre st).1.calls ++
              [⟨(runLines (ct.cancelledFrom cancelAt) pre st).1.number + 1, cand.offset,
                cand.length, cand.value, .error Canceled⟩] }, some Canceled) := by
      unfold processLine
      rw [hx]
      dsimp only
      rw [translateClosure_miss_error (ct.cancelledFrom cancelAt)
        { (runLines (ct.cancelledFrom cancelAt) pre st).1 with
          number := (runLines (ct.cancelledFrom cancelAt) pre st).1.number + 1 } l cand
        Canceled hmiss2 hfail]
    rw [hp]
    dsimp only
    refine ⟨hcalls, rfl, rfl, hcache, ?_, rfl⟩
    rw [hcalls]

/-- C18 (counterexample). The context is cancelled before the run starts. With a
translator that honours the context the line `{` is still read and written and the next
line is still read and passed to the translator, whose failure ends the run; with a
translator that ignores the context, as the one of `yandex.go` does, every line is read,
translated and written and the run returns no error. -/
theorem C18_cancellation_counterexample :
    (translateLoop (honouringTranslator.cancelledFrom 0) MaxScanTokenSize
        [ascii "\x7b", ascii "  \"a\": \"x\"", ascii "\x7d"] (Run.fresh ())).run.out =
        ascii "\x7b\n" ∧
      (translateLoop (honouringTranslator.cancelledFrom 0) MaxScanTokenSize
        [ascii "\x7b", ascii "  \"a\": \"x\"", ascii "\x7d"] (Run.fresh ())).run.calls =
        [⟨2, 7, 3, ascii "x", .error Canceled⟩] ∧
      (translateLoop (honouringTranslator.cancelledFrom 0) MaxScanTokenSize
        [ascii "\x7b", ascii "  \"a\": \"x\"", ascii "\x7d"] (Run.fresh ())).unread =
        [ascii "\x7d"] ∧
      (translateLoop (ignoringTranslator.cancelledFrom 0) MaxScanTokenSize
        [ascii "\x7b", ascii "  \"a\": \"x\"", ascii "\x7d"] (Run.fresh ())).err = none ∧
      (translateLoop (ignoringTranslator.cancelledFrom 0) MaxScanTokenSize
        [ascii "\x7b", ascii "  \"a\": \"x\"", ascii "\x7d"] (Run.fresh ())).run.out =
        ascii "\x7b\n  \"a\": \"x\"\n\x7d\n" ∧
      (translateLoop (ignoringTranslator.cancelledFrom 0) MaxScanTokenSize
        [ascii "\x7b", ascii "  \"a\": \"x\"", ascii "\x7d"] (Run.fresh ())).unread = [] := by
  decide

theorem C18_cancellation_amended_witness :
    (translateLoop (honouringTranslator.cancelledFrom 1) 100
        ([ascii "\x7b"] ++ ascii "  \"a\": \"x\"" :: [ascii "\x7d"]) (Run.fresh ())).err =
        some Canceled ∧
      (translateLoop (honouringTranslator.cancelledFrom 1) 100
        ([ascii "\x7b"] ++ ascii "  \"a\": \"x\"" :: [ascii "\x7d"]) (Run.fresh ())).unread =
        [ascii "\x7d"] := by
  have h := (C18_cancellation_amended honouringTranslator 1 100 (Run.fresh ())).2
    [ascii "\x7b"] [ascii "\x7d"] (ascii "  \"a\": \"x\"") ⟨7, 3, ascii "x"⟩
    (fun _ _ _ _ _ => rfl) (by decide) (by decide) (by decide) (by decide) (by decide) rfl
  exact ⟨h.2.1, h.2.2.2.2.2⟩

/-! ## UTF-8: decoding what `EncodeRune` wrote -/

theorem encodeRune_ascii {r : Nat} (h : r < 0x80) : EncodeRune r = [r] := by
  unfold EncodeRune
  rw [if_pos (by omega)]

theorem encodeRune_two {r : Nat} (h1 : 0x80 ≤ r) (h2 : r ≤ 0x7FF) :
    EncodeRune r = [0xC0 + r / 64, 0x80 + r % 64] := by
  unfold EncodeRune
  rw [if_neg (by omega), if_pos h2]

theorem encodeRune_three {r : Nat} (h1 : 0x800 ≤ r) (h2 : r ≤ 0xFFFF)
    (h3 : ¬ (0xD800 ≤ r ∧ r ≤ 0xDFFF)) :
    EncodeRune r = [0xE0 + r / 4096, 0x80 + (r / 64) % 64, 0x80 + r % 64] := by
  unfold EncodeRune
  rw [if_neg (by omega), if_neg (by omega), if_neg, if_pos h2]
  simp only [Bool.or_eq_true, Bool.and_eq_true, decide_eq_true_eq, not_or]
  exact ⟨by omega, h3⟩

theorem encodeRune_four {r : Nat} (h1 : 0x10000 ≤ r) (h2 : r ≤ 0x10FFFF) :
    EncodeRune r =
      [0xF0 + r / 262144, 0x80 + (r / 4096) % 64, 0x80 + (r / 64) % 64, 0x80 + r % 64] := by
  unfold EncodeRune
  rw [if_neg (by omega), if_neg (by omega), if_neg, if_neg (by omega)]
  simp only [Bool.or_eq_true, Bool.and_eq_true, decide_eq_true_eq, not_or]
  exact ⟨by omega, by omega⟩

theorem encodeRune_invalid {r : Nat} (h : 0x10FFFF < r ∨ (0xD800 ≤ r ∧ r ≤ 0xDFFF)) :
    EncodeRune r = EncodeRune RuneError := by
  have e : EncodeRune RuneError = [0xEF, 0xBF, 0xBD] := by decide
  rw [e]
  unfold EncodeRune
  rw [if_neg (by omega), if_neg (by omega), if_pos]
  simp only [Bool.or_eq_true, Bool.and_eq_true, decide_eq_true_eq]
  exact h

theorem decodeRune_two {r : Nat} (h1 : 0x80 ≤ r) (h2 : r ≤ 0x7FF) (s : Bytes) :
    DecodeRune (0xC0 + r / 64) ((0x80 + r % 64) :: s) = (r, 2) := by
  unfold DecodeRune
  rw [if_neg (by omega), if_neg (by omega), if_pos (by omega)]
  have hc : isCont (0x80 + r % 64) = true := by
    simp only [isCont, Bool.and_eq_true, decide_eq_true_eq]; omega
  dsimp only
  rw [if_pos hc]
  congr 1
  omega

theorem decodeRune_three {r : Nat} (h1 : 0x800 ≤ r) (h2 : r ≤ 0xFFFF)
    (h3 : ¬ (0xD800 ≤ r ∧ r ≤ 0xDFFF)) (s : Bytes) :
    DecodeRune (0xE0 + r / 4096) ((0x80 + (r / 64) % 64) :: (0x80 + r % 64) :: s) = (r, 3) := by
  unfold DecodeRune
  rw [if_neg (by omega), if_neg (by omega), if_neg (by omega), if_pos (by omega)]
  have hc : isCont (0x80 + r % 64) = true := by
    simp only [isCont, Bool.and_eq_true, decide_eq_true_eq]; omega
  have hlo : ¬ (0x80 + (r / 64) % 64 < acceptLo (0xE0 + r / 4096)) := by
    unfold acceptLo
    split
    · omega
    · split <;> omega
  have hhi : ¬ (acceptHi (0xE0 + r / 4096) < 0x80 + (r / 64) % 64) := by
    unfold acceptHi
    split
    · omega
    · split <;> omega
  dsimp only
  rw [if_neg (by simp only [Bool.or_eq_true, decide_eq_true_eq, not_or]; exact ⟨hlo, hhi⟩),
    if_neg (by rw [hc]; decide)]
  congr 1
  omega

theorem decodeRune_four {r : Nat} (h1 : 0x10000 ≤ r) (h2 : r ≤ 0x10FFFF) (s : Bytes) :
    DecodeRune (0xF0 + r / 262144)
        ((0x80 + (r / 4096) % 64) :: (0x80 + (r / 64) % 64) :: (0x80 + r % 64) :: s) =
      (r, 4) := by
  unfold DecodeRune
  rw [if_neg (by omega), if_neg (by omega), if_neg (by omega), if_neg (by omega),
    if_pos (by omega)]
  have hc2 : isCont (0x80 + (r / 64) % 64) = true := by
    simp only [isCont, Bool.and_eq_true, decide_eq_true_eq]; omega
  have hc3 : isCont (0x80 + r % 64) = true := by
    simp only [isCont, Bool.and_eq_true, decide_eq_true_eq]; omega
  have hlo : ¬ (0x80 + (r / 4096) % 64 < acceptLo (0xF0 + r / 262144)) := by
    unfold acceptLo
    split
    · omega
    · split <;> omega
  have hhi : ¬ (acceptHi (0xF0 + r / 262144) < 0x80 + (r / 4096) % 64) := by
    unfold acceptHi
    split
    · omega
    · split <;> omega
  dsimp only
  rw [if_neg (by simp only [Bool.or_eq_true, decide_eq_true_eq, not_or]; exact ⟨hlo, hhi⟩),
    if_neg (by rw [hc2]; decide), if_neg (by rw [hc3]; decide)]
  congr 1
  omega

/-- Decoding the encoding of a scalar value above ASCII gives the value back and
consumes exactly the encoding. -/
theorem decodeRune_encodeRune {r : Nat} (h1 : 0x80 ≤ r) (h2 : r ≤ 0x10FFFF)
    (h3 : ¬ (0xD800 ≤ r ∧ r ≤ 0xDFFF)) (s : Bytes) :
    ∃ b tl, EncodeRune r = b :: tl ∧ 0x80 ≤ b ∧ (∀ x ∈ tl, 0x80 ≤ x) ∧
      DecodeRune b (tl ++ s) = (r, tl.length + 1) := by
  by_cases h4 : r ≤ 0x7FF
  · exact ⟨_, _, encodeRune_two h1 h4, by omega, by simp, decodeRune_two h1 h4 s⟩
  · by_cases h5 : r ≤ 0xFFFF
    · exact ⟨_, _, encodeRune_three (by omega) h5 h3, by omega, by simp,
        decodeRune_three (by omega) h5 h3 s⟩
    · exact ⟨_, _, encodeRune_four (by omega) h2, by omega, by simp,
        decodeRune_four (by omega) h2 s⟩

/-! ## The loops do not depend on spare fuel -/

theorem encodeLoop_nil (fuel : Nat) : encodeLoop fuel [] = [] := by
  cases fuel <;> rfl

theorem encodeStep_congr (loop1 loop2 : Bytes → Bytes) (b : Nat) (rest : Bytes)
    (h : ∀ s, s.length ≤ rest.length → loop1 s = loop2 s) :
    encodeStep loop1 b rest = encodeStep loop2 b rest := by
  have h0 : loop1 rest = loop2 rest := h rest (le_refl _)
  have hd : ∀ k, loop1 (rest.drop k) = loop2 (rest.drop k) :=
    fun k => h _ (by rw [List.length_drop]; omega)
  unfold encodeStep
  rw [h0, hd]

theorem encodeLoop_fuel (f1 : Nat) :
    ∀ (f2 : Nat) (s : Bytes), s.length ≤ f1 → s.length ≤ f2 →
      encodeLoop f1 s = encodeLoop f2 s := by
  induction f1 with
  | zero =>
    intro f2 s h1 _
    have : s = [] := List.length_eq_zero.1 (by omega)
    subst this
    rw [encodeLoop_nil, encodeLoop_nil]
  | succ g1 ih =>
    intro f2 s h1 h2
    cases s with
    | nil => rw [encodeLoop_nil, encodeLoop_nil]
    | cons b rest =>
      simp only [List.length_cons] at h1 h2
      obtain ⟨g2, rfl⟩ : ∃ g2, f2 = g2 + 1 := ⟨f2 - 1, by omega⟩
      rw [encodeLoop, encodeLoop]
      exact encodeStep_congr _ _ b rest (fun s hs => ih g2 s (by omega) (by omega))

theorem encodeBody_nil : encodeBody [] = [] := rfl

theorem encodeBody_cons (b : Nat) (rest : Bytes) :
    encodeBody (b :: rest) = encodeStep encodeBody b rest := by
  unfold encodeBody
  rw [List.length_cons, encodeLoop]
  exact encodeStep_congr _ _ b rest
    (fun s hs => encodeLoop_fuel rest.length s.length s hs (le_refl _))

theorem unquoteStep_congr (loop1 loop2 : Bytes → Option Bytes) (c : Nat) (rest : Bytes)
    (h : ∀ s, s.length ≤ rest.length → loop1 s = loop2 s) :
    unquoteStep loop1 c rest = unquoteStep loop2 c rest := by
  have h0 : loop1 rest = loop2 rest := h rest (le_refl _)
  have hd : ∀ k, loop1 (rest.drop k) = loop2 (rest.drop k) :=
    fun k => h _ (by rw [List.length_drop]; omega)
  unfold unquoteStep
  cases rest with
  | nil => rw [h0, hd]
  | cons e rest1 =>
    have h1 : loop1 rest1 = loop2 rest1 := h rest1 (by simp)
    have h2 : loop1 (rest1.drop 4) = loop2 (rest1.drop 4) :=
      h _ (by rw [List.length_drop, List.length_cons]; omega)
    have h3 : loop1 ((rest1.drop 4).drop 6) = loop2 ((rest1.drop 4).drop 6) :=
      h _ (by rw [List.length_drop, List.length_drop, List.length_cons]; omega)
    dsimp only
    rw [h0, hd, h1, h2, h3]

theorem unquoteLoop_fuel (f1 : Nat) :
    ∀ (f2 : Nat) (s : Bytes), s.length ≤ f1 → s.length ≤ f2 →
      unquoteLoop f1 s = unquoteLoop f2 s := by
  induction f1 with
  | zero =>
    intro f2 s h1 _
    have : s = [] := List.length_eq_zero.1 (by omega)
    subst this
    rw [unquoteLoop_nil, unquoteLoop_nil]
  | succ g1 ih =>
    intro f2 s h1 h2
    cases s with
    | nil => rw [unquoteLoop_nil, unquoteLoop_nil]
    | cons b rest =>
      simp only [List.length_cons] at h1 h2
      obtain ⟨g2, rfl⟩ : ∃ g2, f2 = g2 + 1 := ⟨f2 - 1, by omega⟩
      rw [unquoteLoop, unquoteLoop]
      exact unquoteStep_congr _ _ b rest (fun s hs => ih g2 s (by omega) (by omega))

theorem unquoteBody_nil : unquoteBody [] = some [] := rfl

theorem unquoteBody_cons (c : Nat) (rest : Bytes) :
    unquoteBody (c :: rest) = unquoteStep unquoteBody c rest := by
  unfold unquoteBody
  rw [List.length_cons, unquoteLoop]
  exact unquoteStep_congr _ _ c rest
    (fun s hs => unquoteLoop_fuel rest.length s.length s hs (le_refl _))

theorem unquoteBytes_eq_unquoteBody (body : Bytes) :
    unquoteBytes (0x22 :: (body ++ [0x22])) = unquoteBody body := by
  rw [unquoteBytes_literal]
  exact unquoteLoop_fuel _ _ body (by omega) (le_refl _)

/-! ## What the encoder writes is a string literal -/

theorem strBody_append {a b : Bytes} (ha : StrBody a) (hb : StrBody b) : StrBody (a ++ b) := by
  induction ha with
  | nil => exact hb
  | plain c s h1 h2 h3 _ ih => exact StrBody.plain c _ h1 h2 h3 ih
  | esc e s he _ ih => exact StrBody.esc e _ he ih
  | uesc x y z w s hx hy hz hw _ ih => exact StrBody.uesc x y z w _ hx hy hz hw ih

theorem strBody_of_high (l : Bytes) (h : ∀ x ∈ l, 0x80 ≤ x) : StrBody l := by
  induction l with
  | nil => exact StrBody.nil
  | cons c s ih =>
    have hc := h c (List.mem_cons_self _ _)
    exact StrBody.plain c s (by omega) (by omega) (by omega)
      (ih (fun x hx => h x (List.mem_cons_of_mem _ hx)))

theorem isCont_high {b : Nat} (h : isCont b = true) : 0x80 ≤ b := by
  simp only [isCont, Bool.and_eq_true, decide_eq_true_eq] at h
  exact h.1

/-- The bytes `DecodeRune` consumes at a byte above ASCII are all above ASCII. -/
theorem decodeRune_take_high (b : Nat) (rest : Bytes) (hb : 0x80 ≤ b) :
    ∀ x ∈ (b :: rest).take (DecodeRune b rest).2, 0x80 ≤ x := by
  have one : ∀ x ∈ (b :: rest).take 1, 0x80 ≤ x := by
    intro x hx
    simp only [List.take_succ_cons, List.take_zero, List.mem_singleton] at hx
    omega
  unfold DecodeRune
  split
  · exact one
  split
  · exact one
  split
  · split
    · rename_i b1 tl
      split
      · rename_i hc
        intro x hx
        simp only [List.take_succ_cons, List.take_zero, List.mem_cons, List.mem_singleton,
          List.not_mem_nil, or_false] at hx
        rcases hx with rfl | rfl
        · exact hb
        · exact isCont_high hc
      · exact one
    · exact one
  split
  · split
    · rename_i b1 b2 tl
      split
      · exact one
      split
      · exact one
      · rename_i h1 h2
        have hb1 : 0x80 ≤ b1 := by
          simp only [Bool.or_eq_true, decide_eq_true_eq, not_or, not_lt] at h1
          have h0 := acceptLo_ge b
          omega
        have hb2 : isCont b2 = true := by simpa using h2
        intro x hx
        simp only [List.take_succ_cons, List.take_zero, List.mem_cons, List.mem_singleton,
          List.not_mem_nil, or_false] at hx
        rcases hx with rfl | rfl | rfl
        · exact hb
        · exact hb1
        · exact isCont_high hb2
    · exact one
  split
  · split
    · rename_i b1 b2 b3 tl
      split
      · exact one
      split
      · exact one
      split
      · exact one
      · rename_i h1 h2 h3
        have hb1 : 0x80 ≤ b1 := by
          simp only [Bool.or_eq_true, decide_eq_true_eq, not_or, not_lt] at h1
          have h0 := acceptLo_ge b
          omega
        have hb2 : isCont b2 = true := by simpa using h2
        have hb3 : isCont b3 = true := by simpa using h3
        intro x hx
        simp only [List.take_succ_cons, List.take_zero, List.mem_cons, List.mem_singleton,
          List.not_mem_nil, or_false] at hx
        rcases hx with rfl | rfl | rfl | rfl
        · exact hb
        · exact hb1
        · exact isCont_high hb2
        · exact isCont_high hb3
    · exact one
  · exact one

theorem isHex_hexDigit {i : Nat} (h : i < 16) : isHex (hexDigit i) = true := by
  interval_cases i <;> decide

theorem hexVal_hexDigit {i : Nat} (h : i < 16) : hexVal (hexDigit i) = some i := by
  interval_cases i <;> decide

theorem strBody_escapeByte {b : Nat} (h : b < 0x80) : StrBody (escapeByte b) := by
  unfold escapeByte
  split
  · rename_i hb
    simp only [Bool.or_eq_true, decide_eq_true_eq] at hb
    refine StrBody.esc b [] ?_ StrBody.nil
    rcases hb with rfl | rfl <;> decide
  split
  · exact StrBody.esc _ [] (by decide) StrBody.nil
  split
  · exact StrBody.esc _ [] (by decide) StrBody.nil
  split
  · exact StrBody.esc _ [] (by decide) StrBody.nil
  · exact StrBody.uesc _ _ _ _ [] (by decide) (by decide) (isHex_hexDigit (by omega))
      (isHex_hexDigit (by omega)) StrBody.nil

theorem strBody_encodeStep (loop : Bytes → Bytes) (b : Nat) (rest : Bytes)
    (h : ∀ s, s.length ≤ rest.length → StrBody (loop s)) :
    StrBody (encodeStep loop b rest) := by
  have h0 : StrBody (loop rest) := h rest (le_refl _)
  have hd : ∀ k, StrBody (loop (rest.drop k)) :=
    fun k => h _ (by rw [List.length_drop]; omega)
  unfold encodeStep
  split
  · rename_i hb
    refine strBody_append ?_ h0
    split
    · rename_i hs
      simp only [htmlSafe, Bool.and_eq_true, decide_eq_true_eq, bne_iff_ne, ne_eq] at hs
      exact StrBody.plain b [] hs.1.1.1.1.1.1 hs.1.1.1.1.2 hs.2 StrBody.nil
    · exact strBody_escapeByte hb
  · rename_i hb
    split
    · exact strBody_append (StrBody.uesc _ _ _ _ [] (by decide) (by decide) (by decide)
        (by decide) StrBody.nil) h0
    split
    · exact strBody_append (StrBody.uesc _ _ _ _ [] (by decide) (by decide) (by decide)
        (isHex_hexDigit (Nat.mod_lt _ (by decide))) StrBody.nil) (hd _)
    · exact strBody_append (strBody_of_high _ (decodeRune_take_high b rest (by omega))) (hd _)

/-- Whatever the text, the encoder's output between the quotes is the body of a string
literal. -/
theorem strBody_encodeBody (n : Nat) : ∀ (s : Bytes), s.length ≤ n → StrBody (encodeBody s) := by
  induction n with
  | zero =>
    intro s h
    have : s = [] := List.length_eq_zero.1 (by omega)
    subst this
    exact StrBody.nil
  | succ n ih =>
    intro s h
    cases s with
    | nil => exact StrBody.nil
    | cons b rest =>
      rw [encodeBody_cons]
      simp only [List.length_cons] at h
      exact strBody_encodeStep encodeBody b rest (fun s hs => ih s (by omega))

theorem jsonMarshal_eq (s : Bytes) : jsonMarshal s = 0x22 :: (encodeBody s ++ [0x22]) := rfl

theorem isStringLiteral_jsonMarshal (s : Bytes) : IsStringLiteral (jsonMarshal s) :=
  ⟨encodeBody s, strBody_encodeBody s.length s (le_refl _), rfl⟩

/-- No byte of a string body is a control character; in particular none is a line
feed. -/
theorem strBody_ge {s : Bytes} (h : StrBody s) : ∀ x ∈ s, 0x20 ≤ x := by
  induction h with
  | nil => intro x hx; cases hx
  | plain c s h1 _ _ _ ih =>
    intro x hx
    rcases List.mem_cons.1 hx with rfl | hx
    · exact h1
    · exact ih x hx
  | esc e s he _ ih =>
    intro x hx
    rcases List.mem_cons.1 hx with rfl | hx
    · decide
    · rcases List.mem_cons.1 hx with rfl | hx
      · rcases isSimpleEscape_cases he with h | h | h | h | h | h | h | h <;> omega
      · exact ih x hx
  | uesc a b c d s ha hb hc hd _ ih =>
    have hex : ∀ {y : Nat}, isHex y = true → 0x20 ≤ y := by
      intro y hy
      simp only [isHex, Bool.or_eq_true, Bool.and_eq_true, decide_eq_true_eq] at hy
      omega
    intro x hx
    simp only [List.mem_cons] at hx
    rcases hx with rfl | rfl | rfl | rfl | rfl | rfl | hx
    · decide
    · decide
    · exact hex ha
    · exact hex hb
    · exact hex hc
    · exact hex hd
    · exact ih x hx

theorem jsonMarshal_no_line_feed (s : Bytes) : ∀ x ∈ jsonMarshal s, x ≠ 0x0A := by
  intro x hx
  rw [jsonMarshal_eq] at hx
  simp only [List.mem_cons, List.mem_append, List.mem_singleton, List.not_mem_nil,
    or_false] at hx
  rcases hx with rfl | hx | rfl
  · decide
  · have := strBody_ge (strBody_encodeBody s.length s (le_refl _)) x hx
    omega
  · decide

/-! ## Encoding well-formed text, and decoding it again -/

theorem encodeRune_length_pos {r : Nat} (h1 : 0x80 ≤ r) (h2 : r ≤ 0x10FFFF)
    (h3 : ¬ (0xD800 ≤ r ∧ r ≤ 0xDFFF)) :
    ∃ b t1 tl, EncodeRune r = b :: t1 :: tl ∧ 0xC2 ≤ b ∧
      ∀ s, DecodeRune b (t1 :: tl ++ s) = (r, tl.length + 2) := by
  by_cases h4 : r ≤ 0x7FF
  · exact ⟨_, _, _, encodeRune_two h1 h4, by omega, fun s => decodeRune_two h1 h4 s⟩
  · by_cases h5 : r ≤ 0xFFFF
    · exact ⟨_, _, _, encodeRune_three (by omega) h5 h3, by omega,
        fun s => decodeRune_three (by omega) h5 h3 s⟩
    · exact ⟨_, _, _, encodeRune_four (by omega) h2, by omega,
        fun s => decodeRune_four (by omega) h2 s⟩

/-- The encoder's loop on text that starts with the encoding of a scalar value. -/
theorem encodeBody_encodeRune {r : Nat} (h2 : r ≤ 0x10FFFF) (h3 : ¬ (0xD800 ≤ r ∧ r ≤ 0xDFFF))
    (s : Bytes) : encodeBody (EncodeRune r ++ s) = encodeRuneText r ++ encodeBody s := by
  by_cases h1 : r < 0x80
  · rw [encodeRune_ascii h1, List.singleton_append, encodeBody_cons]
    unfold encodeStep encodeRuneText
    rw [if_pos h1, if_pos h1]
  · obtain ⟨b, t1, tl, he, hb, hd⟩ := encodeRune_length_pos (by omega) h2 h3
    rw [he, List.cons_append, encodeBody_cons]
    unfold encodeStep encodeRuneText
    rw [if_neg (by omega), if_neg h1]
    have hds := hd s
    rw [List.cons_append] at hds ⊢
    rw [hds]
    dsimp only
    have hdrop : (t1 :: (tl ++ s)).drop (tl.length + 2 - 1) = s := by
      rw [show tl.length + 2 - 1 = tl.length + 1 by omega, List.drop_succ_cons, drop_pre]
    have htake : (b :: t1 :: (tl ++ s)).take (tl.length + 2) = b :: t1 :: tl := by
      rw [List.take_succ_cons, List.take_succ_cons, take_pre]
    rw [hdrop, htake]
    rw [if_neg (by simp only [Bool.and_eq_true, decide_eq_true_eq, not_and]; intro _; omega)]
    by_cases hsep : r = 0x2028 ∨ r = 0x2029
    · rw [if_pos (by simpa using hsep), if_pos hsep]
    · rw [if_neg (by simpa using hsep), if_neg hsep, he]

theorem unquoteStep_plain (loop : Bytes → Option Bytes) {c : Nat} (rest : Bytes)
    (h1 : 0x20 ≤ c) (h2 : c ≠ 0x22) (h3 : c ≠ 0x5C) (h4 : c < 0x80) :
    unquoteStep loop c rest = (loop rest).map (c :: ·) := by
  unfold unquoteStep
  rw [if_neg h3, if_neg (by simp only [Bool.or_eq_true, decide_eq_true_eq, not_or]; omega),
    if_pos h4]

theorem getu4_digits (x y z w : Nat) (s : Bytes) (hx : x < 16) (hy : y < 16) (hz : z < 16)
    (hw : w < 16) :
    getu4 (0x5C :: 0x75 :: hexDigit x :: hexDigit y :: hexDigit z :: hexDigit w :: s) =
      some (((x * 16 + y) * 16 + z) * 16 + w) := by
  simp [getu4, hexVal_hexDigit hx, hexVal_hexDigit hy, hexVal_hexDigit hz, hexVal_hexDigit hw]

/-- The decoder's step at a `\u` escape of a code point that is not a surrogate. -/
theorem unquoteStep_u (loop : Bytes → Option Bytes) (a b c d : Nat) (s : Bytes) (r : Nat)
    (hr : getu4 (0x5C :: 0x75 :: a :: b :: c :: d :: s) = some r) (hs : IsSurrogate r = false) :
    unquoteStep loop 0x5C (0x75 :: a :: b :: c :: d :: s) = (loop s).map (EncodeRune r ++ ·) := by
  rw [unquoteStep.eq_def, if_pos rfl]
  dsimp only
  rw [if_neg (by decide), if_neg (by decide), if_neg (by decide), if_neg (by decide),
    if_neg (by decide), if_neg (by decide), if_pos rfl, hr]
  dsimp only [List.drop_succ_cons, List.drop_zero]
  rw [hs]
  simp

theorem unquoteStep_esc (loop : Bytes → Option Bytes) (e : Nat) (s : Bytes)
    (he : e = 0x22 ∨ e = 0x5C) :
    unquoteStep loop 0x5C (e :: s) = (loop s).map (e :: ·) := by
  rw [unquoteStep.eq_def, if_pos rfl]
  dsimp only
  rw [if_pos (by rcases he with rfl | rfl <;> decide)]

/-- The decoder's loop on what the encoder writes for a scalar value. -/
theorem unquoteBody_encodeRuneText {r : Nat} (h2 : r ≤ 0x10FFFF)
    (h3 : ¬ (0xD800 ≤ r ∧ r ≤ 0xDFFF)) (s : Bytes) :
    unquoteBody (encodeRuneText r ++ s) = (unquoteBody s).map (EncodeRune r ++ ·) := by
  unfold encodeRuneText
  by_cases h1 : r < 0x80
  · rw [if_pos h1, encodeRune_ascii h1]
    by_cases hs : htmlSafe r = true
    · rw [if_pos hs, List.singleton_append, unquoteBody_cons]
      simp only [htmlSafe, Bool.and_eq_true, decide_eq_true_eq, bne_iff_ne, ne_eq] at hs
      rw [unquoteStep_plain unquoteBody s hs.1.1.1.1.1.1 hs.1.1.1.1.2 hs.2 h1]
      rfl
    · rw [if_neg hs]
      unfold escapeByte
      split
      · rename_i hb
        simp only [Bool.or_eq_true, decide_eq_true_eq] at hb
        rw [List.cons_append, List.singleton_append, unquoteBody_cons,
          unquoteStep_esc unquoteBody r s (by tauto)]
        rfl
      split
      · rename_i hb
        subst hb
        rw [List.cons_append, List.singleton_append, unquoteBody_cons, unquoteStep.eq_def,
          if_pos rfl]
        rfl
      split
      · rename_i hb
        subst hb
        rw [List.cons_append, List.singleton_append, unquoteBody_cons, unquoteStep.eq_def,
          if_pos rfl]
        rfl
      split
      · rename_i hb
        subst hb
        rw [List.cons_append, List.singleton_append, unquoteBody_cons, unquoteStep.eq_def,
          if_pos rfl]
        rfl
      · have hg := getu4_digits 0 0 (r / 16) (r % 16) s (by decide) (by decide) (by omega)
          (by omega)
        have hval : ((0 * 16 + 0) * 16 + r / 16) * 16 + r % 16 = r := by omega
        rw [hval] at hg
        have h30 : hexDigit 0 = 0x30 := by decide
        rw [h30] at hg
        show unquoteBody (0x5C :: 0x75 :: 0x30 :: 0x30 :: hexDigit (r / 16) ::
          hexDigit (r % 16) :: s) = _
        rw [unquoteBody_cons, unquoteStep_u unquoteBody _ _ _ _ s r hg
          (by simp only [IsSurrogate, Bool.and_eq_false_iff, decide_eq_false_iff_not]; omega),
          encodeRune_ascii h1]
  · rw [if_neg h1]
    by_cases hsep : r = 0x2028 ∨ r = 0x2029
    · rw [if_pos hsep]
      have hg := getu4_digits 2 0 2 (r % 16) s (by decide) (by decide) (by decide) (by omega)
      have hval : ((2 * 16 + 0) * 16 + 2) * 16 + r % 16 = r := by
        rcases hsep with rfl | rfl <;> rfl
      rw [hval] at hg
      have h30 : hexDigit 0 = 0x30 := by decide
      have h32 : hexDigit 2 = 0x32 := by decide
      rw [h30, h32] at hg
      show unquoteBody (0x5C :: 0x75 :: 0x32 :: 0x30 :: 0x32 :: hexDigit (r % 16) :: s) = _
      rw [unquoteBody_cons, unquoteStep_u unquoteBody _ _ _ _ s r hg
        (by simp only [IsSurrogate, Bool.and_eq_false_iff, decide_eq_false_iff_not]; omega)]
    · rw [if_neg hsep]
      obtain ⟨b, t1, tl, he, hb, hd⟩ := encodeRune_length_pos (by omega) h2 h3
      rw [he, List.cons_append, unquoteBody_cons]
      have hq : ¬ ((decide (b = 0x22) || decide (b < 0x20)) = true) := by
        simp only [Bool.or_eq_true, decide_eq_true_eq, not_or]
        omega
      unfold unquoteStep
      rw [if_neg (by omega), if_neg hq, if_neg (by omega)]
      have hds := hd s
      rw [List.cons_append] at hds ⊢
      rw [hds]
      dsimp only
      have hdrop : (t1 :: (tl ++ s)).drop (tl.length + 2 - 1) = s := by
        rw [show tl.length + 2 - 1 = tl.length + 1 by omega, List.drop_succ_cons, drop_pre]
      rw [hdrop, he]

/-- Decoding what the encoder writes for well-formed text gives the text back. -/
theorem unquoteBody_encodeBody {v : Bytes} (h : WellFormed v) :
    unquoteBody (encodeBody v) = some v := by
  induction h with
  | nil => rfl
  | cons r s h2 h3 _ ih =>
    rw [encodeBody_encodeRune h2 h3, unquoteBody_encodeRuneText h2 h3, ih]
    rfl

/-! ## What the decoder returns is well-formed -/

theorem wellFormed_cons_ascii {c : Nat} (h : c < 0x80) {s : Bytes} (hs : WellFormed s) :
    WellFormed (c :: s) := by
  have := WellFormed.cons c s (by omega) (by omega) hs
  rw [encodeRune_ascii h] at this
  exact this

theorem wellFormed_encodeRune (r : Nat) {s : Bytes} (hs : WellFormed s) :
    WellFormed (EncodeRune r ++ s) := by
  by_cases h : 0x10FFFF < r ∨ (0xD800 ≤ r ∧ r ≤ 0xDFFF)
  · rw [encodeRune_invalid h]
    exact WellFormed.cons RuneError s (by decide) (by decide) hs
  · exact WellFormed.cons r s (by omega) (by omega) hs

/-- One iteration of the decoder's loop puts a well-formed piece in front of what the
rest of the loop returns for a shorter input. -/
theorem unquoteStep_some (loop : Bytes → Option Bytes) (c : Nat) (rest v : Bytes)
    (h : unquoteStep loop c rest = some v) :
    ∃ pfx x w, x.length ≤ rest.length ∧ loop x = some w ∧ v = pfx ++ w ∧
      ∀ s, WellFormed s → WellFormed (pfx ++ s) := by
  have key : ∀ (pfx x : Bytes), x.length ≤ rest.length →
      (∀ s, WellFormed s → WellFormed (pfx ++ s)) →
      (loop x).map (pfx ++ ·) = some v →
      ∃ pfx x w, x.length ≤ rest.length ∧ loop x = some w ∧ v = pfx ++ w ∧
        ∀ s, WellFormed s → WellFormed (pfx ++ s) := by
    intro pfx x hx hwf hm
    obtain ⟨w, hw, hv⟩ := Option.map_eq_some'.1 hm
    exact ⟨pfx, x, w, hx, hw, hv.symm, hwf⟩
  have ascii1 : ∀ (e : Nat), e < 0x80 → ∀ s, WellFormed s → WellFormed ([e] ++ s) :=
    fun e he s hs => wellFormed_cons_ascii he hs
  rw [unquoteStep.eq_def] at h
  by_cases hc : c = 0x5C
  · rw [if_pos hc] at h
    cases rest with
    | nil => cases h
    | cons e rest1 =>
      dsimp only at h
      have l1 : rest1.length ≤ (e :: rest1).length := by simp
      have l2 : (rest1.drop 4).length ≤ (e :: rest1).length := by
        rw [List.length_drop, List.length_cons]; omega
      have l3 : ((rest1.drop 4).drop 6).length ≤ (e :: rest1).length := by
        rw [List.length_drop, List.length_drop, List.length_cons]; omega
      by_cases he : (decide (e = 0x22) || decide (e = 0x5C) || decide (e = 0x2F) ||
          decide (e = 0x27)) = true
      · rw [if_pos he] at h
        have he2 : e < 0x80 := by
          simp only [Bool.or_eq_true, decide_eq_true_eq] at he
          omega
        exact key [e] rest1 l1 (ascii1 e he2) h
      rw [if_neg he] at h
      by_cases h62 : e = 0x62
      · rw [if_pos h62] at h
        exact key [0x08] rest1 l1 (ascii1 _ (by decide)) h
      rw [if_neg h62] at h
      by_cases h66 : e = 0x66
      · rw [if_pos h66] at h
        exact key [0x0C] rest1 l1 (ascii1 _ (by decide)) h
      rw [if_neg h66] at h
      by_cases h6E : e = 0x6E
      · rw [if_pos h6E] at h
        exact key [0x0A] rest1 l1 (ascii1 _ (by decide)) h
      rw [if_neg h6E] at h
      by_cases h72 : e = 0x72
      · rw [if_pos h72] at h
        exact key [0x0D] rest1 l1 (ascii1 _ (by decide)) h
      rw [if_neg h72] at h
      by_cases h74 : e = 0x74
      · rw [if_pos h74] at h
        exact key [0x09] rest1 l1 (ascii1 _ (by decide)) h
      rw [if_neg h74] at h
      by_cases h75 : e = 0x75
      · rw [if_pos h75] at h
        cases hg : getu4 (c :: e :: rest1) with
        | none => rw [hg] at h; cases h
        | some rr =>
          rw [hg] at h
          dsimp only at h
          by_cases hsur : IsSurrogate rr = true
          · rw [if_pos hsur] at h
            by_cases hdec : utf16DecodeRune rr (getu4 (rest1.drop 4)) ≠ RuneError
            · rw [if_pos hdec] at h
              exact key _ _ l3 (fun s hs => wellFormed_encodeRune _ hs) h
            · rw [if_neg hdec] at h
              exact key _ _ l2 (fun s hs => wellFormed_encodeRune _ hs) h
          · rw [if_neg hsur] at h
            exact key _ _ l2 (fun s hs => wellFormed_encodeRune _ hs) h
      · rw [if_neg h75] at h
        cases h
  · rw [if_neg hc] at h
    by_cases hq : (decide (c = 0x22) || decide (c < 0x20)) = true
    · rw [if_pos hq] at h
      cases h
    rw [if_neg hq] at h
    by_cases hlt : c < 0x80
    · rw [if_pos hlt] at h
      exact key [c] rest (le_refl _) (ascii1 c hlt) h
    · rw [if_neg hlt] at h
      exact key _ _ (by rw [List.length_drop]; omega)
        (fun s hs => wellFormed_encodeRune _ hs) h

/-- The text the decoder returns is well-formed UTF-8, whatever the literal. -/
theorem wellFormed_unquoteBody (n : Nat) :
    ∀ (body v : Bytes), body.length ≤ n → unquoteBody body = some v → WellFormed v := by
  induction n with
  | zero =>
    intro body v hl h
    have : body = [] := List.length_eq_zero.1 (by omega)
    subst this
    rw [unquoteBody_nil] at h
    injection h with h
    subst h
    exact WellFormed.nil
  | succ n ih =>
    intro body v hl h
    cases body with
    | nil =>
      rw [unquoteBody_nil] at h
      injection h with h
      subst h
      exact WellFormed.nil
    | cons c rest =>
      rw [unquoteBody_cons] at h
      simp only [List.length_cons] at hl
      obtain ⟨pfx, x, w, hx, hw, rfl, hwf⟩ := unquoteStep_some unquoteBody c rest v h
      exact hwf w (ih x w (by omega) hw)

/-- Encoding a decoded text and decoding the result gives the same text. -/
theorem unquoteBytes_jsonMarshal_of_unquoteBytes {body v : Bytes}
    (h : unquoteBytes (0x22 :: (body ++ [0x22])) = some v) :
    unquoteBytes (jsonMarshal v) = some v := by
  rw [unquoteBytes_eq_unquoteBody] at h
  rw [jsonMarshal_eq, unquoteBytes_eq_unquoteBody]
  exact unquoteBody_encodeBody (wellFormed_unquoteBody body.length body v (le_refl _) h)

/-! ## Running the engine on its own output -/

theorem emittedLine_span (p body suf v t : Bytes) :
    emittedLine (p ++ 0x22 :: (body ++ 0x22 :: suf))
        ⟨(p.length : Int), ((body.length + 2 : Nat) : Int), v⟩ t = p ++ jsonMarshal t ++ suf := by
  unfold emittedLine
  dsimp only
  rw [Int.toNat_ofNat, ← Int.natCast_add, Int.toNat_ofNat, take_pre, drop_pre_literal]

/-- With a translator that returns its input, a candidate line is written with the
encoding of its own text. -/
theorem processLine_identity_emit {σ : Type} (tr : Translator σ) (st : Run σ) (l : Bytes)
    (cand : Candidate) (hid : ∀ s n o len v, (tr.Translate s n o len v).1 = .ok v)
    (hcache : CacheIsIdentity st) (hx : extract l = .ok (some cand)) :
    (processLine tr st l).2 = none ∧
      (processLine tr st l).1.out = st.out ++ emittedLine l cand cand.value ++ [0x0A] := by
  obtain ⟨p, body, suf, hl, -, -, -, hoff, hlen, -⟩ := (extract_some_iff l cand).1 hx
  obtain ⟨off, len, value⟩ := cand
  dsimp only at hoff hlen ⊢
  subst hoff hlen hl
  rw [emittedLine_span]
  unfold processLine
  rw [hx]
  dsimp only
  cases hc : st.cache value with
  | some s =>
    have hs : s = value := hcache value s hc
    subst hs
    rw [translateClosure_hit tr st p body suf s s hc]
    exact ⟨rfl, by simp [lineSeparator]⟩
  | none =>
    rw [translateClosure_miss_ok tr st p body suf value value hc (hid _ _ _ _ _)]
    exact ⟨rfl, by simp [lineSeparator]⟩

/-- C16. Diff-minimal re-run: with a translator that returns its input unchanged (and a
cache that maps texts to themselves only), a candidate line is written with the encoding
of its decoded value in place of the literal; the written line is again a candidate line,
with the same offset and the same decoded value, decoding the encoded value gives the
value back, and processing the written line writes it again byte for byte. -/
theorem C16_diff_minimal_rerun {σ : Type} (tr : Translator σ) (st : Run σ) (cline : Bytes)
    (cand : Candidate) (hid : ∀ s n o len v, (tr.Translate s n o len v).1 = .ok v)
    (hcache : CacheIsIdentity st) (hx : extract cline = .ok (some cand)) :
    (processLine tr st cline).2 = none ∧
      (processLine tr st cline).1.out =
        st.out ++ emittedLine cline cand cand.value ++ [0x0A] ∧
      extract (emittedLine cline cand cand.value) =
        .ok (some ⟨cand.offset, ((jsonMarshal cand.value).length : Int), cand.value⟩) ∧
      unquoteBytes (jsonMarshal cand.value) = some cand.value ∧
      ∀ (st2 : Run σ), CacheIsIdentity st2 →
        (processLine tr st2 (emittedLine cline cand cand.value)).2 = none ∧
          (processLine tr st2 (emittedLine cline cand cand.value)).1.out =
            st2.out ++ emittedLine cline cand cand.value ++ [0x0A] := by
  obtain ⟨h1, h2⟩ := processLine_identity_emit tr st cline cand hid hcache hx
  obtain ⟨p, body, suf, hl, -, hpre, hsuf, hoff, hlen, hu⟩ := (extract_some_iff cline cand).1 hx
  obtain ⟨off, len, value⟩ := cand
  dsimp only at hoff hlen hu h1 h2 ⊢
  subst hoff hlen hl
  have hu2 : unquoteBytes (jsonMarshal value) = some value :=
    unquoteBytes_jsonMarshal_of_unquoteBytes hu
  have hem : emittedLine (p ++ 0x22 :: (body ++ 0x22 :: suf))
      ⟨(p.length : Int), ((body.length + 2 : Nat) : Int), value⟩ value =
      p ++ 0x22 :: (encodeBody value ++ 0x22 :: suf) := by
    rw [emittedLine_span, jsonMarshal_eq]
    simp
  have hlen2 : ((jsonMarshal value).length : Int) = (((encodeBody value).length + 2 : Nat) : Int) := by
    rw [jsonMarshal_eq]
    simp only [List.length_cons, List.length_append, List.length_nil]
  have hx2 : extract (p ++ 0x22 :: (encodeBody value ++ 0x22 :: suf)) =
      .ok (some ⟨(p.length : Int), (((encodeBody value).length + 2 : Nat) : Int), value⟩) :=
    (extract_some_iff _ _).2 ⟨p, encodeBody value, suf, rfl,
      strBody_encodeBody _ _ (le_refl _), hpre, hsuf, rfl, rfl, by
        rw [← jsonMarshal_eq]; exact hu2⟩
  refine ⟨h1, h2, ?_, hu2, ?_⟩
  · rw [hem, hlen2]
    exact hx2
  · intro st2 hc2
    have h3 := processLine_identity_emit tr st2 _ _ hid hc2 hx2
    rw [emittedLine_span] at h3
    rw [hem]
    have e : p ++ jsonMarshal value ++ suf = p ++ 0x22 :: (encodeBody value ++ 0x22 :: suf) := by
      rw [jsonMarshal_eq]; simp
    rw [e] at h3
    exact h3

theorem C16_diff_minimal_rerun_witness :
    (processLine identityTranslator (Run.fresh ()) (ascii "  \"t\": \"a\\u003Cb\\/c\",")).1.out =
        ascii "  \"t\": \"a\\u003cb/c\",\n" ∧
      (processLine identityTranslator (Run.fresh ()) (ascii "  \"t\": \"a\\u003cb/c\",")).1.out =
        ascii "  \"t\": \"a\\u003cb/c\",\n" := by
  have h := C16_diff_minimal_rerun identityTranslator (Run.fresh ())
    (ascii "  \"t\": \"a\\u003Cb\\/c\",") ⟨7, 13, ascii "a<b/c"⟩ (fun _ _ _ _ _ => rfl)
    (fun v t h => by cases h) (by decide)
  have he : emittedLine (ascii "  \"t\": \"a\\u003Cb\\/c\",") ⟨7, 13, ascii "a<b/c"⟩
      (ascii "a<b/c") = ascii "  \"t\": \"a\\u003cb/c\"," := by decide
  rw [he] at h
  exact ⟨h.2.1, (h.2.2.2.2 (Run.fresh ()) (fun v t h => by cases h)).2⟩

/-! ## The lines of the output -/

/-- A round that ends without error writes one line, the input line or the input line
with its candidate literal replaced, and the line separator. -/
theorem processLine_written {σ : Type} (tr : Translator σ) (st : Run σ) (l : Bytes)
    (hok : (processLine tr st l).2 = none) :
    ∃ o, WrittenFor l o ∧ (processLine tr st l).1.out = st.out ++ o ++ [0x0A] := by
  unfold processLine at hok ⊢
  cases hx : extract l with
  | error e => rw [hx] at hok; cases hok
  | ok opt =>
    cases opt with
    | none => exact ⟨l, Or.inl rfl, rfl⟩
    | some cand =>
      rw [hx] at hok
      dsimp only at hok ⊢
      obtain ⟨p, body, suf, hl, -, -, -, hoff, hlen, -⟩ := (extract_some_iff l cand).1 hx
      obtain ⟨off, len, value⟩ := cand
      dsimp only at hoff hlen
      subst hoff hlen hl
      cases hc : st.cache value with
      | some s =>
        refine ⟨_, Or.inr ⟨_, s, hx, rfl⟩, ?_⟩
        rw [translateClosure_hit tr st p body suf value s hc, emittedLine_span]
        simp [lineSeparator]
      | none =>
        cases hr : (tr.Translate st.tstate st.number (p.length : Int)
            ((body.length + 2 : Nat) : Int) value).1 with
        | error e =>
          rw [translateClosure_miss_error tr st _ _ e hc hr] at hok
          cases hok
        | ok s =>
          refine ⟨_, Or.inr ⟨_, s, hx, rfl⟩, ?_⟩
          rw [translateClosure_miss_ok tr st p body suf value s hc hr, emittedLine_span]
          simp [lineSeparator]

theorem writtenFor_no_line_feed {l o : Bytes} (h : WrittenFor l o) (hl : ∀ x ∈ l, x ≠ 0x0A) :
    ∀ x ∈ o, x ≠ 0x0A := by
  rcases h with rfl | ⟨cand, t, -, rfl⟩
  · exact hl
  · intro x hx
    unfold emittedLine at hx
    rcases List.mem_append.1 hx with hx | hx
    · rcases List.mem_append.1 hx with hx | hx
      · exact hl x (List.mem_of_mem_take hx)
      · exact jsonMarshal_no_line_feed t x hx
    · exact hl x (List.mem_of_mem_drop hx)

theorem count_withTerminators (outs : List Bytes) (h : ∀ o ∈ outs, ∀ x ∈ o, x ≠ 0x0A) :
    (withTerminators outs).count 0x0A = outs.length := by
  induction outs with
  | nil => rfl
  | cons o rest ih =>
    rw [withTerminators, List.count_append, List.count_append, List.length_cons,
      ih (fun o2 ho2 => h o2 (List.mem_cons_of_mem _ ho2))]
    have h0 : o.count 0x0A = 0 :=
      List.count_eq_zero.2 (fun hm => h o (List.mem_cons_self _ _) 0x0A hm rfl)
    rw [h0]
    simp
    omega

theorem forall₂_writtenFor_no_line_feed {lines outs : List Bytes}
    (h : List.Forall₂ WrittenFor lines outs) (hl : ∀ l ∈ lines, ∀ x ∈ l, x ≠ 0x0A) :
    ∀ o ∈ outs, ∀ x ∈ o, x ≠ 0x0A := by
  induction h with
  | nil => intro o ho; cases ho
  | cons hw _ ih =>
    intro o ho
    rcases List.mem_cons.1 ho with rfl | ho
    · exact writtenFor_no_line_feed hw (hl _ (List.mem_cons_self _ _))
    · exact ih (fun l2 hl2 => hl l2 (List.mem_cons_of_mem _ hl2)) o ho

/-- When every line is delivered and the run ends without error, the output is one
terminated line for each input line, in order, each the input line with at most its
candidate literal replaced; if no input line holds a line feed, the output holds as
many line feeds as there are lines. -/
theorem translateLoop_line_structure {σ : Type} (tr : Translator σ) (m : Nat)
    (lines : List Bytes) :
    ∀ (st : Run σ), (∀ l ∈ lines, l.length < m) → (translateLoop tr m lines st).err = none →
      ∃ outs, List.Forall₂ WrittenFor lines outs ∧
        (translateLoop tr m lines st).run.out = st.out ++ withTerminators outs ∧
        ((∀ l ∈ lines, ∀ x ∈ l, x ≠ 0x0A) →
          (withTerminators outs).count 0x0A = lines.length) := by
  have main : ∀ (lines : List Bytes) (st : Run σ), (∀ l ∈ lines, l.length < m) →
      (translateLoop tr m lines st).err = none →
      ∃ outs, List.Forall₂ WrittenFor lines outs ∧
        (translateLoop tr m lines st).run.out = st.out ++ withTerminators outs := by
    intro lines
    induction lines with
    | nil =>
      intro st _ _
      exact ⟨[], List.Forall₂.nil, by simp [translateLoop, withTerminators]⟩
    | cons l rest ih =>
      intro st hfit hok
      rw [translateLoop_cons tr m l rest st (hfit l (List.mem_cons_self _ _))] at hok ⊢
      have hw := processLine_written tr { st with number := st.number + 1 } l
      cases hp : processLine tr { st with number := st.number + 1 } l with
      | mk st2 oe =>
        rw [hp] at hok hw
        cases oe with
        | some e => cases hok
        | none =>
          dsimp only at hok hw ⊢
          obtain ⟨o, hwo, hout⟩ := hw rfl
          obtain ⟨outs, hf, hout2⟩ :=
            ih st2 (fun x hx => hfit x (List.mem_cons_of_mem _ hx)) hok
          refine ⟨o :: outs, List.Forall₂.cons hwo hf, ?_⟩
          rw [hout2, hout, withTerminators]
          simp
  intro st hfit hok
  obtain ⟨outs, hf, hout⟩ := main lines st hfit hok
  refine ⟨outs, hf, hout, fun hlf => ?_⟩
  rw [count_withTerminators outs (forall₂_writtenFor_no_line_feed hf hlf)]
  exact hf.length_eq.symm

/-- A line that does not fit the scanner's buffer ends the loop without error: the
output is that of the lines before it, and it and the lines after it stay unread. -/
theorem translateLoop_stops_at_long_line {σ : Type} (tr : Translator σ) (m : Nat)
    (pre post : List Bytes) (long : Bytes) (st : Run σ)
    (hfit : ∀ x ∈ pre, x.length < m) (hpre : (runLines tr pre st).2 = none)
    (hlong : ¬ long.length < m) :
    (translateLoop tr m (pre ++ long :: post) st).err = none ∧
      (translateLoop tr m (pre ++ long :: post) st).run.out = (runLines tr pre st).1.out ∧
      (translateLoop tr m (pre ++ long :: post) st).unread = long :: post := by
  rw [translateLoop_append tr m pre (long :: post) st hfit hpre, translateLoop, if_neg hlong]
  exact ⟨rfl, rfl, rfl⟩

/-- C17 (failing input). Line structure is not preserved when a line does not fit the
scanner's buffer: on the three-line file `in.json` read with `WithMaxLineLength(8)`,
`Translate` returns no error, yet the output holds the first line only; the second line
(15 bytes) and the third are never delivered, because `Scan` reports `false` and the
scanner's error is not consulted. -/
theorem C17_line_structure_failing_input :
    (Engine.Translate sampleFiles ⟨fun _ => none⟩
        [.WithTranslator (some identityTranslator), .WithInputFilePath "in.json",
          .WithMaxLineLength 8, .WithOutputWriter (some [])]).err = none ∧
      (Engine.Translate sampleFiles ⟨fun _ => none⟩
        [.WithTranslator (some identityTranslator), .WithInputFilePath "in.json",
          .WithMaxLineLength 8, .WithOutputWriter (some [])]).writer = some (ascii "\x7b\n") ∧
      (Engine.Translate sampleFiles ⟨fun _ => none⟩
        [.WithTranslator (some identityTranslator), .WithInputFilePath "in.json",
          .WithMaxLineLength 8, .WithOutputWriter (some [])]).unread =
        some [ascii "  \"a\": \"hello\",", ascii "\x7d"] := by
  decide


/-! ## The round trip with a translator that returns its input -/

theorem roundTripLine_of_candidate {l : Bytes} {c : Candidate}
    (h : extract l = .ok (some c)) : roundTripLine l = emittedLine l c c.value := by
  unfold roundTripLine
  rw [h]

theorem roundTripLine_of_none {l : Bytes} (h : extract l = .ok none) : roundTripLine l = l := by
  unfold roundTripLine
  rw [h]

/-- With a translator that returns its input, a round that ends without error writes
the round-trip form of the line and keeps the cache an identity. -/
theorem processLine_roundTrip {σ : Type} (tr : Translator σ) (st : Run σ) (l : Bytes)
    (hid : ∀ s n o len v, (tr.Translate s n o len v).1 = .ok v)
    (hcache : CacheIsIdentity st) (hok : (processLine tr st l).2 = none) :
    (processLine tr st l).1.out = st.out ++ roundTripLine l ++ [0x0A] ∧
      CacheIsIdentity (processLine tr st l).1 := by
  cases hx : extract l with
  | error e =>
    unfold processLine at hok
    rw [hx] at hok
    cases hok
  | ok o =>
    cases o with
    | none =>
      rw [roundTripLine_of_none hx]
      unfold processLine
      rw [hx]
      exact ⟨rfl, hcache⟩
    | some cand =>
      rw [roundTripLine_of_candidate hx]
      refine ⟨(processLine_identity_emit tr st l cand hid hcache hx).2, ?_⟩
      obtain ⟨p, body, suf, hl, -, -, -, hoff, hlen, -⟩ := (extract_some_iff l cand).1 hx
      obtain ⟨off, len, value⟩ := cand
      dsimp only at hoff hlen
      subst hoff hlen hl
      unfold processLine
      rw [hx]
      dsimp only
      cases hc : st.cache value with
      | some s =>
        rw [translateClosure_hit tr st p body suf value s hc]
        exact hcache
      | none =>
        rw [translateClosure_miss_ok tr st p body suf value value hc (hid _ _ _ _ _)]
        intro v t hvt
        dsimp only at hvt
        by_cases hv : v = value
        · rw [if_pos hv] at hvt
          rw [hv]
          exact (Option.some.inj hvt).symm
        · rw [if_neg hv] at hvt
          exact hcache v t hvt

theorem translateLoop_roundTrip {σ : Type} (tr : Translator σ) (m : Nat)
    (hid : ∀ s n o len v, (tr.Translate s n o len v).1 = .ok v) (lines : List Bytes) :
    ∀ (st : Run σ), CacheIsIdentity st → (∀ l ∈ lines, l.length < m) →
      (translateLoop tr m lines st).err = none →
      (translateLoop tr m lines st).run.out =
        st.out ++ withTerminators (lines.map roundTripLine) := by
  induction lines with
  | nil =>
    intro st _ _ _
    simp [translateLoop, withTerminators]
  | cons l rest ih =>
    intro st hcache hfit hok
    have hl : l.length < m := hfit l (List.mem_cons_self _ _)
    rw [translateLoop_cons tr m l rest st hl] at hok ⊢
    have hstep := processLine_roundTrip tr { st with number := st.number + 1 } l hid hcache
    cases hp : processLine tr { st with number := st.number + 1 } l with
    | mk st2 oe =>
      rw [hp] at hok hstep
      cases oe with
      | some e => cases hok
      | none =>
        dsimp only at hok ⊢
        obtain ⟨hout, hc2⟩ := hstep rfl
        rw [ih st2 hc2 (fun x hx => hfit x (List.mem_cons_of_mem _ hx)) hok]
        dsimp only at hout
        rw [hout, List.map_cons, withTerminators]
        simp

/-- On a candidate line the round-trip form is the line itself exactly when the encoder
writes the literal as it stands for the decoded text. -/
theorem roundTripLine_eq_self_iff {l : Bytes} {c : Candidate}
    (hx : extract l = .ok (some c)) :
    roundTripLine l = l ↔ c.literal l = jsonMarshal c.value := by
  rw [roundTripLine_of_candidate hx]
  obtain ⟨p, body, suf, hl, -, -, -, hoff, hlen, -⟩ := (extract_some_iff l c).1 hx
  obtain ⟨off, len, value⟩ := c
  dsimp only at hoff hlen ⊢
  subst hoff hlen hl
  rw [emittedLine_span]
  have hlit : Candidate.literal ⟨(p.length : Int), ((body.length + 2 : Nat) : Int), value⟩
      (p ++ 0x22 :: (body ++ 0x22 :: suf)) = 0x22 :: (body ++ [0x22]) := by
    unfold Candidate.literal
    dsimp only
    rw [Int.toNat_ofNat, Int.toNat_ofNat, drop_pre]
    have := take_literal body suf
    rw [show 1 + body.length + 1 = body.length + 2 by omega] at this
    exact this
  rw [hlit]
  have hsplit : p ++ 0x22 :: (body ++ 0x22 :: suf) = p ++ (0x22 :: (body ++ [0x22])) ++ suf := by
    simp
  rw [hsplit]
  constructor
  · intro h
    have h1 := List.append_cancel_right h
    exact (List.append_cancel_left h1).symm
  · intro h
    rw [h]

/-- The literal of a candidate is what the encoder writes for some well-formed text
exactly when it is what the encoder writes for the literal's own decoded text, which is
well-formed. -/
theorem literal_encoded_iff {l : Bytes} {c : Candidate} (hx : extract l = .ok (some c)) :
    (∃ v, WellFormed v ∧ c.literal l = jsonMarshal v) ↔
      WellFormed c.value ∧ c.literal l = jsonMarshal c.value := by
  obtain ⟨p, body, suf, hl, -, -, -, hoff, hlen, hval⟩ := (extract_some_iff l c).1 hx
  have hlit : c.literal l = 0x22 :: (body ++ [0x22]) := by
    unfold Candidate.literal
    rw [hoff, hlen, hl, Int.toNat_ofNat, Int.toNat_ofNat, drop_pre]
    have := take_literal body suf
    rw [show 1 + body.length + 1 = body.length + 2 by omega] at this
    exact this
  have hwf : WellFormed c.value := by
    rw [unquoteBytes_eq_unquoteBody] at hval
    exact wellFormed_unquoteBody body.length body c.value (le_refl _) hval
  constructor
  · rintro ⟨v, hv, hlv⟩
    refine ⟨hwf, ?_⟩
    have h1 : unquoteBytes (jsonMarshal v) = some v := by
      rw [jsonMarshal_eq, unquoteBytes_eq_unquoteBody]
      exact unquoteBody_encodeBody hv
    rw [← hlv, hlit, hval] at h1
    rw [Option.some.inj h1]
    exact hlv
  · intro h
    exact ⟨c.value, h.1, h.2⟩

theorem append_line_feed_inj : ∀ (x y r s : Bytes), (∀ b ∈ x, b ≠ 0x0A) → (∀ b ∈ y, b ≠ 0x0A) →
    x ++ 0x0A :: r = y ++ 0x0A :: s → x = y ∧ r = s := by
  intro x
  induction x with
  | nil =>
    intro y r s _ hy h
    cases y with
    | nil =>
      simp only [List.nil_append, List.cons.injEq, true_and] at h
      exact ⟨rfl, h⟩
    | cons b y =>
      simp only [List.nil_append, List.cons_append, List.cons.injEq] at h
      exact absurd h.1.symm (hy b (List.mem_cons_self _ _))
  | cons a x ih =>
    intro y r s hx hy h
    cases y with
    | nil =>
      simp only [List.nil_append, List.cons_append, List.cons.injEq] at h
      exact absurd h.1 (hx a (List.mem_cons_self _ _))
    | cons b y =>
      simp only [List.cons_append, List.cons.injEq] at h
      obtain ⟨h1, h2⟩ := ih y r s (fun c hc => hx c (List.mem_cons_of_mem _ hc))
        (fun c hc => hy c (List.mem_cons_of_mem _ hc)) h.2
      exact ⟨by rw [h.1, h1], h2⟩

theorem roundTripLine_no_line_feed {l : Bytes} (hl : ∀ x ∈ l, x ≠ 0x0A) :
    ∀ x ∈ roundTripLine l, x ≠ 0x0A := by
  refine writtenFor_no_line_feed ?_ hl
  unfold WrittenFor roundTripLine
  cases hx : extract l with
  | error e => exact Or.inl rfl
  | ok o =>
    cases o with
    | none => exact Or.inl rfl
    | some cand => exact Or.inr ⟨cand, cand.value, rfl, rfl⟩

/-- Lines without a line feed are recovered from their terminated concatenation: if the
round-trip forms of the lines give the same bytes as the lines, every line is its own
round-trip form. -/
theorem roundTrip_withTerminators_inj : ∀ (lines : List Bytes),
    (∀ l ∈ lines, ∀ x ∈ l, x ≠ 0x0A) →
    withTerminators (lines.map roundTripLine) = withTerminators lines →
    ∀ l ∈ lines, roundTripLine l = l := by
  intro lines
  induction lines with
  | nil => intro _ _ l hl; cases hl
  | cons a rest ih =>
    intro hlf h l hl
    rw [List.map_cons, withTerminators, withTerminators] at h
    simp only [List.append_assoc, List.singleton_append] at h
    obtain ⟨h1, h2⟩ := append_line_feed_inj _ _ _ _
      (roundTripLine_no_line_feed (hlf a (List.mem_cons_self _ _)))
      (hlf a (List.mem_cons_self _ _)) h
    rcases List.mem_cons.1 hl with rfl | hl
    · exact h1
    · exact ih (fun x hx => hlf x (List.mem_cons_of_mem _ hx)) h2 l hl

theorem map_roundTripLine_eq_self (lines : List Bytes)
    (h : ∀ l ∈ lines, roundTripLine l = l) : lines.map roundTripLine = lines := by
  induction lines with
  | nil => rfl
  | cons a rest ih =>
    rw [List.map_cons, h a (List.mem_cons_self _ _),
      ih (fun x hx => h x (List.mem_cons_of_mem _ hx))]

/-- Text made of the ASCII bytes the encoder copies is well-formed and is written as it
stands. -/
theorem encodeBody_htmlSafe : ∀ (body : Bytes), (∀ b ∈ body, htmlSafe b = true) →
    WellFormed body ∧ encodeBody body = body := by
  intro body
  induction body with
  | nil => intro _; exact ⟨WellFormed.nil, rfl⟩
  | cons b rest ih =>
    intro h
    have hb : htmlSafe b = true := h b (List.mem_cons_self _ _)
    have hlt : b < 0x80 := by
      unfold htmlSafe at hb
      simp only [Bool.and_eq_true, decide_eq_true_eq] at hb
      exact hb.1.1.1.1.1.2
    obtain ⟨hw, he⟩ := ih (fun x hx => h x (List.mem_cons_of_mem _ hx))
    refine ⟨wellFormed_cons_ascii hlt hw, ?_⟩
    rw [encodeBody_cons, encodeStep, if_pos hlt, if_pos hb, he]
    rfl


/-- C5 (as amended). Round trip on untranslated values: with a translator that returns
its input unchanged, on an engine whose cache maps texts to themselves only (a fresh
engine has no entry), for an input whose lines the scanner delivers and on which the
run succeeds, the output is the lines in their round-trip form, each followed by one line
feed: a line without candidate as it stands, a candidate line with its literal replaced
by the encoding of the literal's decoded text. The output is the input lines each
followed by one line feed when every candidate literal is what the encoder writes for
some well-formed text, in particular when the bytes between its quotes are all ASCII
bytes the encoder copies; and for lines without line feed, only then: the decoded text of
every candidate is well-formed and its encoding is the literal as it stands. -/
theorem C5_round_trip_amended {σ : Type} (tr : Translator σ) (sc : Scanner) (st : Run σ)
    (hid : ∀ s n o len v, (tr.Translate s n o len v).1 = .ok v)
    (hcache : CacheIsIdentity st)
    (hfit : ∀ l ∈ sc.lines, l.length < sc.maxTokenSize)
    (hok : (Engine.translate tr sc st).err = none) :
    (Engine.translate tr sc st).run.out =
        st.out ++ withTerminators (sc.lines.map roundTripLine) ∧
      (∀ l ∈ sc.lines, ∀ c, extract l = .ok (some c) →
        roundTripLine l = l.take c.offset.toNat ++ jsonMarshal c.value ++
          l.drop (c.offset + c.length).toNat) ∧
      (∀ l ∈ sc.lines, extract l = .ok none → roundTripLine l = l) ∧
      ((∀ l ∈ sc.lines, ∀ c, extract l = .ok (some c) →
          ∃ v, WellFormed v ∧ c.literal l = jsonMarshal v) →
        (Engine.translate tr sc st).run.out = st.out ++ withTerminators sc.lines) ∧
      ((∀ l ∈ sc.lines, ∀ c, extract l = .ok (some c) →
          ∃ body, c.literal l = 0x22 :: (body ++ [0x22]) ∧ ∀ b ∈ body, htmlSafe b = true) →
        (Engine.translate tr sc st).run.out = st.out ++ withTerminators sc.lines) ∧
      ((∀ l ∈ sc.lines, ∀ x ∈ l, x ≠ 0x0A) →
        (Engine.translate tr sc st).run.out = st.out ++ withTerminators sc.lines →
        ∀ l ∈ sc.lines, ∀ c, extract l = .ok (some c) →
          WellFormed c.value ∧ c.literal l = jsonMarshal c.value) := by
  have hout := translateLoop_roundTrip tr sc.maxTokenSize hid sc.lines st hcache hfit hok
  have henc : (∀ l ∈ sc.lines, ∀ c, extract l = .ok (some c) →
      ∃ v, WellFormed v ∧ c.literal l = jsonMarshal v) →
      (Engine.translate tr sc st).run.out = st.out ++ withTerminators sc.lines := by
    intro h
    have hself : ∀ l ∈ sc.lines, roundTripLine l = l := by
      intro l hl
      cases hx : extract l with
      | error e => unfold roundTripLine; rw [hx]
      | ok o =>
        cases o with
        | none => exact roundTripLine_of_none hx
        | some c =>
          exact (roundTripLine_eq_self_iff hx).2 ((literal_encoded_iff hx).1 (h l hl c hx)).2
    unfold Engine.translate
    rw [hout, map_roundTripLine_eq_self sc.lines hself]
  refine ⟨hout, ?_, ?_, henc, ?_, ?_⟩
  · intro l _ c hx
    rw [roundTripLine_of_candidate hx]
    rfl
  · intro l _ hx
    exact roundTripLine_of_none hx
  · intro h
    apply henc
    intro l hl c hx
    obtain ⟨body, hlit, hsafe⟩ := h l hl c hx
    obtain ⟨hw, he⟩ := encodeBody_htmlSafe body hsafe
    refine ⟨body, hw, ?_⟩
    rw [hlit, jsonMarshal_eq, he]
  · intro hlf hsame l hl c hx
    have h2 : withTerminators (sc.lines.map roundTripLine) = withTerminators sc.lines := by
      have h3 : st.out ++ withTerminators (sc.lines.map roundTripLine) =
          st.out ++ withTerminators sc.lines := by
        rw [← hsame]
        exact hout.symm
      exact List.append_cancel_left h3
    have hself := roundTrip_withTerminators_inj sc.lines hlf h2 l hl
    have hlit := (roundTripLine_eq_self_iff hx).1 hself
    have hwf : WellFormed c.value := by
      obtain ⟨p, body, suf, -, -, -, -, -, -, hval⟩ := (extract_some_iff l c).1 hx
      rw [unquoteBytes_eq_unquoteBody] at hval
      exact wellFormed_unquoteBody body.length body c.value (le_refl _) hval
    exact ⟨hwf, hlit⟩

theorem C5_round_trip_amended_witness :
    (Engine.translate identityTranslator
        ⟨[ascii "\x7b", ascii "  \"t\": \"a<b\",", ascii "\x7d"], MaxScanTokenSize⟩
        (Run.fresh ())).run.out = ascii "\x7b\n  \"t\": \"a\\u003cb\",\n\x7d\n" ∧
      (Engine.translate identityTranslator
        ⟨[ascii "\x7b", ascii "  \"a\": \"hello\",", ascii "\x7d"], MaxScanTokenSize⟩
        (Run.fresh ())).run.out = ascii "\x7b\n  \"a\": \"hello\",\n\x7d\n" := by
  have h1 := (C5_round_trip_amended identityTranslator
    ⟨[ascii "\x7b", ascii "  \"t\": \"a<b\",", ascii "\x7d"], MaxScanTokenSize⟩ (Run.fresh ())
    (fun _ _ _ _ _ => rfl) (fun v t h => by cases h) (by decide) (by decide)).1
  have h2 := (C5_round_trip_amended identityTranslator
    ⟨[ascii "\x7b", ascii "  \"a\": \"hello\",", ascii "\x7d"], MaxScanTokenSize⟩ (Run.fresh ())
    (fun _ _ _ _ _ => rfl) (fun v t h => by cases h) (by decide) (by decide)).2.2.2.2.1
    (by
      intro l hl c hc
      have hl2 : l = ascii "\x7b" ∨ l = ascii "  \"a\": \"hello\"," ∨ l = ascii "\x7d" := by
        simpa using hl
      rcases hl2 with rfl | rfl | rfl
      · have hx : extract (ascii "\x7b") = .ok none := by decide
        rw [hx] at hc
        cases hc
      · have hx : extract (ascii "  \"a\": \"hello\",") =
            .ok (some ⟨7, 7, ascii "hello"⟩) := by decide
        rw [hx] at hc
        injection hc with hc
        injection hc with hc
        subst hc
        exact ⟨ascii "hello", by decide, by decide⟩
      · have hx : extract (ascii "\x7d") = .ok none := by decide
        rw [hx] at hc
        cases hc)
  exact ⟨h1.trans (by decide), h2.trans (by decide)⟩

end TranslateJson
